import Mathlib

/-!
Verification of the `BigInteger` arbitrary-precision decimal integer engine
of `redbud` (`src/redbud/bignumber.h`, `src/redbud/bignumber.cc`).

The C++ class stores a number as `std::vector<int16_t> number_`: a sequence
of base-10000 groups, least-significant group first.  Bit 14 (`0x4000`) of
`number_[0]` is the sign flag.  We embed the vector as `List Nat` (every
int16 value the program stores is non-negative and below 2^15, so Nat
arithmetic is exact; the two's-complement tests of the source are noted at
each definition).  Fallible operations (the `REDBUD_THROW_EX_IF` macro)
become `Except Err _`, carrying the exception message of the source.
Out-of-range `std::vector` indexing (undefined behaviour in C++) is
modelled as reading 0 (`List.getD`).
-/

deriving instance DecidableEq for Except

namespace Redbud

/-- An exception raised by `REDBUD_THROW_EX_IF`, identified by its message. -/
structure Err where
  msg : String
deriving DecidableEq

/-- `"Overflow."` -/
def ovErr : Err := ⟨"Overflow."⟩

/-- `"Invalid expression."` (rejected by `_is_integer`) -/
def invalidExpr : Err := ⟨"Invalid expression."⟩

/-- `"Invalid value."` (zero base, non-positive exponent in `_power_of`) -/
def invalidVal : Err := ⟨"Invalid value."⟩

/-- `"Not an integer string."` (scientific literal with too-small exponent) -/
def notIntegerStr : Err := ⟨"Not an integer string."⟩

/-- `"The divisor can not be zero."` -/
def divZeroErr : Err := ⟨"The divisor can not be zero."⟩

/-- `"The modulus can not be zero."` -/
def modZeroErr : Err := ⟨"The modulus can not be zero."⟩

/-- Sentinel for exhausted recursion fuel in the embedding.  Every loop of
the source is embedded with enough fuel that this value is never produced
on the executions the theorems talk about; it is distinct from every real
exception message. -/
def fuelErr : Err := ⟨"[recursion fuel exhausted]"⟩

/-- `#define POS_PART (0x3fffi16)` -/
def POS_PART : Nat := 16383

/-- `#define NEG_PART (0x4000i16)` -/
def NEG_PART : Nat := 16384

/-- `#define MAX_GROUPS (0x3FFFFFFEui32)` -/
def MAX_GROUPS : Nat := 1073741822

/-- `#define MAX_DIGITS (0xFFFFFFFCi64)` -/
def MAX_DIGITS : Nat := 4294967292

/-- `x & POS_PART` on a stored group value (all stored values are below
2^15, and `& 0x3fff` on such values is reduction mod 2^14). -/
def mask (v : Nat) : Nat := v % 16384

/-- `typedef enum kShift { kMoveRight = 0, kMoveLeft = 1 }` -/
inductive ShiftType where
  | kMoveRight
  | kMoveLeft
deriving DecidableEq

/-- `typedef enum kNumber { kZero, kPositiveInteger, kScientificNotation }`
(the third constructor is abbreviated here). -/
inductive NumberType where
  | kZero
  | kPositiveInteger
  | kSciNum
deriving DecidableEq

/-- The BigInteger class: `std::vector<int16_t> number_`, base-10000
groups stored least-significant first, sign bit 0x4000 in `number_[0]`. -/
structure BigInteger where
  number_ : List Nat
deriving DecidableEq

namespace BigInteger

/-- `_group(n)`: `number_[n] & POS_PART` — the nth group without the sign. -/
def group (b : BigInteger) (n : Nat) : Nat := mask (b.number_.getD n 0)

/-- `_group_size()` -/
def group_size (b : BigInteger) : Nat := b.number_.length

/-- `is_negative()`: `number_[0] > 10000`. -/
def is_negative (b : BigInteger) : Bool := 10000 < b.number_.getD 0 0

/-- `is_zero()`: `number_[0] == 0 && number_.size() == 1`. -/
def is_zero (b : BigInteger) : Bool :=
  b.number_.getD 0 0 = 0 && b.number_.length = 1

/-- `is_positive()`: `!is_negative() && !is_zero()`. -/
def is_positive (b : BigInteger) : Bool := !b.is_negative && !b.is_zero

/-- `is_odd()`: `(_group(0) & 1) == 1`. -/
def is_odd (b : BigInteger) : Bool := b.group 0 % 2 = 1

/-- `is_even()`: `(_group(0) & 1) == 0`. -/
def is_even (b : BigInteger) : Bool := b.group 0 % 2 = 0

/-- `_symbol_pos()`: `number_[0] &= POS_PART`. -/
def symbol_pos (b : BigInteger) : BigInteger :=
  ⟨b.number_.set 0 (mask (b.number_.getD 0 0))⟩

/-- `_symbol_neg()`: `if (!is_zero()) number_[0] |= NEG_PART`.  All stored
values are below 2^15, so `v | 0x4000` is `v + 0x4000` when bit 14 is
clear and `v` otherwise. -/
def symbol_neg (b : BigInteger) : BigInteger :=
  if b.is_zero then b
  else
    let v := b.number_.getD 0 0
    ⟨b.number_.set 0 (if v < NEG_PART then v + NEG_PART else v)⟩

/-- `_group_adjust(n, value)`: `number_[n] = value`. -/
def group_adjust (b : BigInteger) (n : Nat) (value : Nat) : BigInteger :=
  ⟨b.number_.set n value⟩

/-- `_clear_excess_zeros()`: pop trailing (most-significant) groups whose
masked value is 0, but never pop group 0. -/
def clear_excess_zeros (b : BigInteger) : BigInteger :=
  match b.number_ with
  | [] => b
  | h :: t => ⟨h :: (t.reverse.dropWhile (fun g => mask g = 0)).reverse⟩

/-- The magnitude of a group list: little-endian base-10000 value of the
masked groups. -/
def magL : List Nat → Nat
  | [] => 0
  | g :: t => mask g + 10000 * magL t

/-- The magnitude (absolute value) of a BigInteger. -/
def magOf (b : BigInteger) : Nat := magL b.number_

/-- The integer value a BigInteger denotes. -/
def toIntVal (b : BigInteger) : Int :=
  if b.is_negative then -(magOf b : Int) else (magOf b : Int)

/-- A well-formed representation: non-empty; group 0 is a value in
[0, 9999] optionally carrying the 0x4000 sign bit; every other group is in
[0, 9999]; no most-significant zero group (when more than one group); and
zero is never negatively signed (`[0x4000]`, i.e. "-0", is excluded). -/
def ValidRep : BigInteger → Prop
  | ⟨[]⟩ => False
  | ⟨v0 :: rest⟩ =>
      (v0 ≤ 9999 ∨ (NEG_PART ≤ v0 ∧ v0 ≤ NEG_PART + 9999)) ∧
      (∀ v ∈ rest, v ≤ 9999) ∧
      (rest ≠ [] → rest.getLast? ≠ some 0) ∧
      ¬(v0 = NEG_PART ∧ rest = [])

instance : DecidablePred ValidRep := by
  intro b
  cases b with
  | mk l =>
    cases l with
    | nil => exact isFalse (by simp [ValidRep])
    | cons h t => unfold ValidRep; infer_instance

/-- `max_digits()`: `static_cast<size_t>(-4)`, i.e. `2^w - 4` where `w` is
the bit width of `size_t` on the build platform. -/
def max_digits (sizeTBits : Nat) : Nat := 2 ^ sizeTBits - 4

/-- `digits()`: `((_group_size() - 1) << 2) + 1`, plus one for each power of
ten 10, 100, 1000, 10000 that divides into `number_.back()` (the raw most
significant element, sign bit not masked).  The source counts with
`for (int16_t i = 10; number_.back() / i; ++d, i *= 10)`; after `i = 10000`
the int16 counter wraps, which stops the loop for every storable value, so
the count is exactly these four threshold tests. -/
def backRaw (b : BigInteger) : Nat := b.number_.getLast?.getD 0

def digits (b : BigInteger) : Nat :=
  ((b.group_size - 1) * 4 + 1)
    + (if b.backRaw / 10 ≠ 0 then 1 else 0)
    + (if b.backRaw / 100 ≠ 0 then 1 else 0)
    + (if b.backRaw / 1000 ≠ 0 then 1 else 0)
    + (if b.backRaw / 10000 ≠ 0 then 1 else 0)

/-- `_compare`'s descending group-by-group loop, on the reversed (most
significant first) masked group lists of two operands of equal length. -/
def cmpRev : List Nat → List Nat → Int
  | x :: xs, y :: ys =>
      if x > y then 1 else if y > x then -1 else cmpRev xs ys
  | _, _ => 0

/-- `_compare(rhs)`: magnitude comparison — by group count first, then
group by group from the most significant end. -/
def compareAbs (a b : BigInteger) : Int :=
  if a.group_size ≠ b.group_size then
    (if b.group_size < a.group_size then 1 else -1)
  else
    cmpRev (a.number_.map mask).reverse (b.number_.map mask).reverse

/-- `compare(other)`: sign-aware comparison dispatching to `_compare`. -/
def compare (a b : BigInteger) : Int :=
  if (!a.is_negative) ^^ (!b.is_negative) then
    (if a.is_negative then -1 else 1)
  else if !a.is_negative then compareAbs a b
  else compareAbs b a

/-- `reverse()`: flip the sign of a non-zero value. -/
def reverse (b : BigInteger) : BigInteger :=
  if b.is_negative then b.symbol_pos
  else if b.is_positive then b.symbol_neg
  else b

/-- `opposite()`: copy, then `reverse()`. -/
def opposite (b : BigInteger) : BigInteger := b.reverse

/-- `absolute()`: copy, then `_symbol_pos()`. -/
def absolute (b : BigInteger) : BigInteger := b.symbol_pos

/-- The digit character for a value in [0, 9]. -/
def dCh (d : Nat) : Char := Char.ofNat (48 + d)

/-- `std::to_string` on the group values the program renders (all are below
100000 = five decimal digits; masked groups are at most 16383). -/
def decChars (n : Nat) : List Char :=
  if n < 10 then [dCh n]
  else if n < 100 then [dCh (n / 10), dCh (n % 10)]
  else if n < 1000 then [dCh (n / 100), dCh (n / 10 % 10), dCh (n % 10)]
  else if n < 10000 then
    [dCh (n / 1000), dCh (n / 100 % 10), dCh (n / 10 % 10), dCh (n % 10)]
  else
    [dCh (n / 10000), dCh (n / 1000 % 10), dCh (n / 100 % 10),
     dCh (n / 10 % 10), dCh (n % 10)]

/-- The zero-padded 4-character rendering of a non-top group (the
`< 10 / < 100 / < 1000` padding chain of `_group_to_string`). -/
def pad4 (num : Nat) : List Char :=
  (if num < 10 then ['0', '0', '0']
   else if num < 100 then ['0', '0']
   else if num < 1000 then ['0']
   else []) ++ decChars num

/-- `_group_to_string(n)`: the most significant group prints unpadded,
every other group is zero-padded to 4 characters. -/
def group_to_string (b : BigInteger) (n : Nat) : List Char :=
  if n = b.group_size - 1 then decChars (b.group n) else pad4 (b.group n)

/-- Closed form of the magnitude part of `to_string`, over the reversed
(most significant first) masked group list. -/
def renderGroupsRev : List Nat → List Char
  | [] => []
  | t :: rest => decChars t ++ rest.flatMap pad4

/-- `to_string()`: optional minus sign, then every group from the most
significant down. -/
def to_string (b : BigInteger) : List Char :=
  (if b.is_negative then ['-'] else []) ++
    (List.range b.group_size).reverse.flatMap (fun i => b.group_to_string i)

/-- `_is_pow10()`: on a non-negative value, the power if `to_string()` is a
one followed by zeros, otherwise -1. -/
def is_pow10 (b : BigInteger) : Int :=
  let num := b.to_string
  if num.headD 'x' = '1' ∧ (num.drop 1).all (fun c => c = '0') then
    (num.length : Int) - 1
  else -1

/-- The group-building loop of `_integer_init`: push `n % 10000`, divide by
10000, repeat while non-zero (fuel 20 covers every `uint64_t`). -/
def groupsOfNat : Nat → Nat → List Nat
  | 0, _ => []
  | fuel + 1, n => if n = 0 then [] else n % 10000 :: groupsOfNat fuel (n / 10000)

/-- `_integer_init(n, negative)`: `[0]` for zero, otherwise base-10000
groups of the magnitude, then `_symbol_neg()` when negative. -/
def integer_init (n : Nat) (negative : Bool) : BigInteger :=
  if n = 0 then ⟨[0]⟩
  else
    let b : BigInteger := ⟨groupsOfNat 20 n⟩
    if negative then b.symbol_neg else b

/-- `BigInteger(T n)` for a non-negative native integer. -/
def ofNat (n : Nat) : BigInteger := integer_init n false

/-- `BigInteger(T n)`: magnitude via `safe_abs`, sign from `n < 0`. -/
def ofInt (n : Int) : BigInteger := integer_init n.natAbs (decide (n < 0))

/-- `'0' <= *sz && *sz <= '9'` -/
def isDigitCh (c : Char) : Bool := '0' ≤ c && c ≤ '9'

/-- `if (*sz == '+' || *sz == '-') sz++;` — skip one optional sign. -/
def stripSign : List Char → List Char
  | c :: rest => if c = '+' || c = '-' then rest else c :: rest
  | [] => []

/-- The exponent tail validation of `_is_integer`: cursor just past the
exponent marker — optional `+`, a digit in [1-9], a digit run, end. -/
def sciExp (sz : List Char) : Except Err NumberType :=
  let sz := match sz with
            | c :: rest => if c = '+' then rest else c :: rest
            | [] => []
  match sz with
  | c :: rest =>
      if c < '1' || '9' < c then .error invalidExpr
      else if (rest.dropWhile isDigitCh) ≠ [] then .error invalidExpr
      else .ok NumberType.kSciNum
  | [] => .error invalidExpr

/-- `_is_integer(sz)`: grammar validation.  Mirrors the source exactly,
including its quirk: after the fraction's digit run the cursor is advanced
one position without checking that the skipped character is `e`/`E`.  When
that advance would step past the end of the string the source reads past
the terminator (undefined); we model it as a rejection. -/
def is_integer_core (sz : List Char) : Except Err NumberType :=
  match sz with
  | [] => .error invalidExpr
  | c :: rest =>
      if c = '0' then
        (if rest ≠ [] then .error invalidExpr else .ok NumberType.kZero)
      else if c < '1' || '9' < c then .error invalidExpr
      else
        match rest with
        | [] => .ok NumberType.kPositiveInteger
        | c2 :: rest2 =>
            if c2 = '.' then
              match rest2 with
              | [] => .error invalidExpr
              | d :: rest3 =>
                  if !isDigitCh d then .error invalidExpr
                  else
                    match rest3.dropWhile isDigitCh with
                    | [] => .error invalidExpr
                    | _ :: rest4 => sciExp rest4
            else if c2 = 'e' || c2 = 'E' then sciExp rest2
            else
              if ((c2 :: rest2).dropWhile isDigitCh) ≠ [] then
                .error invalidExpr
              else .ok NumberType.kPositiveInteger

/-- `_is_integer(sz)`: skip the sign, then validate the body. -/
def is_integer (sz : List Char) : Except Err NumberType :=
  is_integer_core (stripSign sz)

/-- A big-endian digit-character run as a number. -/
def natOfDigits (cs : List Char) : Nat :=
  cs.foldl (fun a c => a * 10 + (c.toNat - 48)) 0

/-- A little-endian (reversed) digit-character run as a number. -/
def natOfRevDigits : List Char → Nat
  | [] => 0
  | c :: rest => (c.toNat - 48) + 10 * natOfRevDigits rest

/-- `strtoul(sz, nullptr, 10)` on a digit run (MSVC `unsigned long` is
32 bits; on overflow `strtoul` clamps to `ULONG_MAX`). -/
def strtoulModel (cs : List Char) : Nat := min (natOfDigits cs) 4294967295

/-- The digit-packing loops of `_string_init`, on the reversed digit
characters: while more than four characters remain take a group of four
(`GROUP_NUM`), then one final group from what is left. -/
def packRev : List Char → List Nat
  | c1 :: c2 :: c3 :: c4 :: c5 :: rest =>
      ((c1.toNat - 48) + 10 * (c2.toNat - 48) + 100 * (c3.toNat - 48)
        + 1000 * (c4.toNat - 48)) :: packRev (c5 :: rest)
  | l => [natOfRevDigits l]

mutual

/-- `_string_init(sz)`.  The scientific-notation branch scans the string
from the right: the trailing digit run is the exponent (read with
`strtoul`), the non-digit run before it is the exponent marker (`e`, `E`,
possibly followed by `+`), and what is left (`mantRev`, reversed) is the
mantissa including the decimal point; `i` (the 1-based position of the last
mantissa character) is `mantRev.length` and `exp` (the 1-based position of
the marker) is `mantRev.length + 1`.  The repeated `_group_push` calls fail
with overflow once the group count reaches `MAX_GROUPS`, modelled by the
length tests. -/
def string_init : Nat → List Char → Except Err BigInteger
  | 0, _ => .error fuelErr
  | fuel + 1, sz => do
      let t ← is_integer sz
      if t = NumberType.kZero then
        pure ⟨[0]⟩
      else
        let result_neg := sz.headD ' ' = '-'
        let sz1 := stripSign sz
        if t = NumberType.kPositiveInteger then
          let gs := packRev sz1.reverse
          if gs.length > MAX_GROUPS then .error ovErr
          else
            let b : BigInteger := ⟨gs⟩
            pure (if result_neg then b.symbol_neg else b)
        else
          let r := sz1.reverse
          let shift := strtoulModel (r.takeWhile isDigitCh).reverse
          let r2 := r.dropWhile isDigitCh
          let mantRev := r2.dropWhile (fun c => !isDigitCh c)
          if mantRev.length = 1 then do
            let b : BigInteger := ⟨[(sz1.headD '0').toNat - 48]⟩
            let b ← shift10 fuel b shift ShiftType.kMoveLeft
            pure (if result_neg then b.symbol_neg else b)
          else
            let exp := mantRev.length + 1
            if shift < exp - 3 then .error notIntegerStr
            else do
              let gs := packRev (mantRev.filter isDigitCh)
              if gs.length > MAX_GROUPS then .error ovErr
              else do
                let b : BigInteger := ⟨gs⟩
                let b ← shift10 fuel b (shift - (exp - 3)) ShiftType.kMoveLeft
                pure (if result_neg then b.symbol_neg else b)

/-- `_shift10(n, direction)`: decimal shift.  Left: overflow check, then
group insertion when `n` is a multiple of 4, otherwise append `n` zero
characters to `to_string()` and re-parse.  Right: clear when `n` covers
every digit, group erasure when `n` is a multiple of 4, otherwise trim the
last `n` characters and re-parse. -/
def shift10 : Nat → BigInteger → Nat → ShiftType → Except Err BigInteger
  | 0, _, _, _ => .error fuelErr
  | fuel + 1, b, n, direction =>
      if b.is_zero then pure b
      else if direction = ShiftType.kMoveLeft then
        if b.digits + n > MAX_DIGITS then .error ovErr
        else if n % 4 = 0 then pure ⟨List.replicate (n / 4) 0 ++ b.number_⟩
        else string_init fuel (b.to_string ++ List.replicate n '0')
      else
        if b.digits ≤ n then pure ⟨[]⟩
        else if n % 4 = 0 then pure ⟨b.number_.drop (n / 4)⟩
        else string_init fuel (b.to_string.take (b.to_string.length - n))

end

/-- Parsing fuel: a parse triggers at most one string-path `_shift10`,
which re-parses a plain literal that triggers no further shift. -/
def parseFuel : Nat := 4

/-- `BigInteger(const char* s)` / `operator=(const char* s)`. -/
def parseStr (sz : List Char) : Except Err BigInteger := string_init parseFuel sz

/-- `_shift10` as called from arithmetic (fuel for its one possible
re-parse included). -/
def shift10W (b : BigInteger) (n : Nat) (d : ShiftType) : Except Err BigInteger :=
  shift10 parseFuel b n d

/-- The three carry loops of `_plus_with_pos`: groups of `this` and of the
addend side by side, then the leftover of whichever is longer, then a
final carry group.  `pos` is the current absolute group index; while `xs`
is non-empty the group is overwritten in place (`_group_adjust`), once `xs`
is exhausted each group is appended with `_group_push`, which fails with
overflow when the size (= `pos`) has reached `MAX_GROUPS`. -/
def plusCarryEnd (carry pos : Nat) : Except Err (List Nat) :=
  if carry ≠ 0 then
    (if pos ≥ MAX_GROUPS then .error ovErr else pure [carry])
  else pure []

/-- The second loop of `_plus_with_pos` (leftover groups of `this`, updated
in place), followed by the final carry push. -/
def plusAdjust : List Nat → Nat → Nat → Except Err (List Nat)
  | [], carry, pos => plusCarryEnd carry pos
  | x :: xs, carry, pos => do
      let s := mask x + carry
      let r ← plusAdjust xs (s / 10000) (pos + 1)
      pure ((s % 10000) :: r)

/-- The third loop of `_plus_with_pos` (leftover groups of the addend,
appended with `_group_push`), followed by the final carry push. -/
def plusPush : List Nat → Nat → Nat → Except Err (List Nat)
  | [], carry, pos => plusCarryEnd carry pos
  | y :: ys, carry, pos =>
      if pos ≥ MAX_GROUPS then .error ovErr
      else do
        let s := mask y + carry
        let r ← plusPush ys (s / 10000) (pos + 1)
        pure ((s % 10000) :: r)

def plusAux : List Nat → List Nat → Nat → Nat → Except Err (List Nat)
  | x :: xs, y :: ys, carry, pos => do
      let s := mask x + mask y + carry
      let r ← plusAux xs ys (s / 10000) (pos + 1)
      pure ((s % 10000) :: r)
  | x :: xs, [], carry, pos => plusAdjust (x :: xs) carry pos
  | [], ys, carry, pos => plusPush ys carry pos

/-- `_plus_with_pos(addend)`: magnitude addition. -/
def plus_with_pos (a b : BigInteger) : Except Err BigInteger :=
  if b.is_zero then pure a
  else if a.is_zero then pure b
  else do
    let zs ← plusAux a.number_ b.number_ 0 0
    pure ⟨zs⟩

/-- The two borrow loops of `_minus_with_pos`: the source computes
`int16_t diff = larger._group(i) - smaller._group(i) - borrow` and tests
`diff < 0` (all quantities are below 2^14, so int16 arithmetic is exact);
`diff < 0` is `larger._group(i) < smaller._group(i) + borrow`. -/
def subAux : List Nat → List Nat → Nat → List Nat
  | x :: xs, y :: ys, borrow =>
      let xv := mask x
      let yv := mask y + borrow
      if xv < yv then (xv + 10000 - yv) :: subAux xs ys 1
      else (xv - yv) :: subAux xs ys 0
  | x :: xs, [], borrow =>
      let xv := mask x
      if xv < borrow then (xv + 10000 - borrow) :: subAux xs [] 1
      else (xv - borrow) :: subAux xs [] 0
  | [], _, _ => []

/-- `_minus_with_pos(subtrahend)`: magnitude subtraction; the smaller
magnitude is subtracted from the larger and the result is negated when the
operands had to be swapped. -/
def minus_with_pos (a b : BigInteger) : BigInteger :=
  if b.is_zero then a
  else if a.is_zero then b.opposite
  else
    let cmp := compare a b
    if cmp = 0 then ofNat 0
    else
      let (larger, smaller, neg_symbol) :=
        if cmp < 0 then (b, a, true) else (a, b, false)
      let t := clear_excess_zeros ⟨subAux larger.number_ smaller.number_ 0⟩
      if neg_symbol then t.symbol_neg else t

/-- `operator+=`: sign dispatch onto the magnitude primitives. -/
def addAssign (a b : BigInteger) : Except Err BigInteger :=
  if !a.is_negative && !b.is_negative then
    plus_with_pos a b
  else if !a.is_negative && b.is_negative then
    pure (minus_with_pos a b.opposite)
  else if a.is_negative && !b.is_negative then
    pure (minus_with_pos a.symbol_pos b).reverse
  else do
    let c ← plus_with_pos a.symbol_pos b.opposite
    pure c.symbol_neg

/-- `operator-=`: sign dispatch, then `_clear_excess_zeros()`. -/
def subAssign (a b : BigInteger) : Except Err BigInteger := do
  let c ←
    if !a.is_negative && !b.is_negative then
      pure (minus_with_pos a b)
    else if !a.is_negative && b.is_negative then
      plus_with_pos a b.opposite
    else if a.is_negative && !b.is_negative then do
      let c ← plus_with_pos a.symbol_pos b
      pure c.symbol_neg
    else
      pure (minus_with_pos a.symbol_pos b.opposite).reverse
  pure c.clear_excess_zeros

/-- `_add_and_carry(n, value)`: the nth group absorbs `value`; reports a
wrap.  (The overflow guard reads `number_[n]` even when `n` is the size —
modelled, like every out-of-range read, as 0.) -/
def add_and_carry (b : BigInteger) (n : Nat) (value : Nat) :
    Except Err (BigInteger × Bool) :=
  if n ≥ MAX_GROUPS ∧ b.number_.getD n 0 + value > 9999 then .error ovErr
  else if n = b.number_.length then pure (⟨b.number_ ++ [value]⟩, false)
  else
    let s := (b.number_.getD n 0 + value) % 10000
    pure (⟨b.number_.set n s⟩, decide (s < value))

/-- The inner loop of `_multiply_with_pos`: one group `mj` of the
multiplier times every group of the multiplicand (`ags`, starting at
absolute index `j + i`), accumulated into `result` through
`_add_and_carry`; a wrap adds one to the running carry. -/
def mulInner (mj : Nat) : List Nat → Nat → Nat → BigInteger →
    Except Err (BigInteger × Nat)
  | [], _, carry, result => pure (result, carry)
  | g :: rest, idx, carry, result => do
      let p := mj * mask g + carry
      let (result, w) ← add_and_carry result idx (p % 10000)
      mulInner mj rest (idx + 1) (if w then p / 10000 + 1 else p / 10000) result

/-- The outer loop of `_multiply_with_pos` over the multiplier's groups. -/
def mulOuter (ags : List Nat) : List Nat → Nat → BigInteger →
    Except Err BigInteger
  | [], _, result => pure result
  | mj :: rest, j, result => do
      let (result, carry) ← mulInner (mask mj) ags j 0 result
      let result ←
        if carry ≠ 0 then do
          let (r, _) ← add_and_carry result (j + ags.length) carry
          pure r
        else pure result
      mulOuter ags rest (j + 1) result

/-- `_multiply_with_pos(m)`: decimal-digit overflow check, then schoolbook
multiplication into a result pre-sized to the sum of the group counts. -/
def multiply_with_pos (a m : BigInteger) : Except Err BigInteger :=
  if a.digits + m.digits - 1 > MAX_DIGITS then .error ovErr
  else do
    let result : BigInteger := ⟨List.replicate (a.group_size + m.group_size) 0⟩
    let result ← mulOuter a.number_ m.number_ 0 result
    pure result.clear_excess_zeros

/-- `operator*=`, with the receiver's state carried on the error path: the
source clears the receiver's sign (`_symbol_pos()`) before the overflow
check inside `_multiply_with_pos` / `_shift10` can fail, and a thrown
exception leaves the receiver in that sign-stripped state. -/
def mulAssignO (a b : BigInteger) : Except (Err × BigInteger) BigInteger :=
  if a.is_zero || b.is_zero then .ok (ofNat 0)
  else
    let result_neg := a.is_negative ^^ b.is_negative
    let a1 := a.symbol_pos
    let pow_of_ten := is_pow10 b.absolute
    match
      (if pow_of_ten ≥ 0 then shift10W a1 pow_of_ten.toNat ShiftType.kMoveLeft
       else multiply_with_pos a1 b.absolute) with
    | .error e => .error (e, a1)
    | .ok c => .ok (if result_neg then c.symbol_neg else c)

/-- `operator*=` with the error state dropped (the view a caller that
consumes only successful results has). -/
def mulAssign (a b : BigInteger) : Except Err BigInteger :=
  (mulAssignO a b).mapError (·.1)

/-- `_high_range(n)`: the value formed by the `n` most significant groups —
each group value, shifted into place, accumulated with `operator+=`. -/
def high_range (b : BigInteger) (n : Nat) : Except Err BigInteger :=
  let g := b.group_size
  (List.range n).foldlM
    (fun acc i => do
      let g_num := ofNat (b.group (g - (i + 1)))
      let s ← shift10W g_num ((n - (i + 1)) * 4) ShiftType.kMoveLeft
      addAssign acc s)
    (ofNat 0)

/-- The binary-search loop of `_search`: the largest `q` in `[low, high]`
with `divisor * q <= dividend`. -/
def searchLoop (dividend divisor : BigInteger) :
    Nat → Nat → Nat → Except Err Nat
  | 0, low, _ => pure low
  | fuel + 1, low, high =>
      if low < high then
        let half := (low + high) / 2
        if low + 1 = high then do
          let p ← mulAssign divisor (ofNat high)
          pure (if compare dividend p < 0 then low else high)
        else do
          let p ← mulAssign divisor (ofNat half)
          if compare dividend p < 0 then
            searchLoop dividend divisor fuel low (half - 1)
          else
            searchLoop dividend divisor fuel half high
      else pure low

/-- `_search(dividend, divisor)`: binary search over `[1, 9999]`. -/
def search (dividend divisor : BigInteger) : Except Err Nat :=
  searchLoop dividend divisor 10000 1 9999

/-- The long-division loop of `_divide_with_pos`: while the remainder has
at least as many groups as the divisor, find the next quotient group by
binary search, record it, and subtract the matching multiple. -/
def divLoop (divisor : BigInteger) :
    Nat → BigInteger → BigInteger → Except Err BigInteger
  | 0, _, _ => .error fuelErr
  | fuel + 1, a, result =>
      let g1 := a.group_size
      let g2 := divisor.group_size
      if g1 < g2 then pure result.clear_excess_zeros
      else do
        let dividend ← high_range a g2
        let cmp := compare dividend divisor
        if g1 = g2 ∧ cmp < 0 then pure result.clear_excess_zeros
        else if g1 = g2 ∧ cmp = 0 then
          pure (result.group_adjust (g1 - 1) 1).clear_excess_zeros
        else do
          let borrow := if cmp < 0 then 1 else 0
          let dividend ← high_range a (g2 + borrow)
          let quotient ← search dividend divisor
          let multiple ← mulAssign divisor (ofNat quotient)
          let multiple ← shift10W multiple ((g1 - g2 - borrow) * 4)
                           ShiftType.kMoveLeft
          let result := result.group_adjust (g1 - g2 - borrow) quotient
          let a ← subAssign a multiple
          divLoop divisor fuel a result

/-- `_divide_with_pos(divisor)`: result pre-sized to the dividend's group
count, then the long-division loop (fuel: the remainder's magnitude
strictly decreases every iteration). -/
def divide_with_pos (a divisor : BigInteger) : Except Err BigInteger :=
  divLoop divisor (a.magOf + 1) a ⟨List.replicate a.group_size 0⟩

/-- `operator/=`: zero-divisor check, sign handling, trivial comparisons,
power-of-ten fast path, then long division. -/
def divAssign (a b : BigInteger) : Except Err BigInteger := do
  if b.is_zero then .error divZeroErr
  else
    let result_neg := a.is_negative ^^ b.is_negative
    let a1 := a.symbol_pos
    let comp := compare a1 b.absolute
    let c ←
      if a1.is_zero || comp < 0 then pure (ofNat 0)
      else if comp = 0 then pure (ofNat 1)
      else
        let pow_of_ten := is_pow10 b.absolute
        if pow_of_ten ≥ 0 then
          shift10W a1 pow_of_ten.toNat ShiftType.kMoveRight
        else divide_with_pos a1 b.absolute
    pure (if result_neg then c.symbol_neg else c)

/-- `operator%=`: `*this -= (*this / modulus) * modulus`. -/
def modAssign (a b : BigInteger) : Except Err BigInteger := do
  if b.is_zero then .error modZeroErr
  else
    let d ← divAssign a b
    let tmp ← mulAssign d b
    subAssign a tmp

/-- `to_integer<uint32_t>()`: range check against `[0, 4294967295]`, then
the accumulation loop `n = n * 10000 + _group(i)` from the most significant
group down (which computes the magnitude). -/
def to_integer_u32 (b : BigInteger) : Nat × Bool :=
  if compare b (ofNat 0) < 0 ∨ compare b (ofNat 4294967295) > 0 then (0, false)
  else (b.magOf, true)

/-- `_power_of(n)`.  `POSITIVE1 = 0x1` and `NEGATIVE1 = 0x4001` are the raw
single-group encodings of 1 and -1.  The general case is recursive
squaring; fuel decreases once per recursion level. -/
def power_of : Nat → BigInteger → BigInteger → Except Err BigInteger
  | 0, _, _ => .error fuelErr
  | fuel + 1, x, n =>
      if x.is_zero && !n.is_positive then .error invalidVal
      else if x.is_zero || (x.group 0 ≠ 1 && n.is_negative) then pure (ofNat 0)
      else if n.is_zero
          || (x.number_.length = 1 && x.number_.getD 0 0 = 1)
          || (x.number_.length = 1 && x.number_.getD 0 0 = 16385 && n.is_even)
        then pure (ofNat 1)
      else if x.number_.length = 1 && x.number_.getD 0 0 = 16385 && n.is_odd
        then pure (ofInt (-1))
      else if n.number_.length = 1 && n.number_.getD 0 0 = 1 then pure x
      else
        let p := is_pow10 x.absolute
        if p ≥ 0 then do
          let pair := to_integer_u32 n
          if pair.2 = false then .error ovErr
          else
            let shift := p.toNat * pair.1
            if shift ≥ MAX_DIGITS then .error ovErr
            else do
              let result ← shift10W (ofNat 1) shift ShiftType.kMoveLeft
              pure (if x.is_negative && n.is_odd then result.symbol_neg
                    else result)
        else do
          let d1 := x.digits - 1
          let pair := to_integer_u32 n
          if pair.2 = false then .error ovErr
          else
            let shift := d1 * pair.1
            if shift ≥ MAX_DIGITS then .error ovErr
            else do
              let nh ← divAssign n (ofNat 2)
              let r1 ← power_of fuel x nh
              let r2 ← power_of fuel x nh
              let r ← mulAssign r1 r2
              if n.is_odd then mulAssign r x else pure r

/-- `power(n)` (public entry point to `_power_of`). -/
def power (x n : BigInteger) : Except Err BigInteger :=
  power_of (n.magOf + 1) x n

/-- `BigInteger(BigInteger&& other)` / move `operator=`: the
`std::vector<int16_t>` buffer is stolen, which leaves the source's vector
empty.  Returns (destination, what the source is left holding). -/
def moveFrom (other : BigInteger) : BigInteger × BigInteger :=
  (⟨other.number_⟩, ⟨([] : List Nat)⟩)

/-- The multiple-of-4 fast path of a left `_shift10` in isolation:
`number_.insert(number_.begin(), n >> 2, 0)`. -/
def shiftLeftFast (b : BigInteger) (n : Nat) : BigInteger :=
  ⟨List.replicate (n / 4) 0 ++ b.number_⟩

/-- The generic string path of a left `_shift10` in isolation: format,
append `n` zero characters, re-parse. -/
def shiftLeftGeneric (b : BigInteger) (n : Nat) : Except Err BigInteger :=
  string_init parseFuel (b.to_string ++ List.replicate n '0')

/-- The multiple-of-4 fast path of a right `_shift10` in isolation:
`number_.erase(number_.begin(), number_.begin() + (n >> 2))`. -/
def shiftRightFast (b : BigInteger) (n : Nat) : BigInteger :=
  ⟨b.number_.drop (n / 4)⟩

/-- The generic string path of a right `_shift10` in isolation: format,
trim the last `n` characters, re-parse. -/
def shiftRightGeneric (b : BigInteger) (n : Nat) : Except Err BigInteger :=
  string_init parseFuel (b.to_string.take (b.to_string.length - n))

/-- A value whose decimal-digit count exceeds `MAX_DIGITS`: the group
0x4001 (-1 with the sign bit) followed by 2^30 groups holding 1; its
`digits()` is 4 * 2^30 + 1 = 4294967297. -/
def bigA : BigInteger := ⟨16385 :: List.replicate 1073741824 1⟩

/-- A scientific-notation literal as the grammar of `_is_integer` describes
it: optional sign, one mantissa digit `d` in [1, 9], an optional fraction
`frac`, the marker `e`/`E`, an optional `+`, and the exponent digits `eDs`
(non-empty, no leading zero). -/
structure SciLit where
  sgn : Option Bool
  d : Nat
  frac : List Nat
  eUpper : Bool
  ePlus : Bool
  eDs : List Nat

/-- The value of a big-endian decimal digit list. -/
def valOfDigs (ds : List Nat) : Nat := ds.foldl (fun a d => 10 * a + d) 0

/-- The text of a scientific-notation literal. -/
def renderSci (L : SciLit) : List Char :=
  (match L.sgn with
   | none => []
   | some true => ['-']
   | some false => ['+'])
  ++ [dCh L.d]
  ++ (if L.frac = [] then [] else '.' :: L.frac.map dCh)
  ++ [if L.eUpper then 'E' else 'e']
  ++ (if L.ePlus then ['+'] else [])
  ++ L.eDs.map dCh

end BigInteger

end Redbud

namespace Redbud.BigInteger

/-! ## Digit and character lemmas -/

theorem toNat_dCh (d : Nat) (h : d ≤ 9) : (dCh d).toNat = 48 + d := by
  interval_cases d <;> decide

theorem dCh_sub (d : Nat) (h : d ≤ 9) : (dCh d).toNat - 48 = d := by
  rw [toNat_dCh d h]
  omega

theorem isDigitCh_iff (c : Char) :
    isDigitCh c = true ↔ 48 ≤ c.toNat ∧ c.toNat ≤ 57 := by
  constructor
  · intro h
    simp only [isDigitCh, Bool.and_eq_true, decide_eq_true_eq] at h
    exact ⟨h.1, h.2⟩
  · intro h
    simp only [isDigitCh, Bool.and_eq_true, decide_eq_true_eq]
    exact ⟨h.1, h.2⟩

theorem isDigitCh_dCh (d : Nat) (h : d ≤ 9) : isDigitCh (dCh d) = true := by
  rw [isDigitCh_iff, toNat_dCh d h]
  omega

theorem dCh_toNat_sub (c : Char) (h : isDigitCh c = true) :
    dCh (c.toNat - 48) = c := by
  rw [isDigitCh_iff] at h
  unfold dCh
  rw [Nat.add_sub_cancel' h.1]
  exact Char.ofNat_toNat c

theorem toNat_sub_le (c : Char) (h : isDigitCh c = true) : c.toNat - 48 ≤ 9 := by
  rw [isDigitCh_iff] at h
  omega

theorem digit_ne_special (c : Char) (h : isDigitCh c = true) :
    c ≠ '.' ∧ c ≠ 'e' ∧ c ≠ 'E' ∧ c ≠ '+' ∧ c ≠ '-' := by
  rw [isDigitCh_iff] at h
  refine ⟨?_, ?_, ?_, ?_, ?_⟩ <;> (intro hc; subst hc; exact absurd h (by decide))

theorem dCh_eq_zeroCh_iff (d : Nat) (h : d ≤ 9) : dCh d = '0' ↔ d = 0 := by
  interval_cases d <;> simp <;> decide

theorem dCh_range_ok (d : Nat) (h1 : 1 ≤ d) (h9 : d ≤ 9) :
    (dCh d < '1' || '9' < dCh d) = false := by
  interval_cases d <;> decide

/-! ## `natOfRevDigits` and `natOfDigits` -/

theorem natOfRevDigits_append (xs ys : List Char) :
    natOfRevDigits (xs ++ ys) =
      natOfRevDigits xs + 10 ^ xs.length * natOfRevDigits ys := by
  induction xs with
  | nil => simp [natOfRevDigits]
  | cons c rest ih =>
      have ih2 : natOfRevDigits (List.append rest ys) =
          natOfRevDigits rest + 10 ^ rest.length * natOfRevDigits ys := ih
      simp only [List.cons_append, natOfRevDigits, List.length_cons, pow_succ]
      rw [ih2]
      ring

theorem natOfDigits_eq_rev (cs : List Char) :
    natOfDigits cs = natOfRevDigits cs.reverse := by
  induction cs using List.reverseRecOn with
  | nil => rfl
  | append_singleton xs c ih =>
      rw [natOfDigits, List.foldl_append, List.reverse_concat]
      simp only [List.foldl_cons, List.foldl_nil, natOfRevDigits]
      rw [← natOfDigits, ih]
      ring

theorem natOfRevDigits_lt (rcs : List Char)
    (hd : ∀ c ∈ rcs, isDigitCh c = true) :
    natOfRevDigits rcs < 10 ^ rcs.length := by
  induction rcs with
  | nil => simp [natOfRevDigits]
  | cons c rest ih =>
      have h1 := toNat_sub_le c (hd c (by simp))
      have h2 := ih (fun x hx => hd x (by simp [hx]))
      simp only [natOfRevDigits, List.length_cons, pow_succ]
      omega

theorem natOfRevDigits_last_pos (rcs : List Char) (c : Char)
    (h : isDigitCh c = true) (hc : c ≠ '0') :
    10 ^ rcs.length ≤ natOfRevDigits (rcs ++ [c]) := by
  rw [natOfRevDigits_append]
  have h1 : 1 ≤ c.toNat - 48 := by
    rw [isDigitCh_iff] at h
    rcases Nat.lt_or_ge 48 c.toNat with h2 | h2
    · omega
    · exfalso
      apply hc
      have : c.toNat = 48 := by omega
      have := dCh_toNat_sub c (by rw [isDigitCh_iff]; omega)
      rw [this.symm, ‹c.toNat = 48›]
      decide
  simp only [natOfRevDigits]
  have : 1 ≤ (c.toNat - 48) + 10 * natOfRevDigits [] := by
    simp [natOfRevDigits]; omega
  nlinarith [Nat.pos_pow_of_pos rcs.length (by norm_num : 0 < 10)]

/-! ## `decChars` and `pad4` -/

theorem decChars_spec (n : Nat) (h : n < 100000) :
    (∀ c ∈ decChars n, isDigitCh c = true) ∧
    natOfRevDigits (decChars n).reverse = n := by
  unfold decChars
  split
  · refine ⟨?_, ?_⟩
    · intro c hc
      simp only [List.mem_singleton] at hc
      subst hc
      exact isDigitCh_dCh n (by omega)
    · simp only [List.reverse_singleton, natOfRevDigits]
      rw [dCh_sub n (by omega)]
      omega
  · split
    · refine ⟨?_, ?_⟩
      · intro c hc
        simp only [List.mem_cons, List.mem_singleton, List.not_mem_nil,
          or_false] at hc
        rcases hc with rfl | rfl
        · exact isDigitCh_dCh _ (by omega)
        · exact isDigitCh_dCh _ (by omega)
      · simp only [List.reverse_cons, List.reverse_nil, List.nil_append,
          List.cons_append, natOfRevDigits]
        rw [dCh_sub _ (by omega), dCh_sub _ (by omega)]
        omega
    · split
      · refine ⟨?_, ?_⟩
        · intro c hc
          simp only [List.mem_cons, List.not_mem_nil, or_false] at hc
          rcases hc with rfl | rfl | rfl
          · exact isDigitCh_dCh _ (by omega)
          · exact isDigitCh_dCh _ (by omega)
          · exact isDigitCh_dCh _ (by omega)
        · simp only [List.reverse_cons, List.reverse_nil, List.nil_append,
            List.cons_append, List.append_assoc, List.singleton_append,
            natOfRevDigits]
          rw [dCh_sub _ (by omega), dCh_sub _ (by omega),
            dCh_sub _ (by omega)]
          omega
      · split
        · refine ⟨?_, ?_⟩
          · intro c hc
            simp only [List.mem_cons, List.not_mem_nil, or_false] at hc
            rcases hc with rfl | rfl | rfl | rfl
            · exact isDigitCh_dCh _ (by omega)
            · exact isDigitCh_dCh _ (by omega)
            · exact isDigitCh_dCh _ (by omega)
            · exact isDigitCh_dCh _ (by omega)
          · simp only [List.reverse_cons, List.reverse_nil, List.nil_append,
              List.cons_append, List.append_assoc, List.singleton_append,
              natOfRevDigits]
            rw [dCh_sub _ (by omega), dCh_sub _ (by omega),
              dCh_sub _ (by omega), dCh_sub _ (by omega)]
            omega
        · refine ⟨?_, ?_⟩
          · intro c hc
            simp only [List.mem_cons, List.not_mem_nil, or_false] at hc
            rcases hc with rfl | rfl | rfl | rfl | rfl
            · exact isDigitCh_dCh _ (by omega)
            · exact isDigitCh_dCh _ (by omega)
            · exact isDigitCh_dCh _ (by omega)
            · exact isDigitCh_dCh _ (by omega)
            · exact isDigitCh_dCh _ (by omega)
          · simp only [List.reverse_cons, List.reverse_nil, List.nil_append,
              List.cons_append, List.append_assoc, List.singleton_append,
              natOfRevDigits]
            rw [dCh_sub _ (by omega), dCh_sub _ (by omega),
              dCh_sub _ (by omega), dCh_sub _ (by omega),
              dCh_sub _ (by omega)]
            omega

theorem pad4_eq (g : Nat) (h : g ≤ 9999) :
    pad4 g = [dCh (g / 1000), dCh (g / 100 % 10), dCh (g / 10 % 10),
      dCh (g % 10)] := by
  unfold pad4 decChars
  split
  · have e1 : g / 1000 = 0 := by omega
    have e2 : g / 100 % 10 = 0 := by omega
    have e3 : g / 10 % 10 = 0 := by omega
    have e4 : g % 10 = g := by omega
    rw [e1, e2, e3, e4, (by decide : dCh 0 = '0')]
    rfl
  · split
    · have e1 : g / 1000 = 0 := by omega
      have e2 : g / 100 % 10 = 0 := by omega
      have e3 : g / 10 % 10 = g / 10 := by omega
      rw [e1, e2, e3, (by decide : dCh 0 = '0')]
      rfl
    · split
      · have e1 : g / 1000 = 0 := by omega
        have e2 : g / 100 % 10 = g / 100 := by omega
        rw [e1, e2, (by decide : dCh 0 = '0')]
        rfl
      · split
        · rfl
        · omega

theorem pad4_digits (g : Nat) (h : g ≤ 9999) :
    ∀ c ∈ pad4 g, isDigitCh c = true := by
  rw [pad4_eq g h]
  intro c hc
  simp only [List.mem_cons, List.not_mem_nil, or_false] at hc
  rcases hc with rfl | rfl | rfl | rfl
  · exact isDigitCh_dCh _ (by omega)
  · exact isDigitCh_dCh _ (by omega)
  · exact isDigitCh_dCh _ (by omega)
  · exact isDigitCh_dCh _ (by omega)

theorem pad4_length (g : Nat) (h : g ≤ 9999) : (pad4 g).length = 4 := by
  rw [pad4_eq g h]
  rfl

theorem natOfRevDigits_pad4_rev (g : Nat) (h : g ≤ 9999) :
    natOfRevDigits (pad4 g).reverse = g := by
  rw [pad4_eq g h]
  simp only [List.reverse_cons, List.reverse_nil, List.nil_append,
    List.cons_append, List.append_assoc, List.singleton_append,
    natOfRevDigits]
  rw [dCh_sub _ (by omega), dCh_sub _ (by omega), dCh_sub _ (by omega),
    dCh_sub _ (by omega)]
  omega

/-! ## `packRev` (the digit-packing loops of `_string_init`) -/

theorem mask_small (v : Nat) (h : v < 16384) : mask v = v := Nat.mod_eq_of_lt h

theorem char_lt_iff (c d : Char) : c < d ↔ c.toNat < d.toNat := by
  rw [Char.lt_def]
  exact Iff.rfl

theorem packRev_of_short (l : List Char) (h : l.length ≤ 4) :
    packRev l = [natOfRevDigits l] := by
  rcases l with _ | ⟨a, _ | ⟨b, _ | ⟨c, _ | ⟨d, _ | ⟨e, t⟩⟩⟩⟩⟩ <;>
    first
      | rfl
      | (exfalso; simp only [List.length_cons] at h; omega)

theorem packRev_spec (rcs : List Char) (hd : ∀ c ∈ rcs, isDigitCh c = true) :
    (∀ g ∈ packRev rcs, g ≤ 9999) ∧
    magL (packRev rcs) = natOfRevDigits rcs ∧
    packRev rcs ≠ [] ∧
    (rcs ≠ [] → (packRev rcs).length = (rcs.length + 3) / 4) ∧
    (packRev rcs).getLast? =
      some (natOfRevDigits (rcs.drop (4 * ((packRev rcs).length - 1)))) := by
  induction rcs using packRev.induct with
  | case1 c1 c2 c3 c4 c5 rest ih =>
      have hd' : ∀ c ∈ c5 :: rest, isDigitCh c = true := by
        intro c hc
        apply hd
        simp only [List.mem_cons] at hc ⊢
        tauto
      obtain ⟨ihb, ihm, ihne, ihl, ihg⟩ := ih hd'
      have d1 := toNat_sub_le c1 (hd c1 (by simp))
      have d2 := toNat_sub_le c2 (hd c2 (by simp))
      have d3 := toNat_sub_le c3 (hd c3 (by simp))
      have d4 := toNat_sub_le c4 (hd c4 (by simp))
      have hL' : 1 ≤ (packRev (c5 :: rest)).length :=
        List.length_pos.mpr ihne
      have hl' : (packRev (c5 :: rest)).length = (rest.length + 4) / 4 :=
        ihl (by simp)
      refine ⟨?_, ?_, ?_, ?_, ?_⟩
      · intro g hg
        simp only [packRev, List.mem_cons] at hg
        rcases hg with rfl | hg
        · omega
        · exact ihb g hg
      · show magL (_ :: packRev (c5 :: rest)) = _
        simp only [magL]
        rw [mask_small _ (by omega), ihm]
        simp only [natOfRevDigits]
        ring
      · simp [packRev]
      · intro _
        show (_ :: packRev (c5 :: rest)).length = _
        simp only [List.length_cons, List.length_cons]
        omega
      · show (_ :: packRev (c5 :: rest)).getLast? = _
        obtain ⟨p, ps, hP⟩ : ∃ p ps, packRev (c5 :: rest) = p :: ps := by
          rcases hPP : packRev (c5 :: rest) with _ | ⟨p, ps⟩
          · exact absurd hPP ihne
          · exact ⟨p, ps, rfl⟩
        have harith : 4 * (((packRev (c5 :: rest)).length + 1) - 1)
            = (((4 * ((packRev (c5 :: rest)).length - 1) + 1) + 1) + 1) + 1 := by
          omega
        rw [hP, List.getLast?_cons_cons, ← hP, ihg]
        show _ = some (natOfRevDigits (List.drop
          (4 * ((packRev (c5 :: rest)).length + 1 - 1))
          (c1 :: c2 :: c3 :: c4 :: c5 :: rest)))
        rw [harith]
        simp only [List.drop_succ_cons]
  | case2 l hno =>
      have hlen : l.length ≤ 4 := by
        rcases l with _ | ⟨a, _ | ⟨b, _ | ⟨c, _ | ⟨d, _ | ⟨e, t⟩⟩⟩⟩⟩
        · simp
        · simp
        · simp
        · simp
        · simp
        · exact absurd rfl (hno a b c d e t)
      rw [packRev_of_short l hlen]
      have hv : natOfRevDigits l < 10 ^ l.length := natOfRevDigits_lt l hd
      have hv2 : natOfRevDigits l ≤ 9999 := by
        have : (10 : Nat) ^ l.length ≤ 10 ^ 4 :=
          Nat.pow_le_pow_right (by norm_num) hlen
        simp only [pow_succ, pow_zero] at this
        omega
      refine ⟨?_, ?_, ?_, ?_, ?_⟩
      · intro g hg
        simp only [List.mem_singleton] at hg
        omega
      · simp only [magL]
        rw [mask_small _ (by omega)]
        omega
      · simp
      · intro hne
        have : 1 ≤ l.length := List.length_pos.mpr hne
        simp only [List.length_singleton]
        omega
      · simp only [List.length_singleton, Nat.sub_self, Nat.mul_zero,
          List.drop_zero, List.getLast?_singleton]

/-! ## `_is_integer` on plain digit strings -/

theorem digit_ne_zeroCh (c : Char) (h1 : isDigitCh c = true) (hc0 : c ≠ '0') :
    49 ≤ c.toNat ∧ c.toNat ≤ 57 := by
  have h2 := h1
  rw [isDigitCh_iff] at h2
  refine ⟨?_, h2.2⟩
  rcases Nat.eq_or_lt_of_le h2.1 with h | h
  · exfalso
    apply hc0
    have h3 : c.toNat = 48 := h.symm
    calc c = dCh (c.toNat - 48) := (dCh_toNat_sub c h1).symm
      _ = dCh 0 := by rw [h3]
      _ = '0' := by decide
  · omega

theorem stripSign_not_sign (c : Char) (cs : List Char)
    (hp : c ≠ '+') (hm : c ≠ '-') : stripSign (c :: cs) = c :: cs := by
  unfold stripSign
  simp [hp, hm]

theorem stripSign_minus (cs : List Char) : stripSign ('-' :: cs) = cs := by
  unfold stripSign
  simp

theorem stripSign_plus (cs : List Char) : stripSign ('+' :: cs) = cs := by
  unfold stripSign
  simp

theorem is_integer_core_digits (c : Char) (cs : List Char)
    (h1 : isDigitCh c = true) (hc0 : c ≠ '0')
    (h2 : ∀ x ∈ cs, isDigitCh x = true) :
    is_integer_core (c :: cs) = .ok NumberType.kPositiveInteger := by
  obtain ⟨hdot, he, hE, hplus, hminus⟩ := digit_ne_special c h1
  have hb := digit_ne_zeroCh c h1 hc0
  have e1 : Char.toNat '1' = 49 := by decide
  have e9 : Char.toNat '9' = 57 := by decide
  have hn1 : ¬(c < '1') := by rw [char_lt_iff, e1]; omega
  have hn9 : ¬('9' < c) := by rw [char_lt_iff, e9]; omega
  unfold is_integer_core
  cases cs with
  | nil => simp [hc0, hn1, hn9]
  | cons c2 rest2 =>
      have h2' : isDigitCh c2 = true := h2 c2 (by simp)
      obtain ⟨hdot2, he2, hE2, _, _⟩ := digit_ne_special c2 h2'
      have hdw : (c2 :: rest2).dropWhile isDigitCh = [] :=
        List.dropWhile_eq_nil_iff.mpr h2
      simp [hc0, hn1, hn9, hdot2, he2, hE2, hdw]

theorem is_integer_digits (c : Char) (cs : List Char)
    (h1 : isDigitCh c = true) (hc0 : c ≠ '0')
    (h2 : ∀ x ∈ cs, isDigitCh x = true) :
    is_integer (c :: cs) = .ok NumberType.kPositiveInteger := by
  obtain ⟨_, _, _, hplus, hminus⟩ := digit_ne_special c h1
  unfold is_integer
  rw [stripSign_not_sign c cs hplus hminus]
  exact is_integer_core_digits c cs h1 hc0 h2

theorem is_integer_minus_digits (c : Char) (cs : List Char)
    (h1 : isDigitCh c = true) (hc0 : c ≠ '0')
    (h2 : ∀ x ∈ cs, isDigitCh x = true) :
    is_integer ('-' :: c :: cs) = .ok NumberType.kPositiveInteger := by
  unfold is_integer
  rw [stripSign_minus]
  exact is_integer_core_digits c cs h1 hc0 h2

/-! ## `_string_init` on plain digit strings -/

theorem string_init_digits (fuel : Nat) (c : Char) (cs : List Char)
    (h1 : isDigitCh c = true) (hc0 : c ≠ '0')
    (h2 : ∀ x ∈ cs, isDigitCh x = true)
    (hlen : (packRev (c :: cs).reverse).length ≤ MAX_GROUPS) :
    string_init (fuel + 1) (c :: cs) = .ok ⟨packRev (c :: cs).reverse⟩ := by
  obtain ⟨_, _, _, hplus, hminus⟩ := digit_ne_special c h1
  have hng : ¬(MAX_GROUPS < (packRev (cs.reverse ++ [c])).length) := by
    rw [← List.reverse_cons]
    omega
  unfold string_init
  rw [is_integer_digits c cs h1 hc0 h2]
  simp [stripSign_not_sign c cs hplus hminus, hminus, hng, Bind.bind,
    Except.bind, pure, Except.pure]

theorem string_init_minus_digits (fuel : Nat) (c : Char) (cs : List Char)
    (h1 : isDigitCh c = true) (hc0 : c ≠ '0')
    (h2 : ∀ x ∈ cs, isDigitCh x = true)
    (hlen : (packRev (c :: cs).reverse).length ≤ MAX_GROUPS) :
    string_init (fuel + 1) ('-' :: c :: cs) =
      .ok (BigInteger.symbol_neg ⟨packRev (c :: cs).reverse⟩) := by
  have hng : ¬(MAX_GROUPS < (packRev (cs.reverse ++ [c])).length) := by
    rw [← List.reverse_cons]
    omega
  unfold string_init
  rw [is_integer_minus_digits c cs h1 hc0 h2]
  simp [stripSign_minus, hng, Bind.bind, Except.bind, pure, Except.pure]

/-! ## The closed form of `to_string` -/

theorem flatMap_range_pad (l : List Nat) (k : Nat) (hk : k ≤ l.length) :
    (List.range k).reverse.flatMap (fun i => pad4 (mask (l.getD i 0)))
      = (((l.take k).map mask).reverse).flatMap pad4 := by
  induction k with
  | zero => simp
  | succ n ih =>
      have hn : n < l.length := by omega
      rw [List.range_succ, List.reverse_append]
      simp only [List.reverse_singleton, List.singleton_append,
        List.flatMap_cons]
      rw [ih (by omega)]
      rw [List.take_succ, List.getElem?_eq_getElem hn]
      simp only [Option.toList_some, List.map_append, List.map_cons,
        List.map_nil, List.reverse_append, List.reverse_singleton,
        List.singleton_append, List.flatMap_cons]
      rw [List.getD_eq_getElem?_getD, List.getElem?_eq_getElem hn]
      rfl

theorem to_string_closed (b : BigInteger) :
    to_string b = (if b.is_negative then ['-'] else [])
      ++ renderGroupsRev ((b.number_.map mask).reverse) := by
  unfold to_string
  congr 1
  rcases hL : b.number_ with _ | ⟨v, t⟩
  · simp [group_size, hL, renderGroupsRev]
  · have hne : b.number_ ≠ [] := by rw [hL]; simp
    have hlen : b.group_size = b.number_.length := rfl
    obtain ⟨n, hn⟩ : ∃ n, b.number_.length = n + 1 := by
      rw [hL]; exact ⟨t.length, by simp⟩
    rw [← hL]
    rw [hlen, hn, List.range_succ, List.reverse_append]
    simp only [List.reverse_singleton, List.singleton_append,
      List.flatMap_cons]
    have htop : b.group_to_string n = decChars (mask (b.number_.getD n 0)) := by
      unfold group_to_string
      rw [if_pos (by rw [hlen, hn]; omega)]
      rfl
    have hrest : (List.range n).reverse.flatMap (fun i => b.group_to_string i)
        = (List.range n).reverse.flatMap
            (fun i => pad4 (mask (b.number_.getD i 0))) := by
      apply List.flatMap_congr
      intro i hi
      simp only [List.mem_reverse, List.mem_range] at hi
      unfold group_to_string
      rw [if_neg (by rw [hlen, hn]; omega)]
      rfl
    rw [htop, hrest, flatMap_range_pad b.number_ n (by omega)]
    have hsplit : (b.number_.map mask).reverse
        = mask (b.number_.getD n 0)
            :: (((b.number_.take n).map mask).reverse) := by
      conv_lhs => rw [← List.dropLast_append_getLast hne]
      rw [List.map_append, List.reverse_append]
      have hdl : b.number_.dropLast = b.number_.take n := by
        rw [List.dropLast_eq_take, hn]
        simp
      have hgl : b.number_.getLast hne = b.number_.getD n 0 := by
        rw [List.getD_eq_getElem?_getD, List.getElem?_eq_getElem (by omega),
          List.getLast_eq_getElem]
        simp [hn]
      rw [hdl, hgl]
      rfl
    rw [hsplit]
    rfl

/-! ## Parsing back a rendered value -/

theorem decChars_length_le (n : Nat) (h : n ≤ 9999) :
    (decChars n).length ≤ 4 := by
  unfold decChars
  split
  · simp
  · split
    · simp
    · split
      · simp
      · split
        · simp
        · omega

theorem decChars_ne_nil (n : Nat) : decChars n ≠ [] := by
  unfold decChars
  split
  · simp
  · split
    · simp
    · split
      · simp
      · split
        · simp
        · simp

theorem renderGroupsRev_reverse (t : Nat) (rest : List Nat) :
    (renderGroupsRev (t :: rest)).reverse
      = rest.reverse.flatMap (fun g => (pad4 g).reverse)
        ++ (decChars t).reverse := by
  simp only [renderGroupsRev, List.reverse_append, List.reverse_flatMap]
  rfl

theorem map_mask_id (l : List Nat) (h : ∀ g ∈ l, g ≤ 9999) :
    l.map mask = l := by
  induction l with
  | nil => rfl
  | cons v t ih =>
      simp only [List.map_cons]
      rw [mask_small v (by have := h v (by simp); omega),
        ih (fun g hg => h g (by simp [hg]))]

theorem packRev_render (low : List Nat) (top : Nat)
    (hl : ∀ g ∈ low, g ≤ 9999) (ht : top ≤ 9999) :
    packRev (low.flatMap (fun g => (pad4 g).reverse) ++ (decChars top).reverse)
      = low ++ [top] := by
  induction low with
  | nil =>
      simp only [List.flatMap_nil, List.nil_append]
      rw [packRev_of_short _ (by
        rw [List.length_reverse]
        exact decChars_length_le top ht)]
      rw [(decChars_spec top (by omega)).2]
  | cons g rest ih =>
      have hg : g ≤ 9999 := hl g (by simp)
      rw [List.flatMap_cons, pad4_eq g hg]
      simp only [List.reverse_cons, List.reverse_nil, List.nil_append,
        List.append_assoc, List.cons_append, List.singleton_append]
      have htail : rest.flatMap (fun g => (pad4 g).reverse)
          ++ (decChars top).reverse ≠ [] := by
        intro hcon
        rcases List.append_eq_nil.mp hcon with ⟨_, h2⟩
        exact decChars_ne_nil top (by
          have := congrArg List.reverse h2
          simpa using this)
      obtain ⟨t0, ts, hts⟩ : ∃ t0 ts,
          rest.flatMap (fun g => (pad4 g).reverse)
            ++ (decChars top).reverse = t0 :: ts := by
        rcases hE : rest.flatMap (fun g => (pad4 g).reverse)
            ++ (decChars top).reverse with _ | ⟨t0, ts⟩
        · exact absurd hE htail
        · exact ⟨t0, ts, rfl⟩
      rw [hts]
      show packRev (_ :: _ :: _ :: _ :: t0 :: ts) = _
      simp only [packRev]
      rw [← hts, ih (fun x hx => hl x (by simp [hx]))]
      rw [dCh_sub _ (by omega), dCh_sub _ (by omega), dCh_sub _ (by omega),
        dCh_sub _ (by omega)]
      have : g % 10 + 10 * (g / 10 % 10) + 100 * (g / 100 % 10)
          + 1000 * (g / 1000) = g := by omega
      rw [this]

theorem validRep_cases (b : BigInteger) (hv : ValidRep b) :
    ∃ v0 rest, b.number_ = v0 :: rest ∧
      (v0 ≤ 9999 ∨ (16384 ≤ v0 ∧ v0 ≤ 26383)) ∧
      (∀ v ∈ rest, v ≤ 9999) ∧
      (rest ≠ [] → rest.getLast? ≠ some 0) ∧
      ¬(v0 = 16384 ∧ rest = []) := by
  rcases b with ⟨l⟩
  rcases l with _ | ⟨v0, rest⟩
  · exact absurd hv (by simp [ValidRep])
  · unfold ValidRep NEG_PART at hv
    refine ⟨v0, rest, rfl, ?_, hv.2.1, hv.2.2.1, hv.2.2.2⟩
    have := hv.1
    omega

theorem decChars_head_pos (n : Nat) (h : n ≤ 9999) (h0 : 0 < n) :
    ∃ d t, 1 ≤ d ∧ d ≤ 9 ∧ decChars n = dCh d :: t := by
  unfold decChars
  split
  · exact ⟨n, [], by omega, by omega, rfl⟩
  · split
    · exact ⟨n / 10, _, by omega, by omega, rfl⟩
    · split
      · exact ⟨n / 100, _, by omega, by omega, rfl⟩
      · split
        · exact ⟨n / 1000, _, by omega, by omega, rfl⟩
        · omega

theorem map_mask_reverse_split (l : List Nat) (hne : l ≠ []) :
    (l.map mask).reverse
      = mask (l.getLast?.getD 0) :: ((l.dropLast).map mask).reverse := by
  conv_lhs => rw [← List.dropLast_append_getLast hne]
  rw [List.map_append, List.reverse_append, List.getLast?_eq_getLast l hne]
  simp

set_option maxRecDepth 65536 in
/-- Re-parsing `to_string` of a valid non-zero value produces the masked
group list, negated again when the value was negative. -/
theorem parse_to_string_raw (b : BigInteger) (fuel : Nat)
    (hv : ValidRep b) (hnz : b.is_zero = false)
    (hlen : b.number_.length ≤ MAX_GROUPS) :
    string_init (fuel + 1) (to_string b)
      = .ok (if b.is_negative then BigInteger.symbol_neg ⟨b.number_.map mask⟩
             else ⟨b.number_.map mask⟩) := by
  obtain ⟨v0, rest, hL, hr0, hrr, hlast, hnot0⟩ := validRep_cases b hv
  have hne : b.number_ ≠ [] := by rw [hL]; simp
  -- all masked groups are at most 9999
  have hmaskle : ∀ g ∈ b.number_.map mask, g ≤ 9999 := by
    intro g hg
    rw [hL] at hg
    simp only [List.map_cons, List.mem_cons, List.mem_map] at hg
    rcases hg with rfl | ⟨x, hx, rfl⟩
    · unfold mask
      omega
    · rw [mask_small x (by have := hrr x hx; omega)]
      exact hrr x hx
  -- the top (most significant) masked group is in [1, 9999]
  have htopboth : 1 ≤ mask (b.number_.getLast?.getD 0) ∧
      mask (b.number_.getLast?.getD 0) ≤ 9999 := by
    rcases hrest : rest with _ | ⟨r1, rs⟩
    · subst hrest
      rw [hL]
      simp only [List.getLast?_singleton, Option.getD_some]
      have hv0 : v0 ≠ 0 := by
        intro h0
        rw [is_zero, hL, h0] at hnz
        simp at hnz
      have hv0' : v0 ≠ 16384 := fun h => hnot0 ⟨h, rfl⟩
      unfold mask
      omega
    · have he : b.number_.getLast? = rest.getLast? := by
        rw [hL, hrest]
        simp [List.getLast?_cons_cons]
      set w := (r1 :: rs).getLast (by simp) with hwdef
      have hw : (r1 :: rs).getLast? = some w :=
        List.getLast?_eq_getLast _ (by simp)
      have hwmem : w ∈ rest := by
        rw [hrest]
        exact List.getLast_mem _
      have hwle : w ≤ 9999 := hrr w hwmem
      have hw0 : w ≠ 0 := by
        intro h0
        apply hlast (by rw [hrest]; simp)
        rw [hrest, hw, h0]
      rw [he, hrest, hw]
      simp only [Option.getD_some]
      rw [mask_small w (by omega)]
      omega
  have htoppos := htopboth.1
  have htople := htopboth.2
  -- name the pieces of the rendered string
  obtain ⟨d, dt, hd1, hd9, hdec⟩ :=
    decChars_head_pos (mask (b.number_.getLast?.getD 0)) htople htoppos
  have hdigits_dt : ∀ x ∈ dt, isDigitCh x = true := by
    intro x hx
    exact (decChars_spec (mask (b.number_.getLast?.getD 0)) (by omega)).1 x
      (by rw [hdec]; simp [hx])
  have hdigits_low : ∀ x ∈ ((b.number_.dropLast).map mask).reverse.flatMap pad4,
      isDigitCh x = true := by
    intro x hx
    simp only [List.mem_flatMap, List.mem_reverse, List.mem_map] at hx
    obtain ⟨g, ⟨y, hy, rfl⟩, hxg⟩ := hx
    have hyle : mask y ≤ 9999 := by
      have : y ∈ b.number_ := List.mem_of_mem_dropLast hy
      have h2 : mask y ∈ b.number_.map mask := List.mem_map_of_mem mask this
      exact hmaskle _ h2
    exact pad4_digits (mask y) hyle x hxg
  -- the rendered magnitude string
  have hrender : renderGroupsRev ((b.number_.map mask).reverse)
      = dCh d :: (dt ++ ((b.number_.dropLast).map mask).reverse.flatMap pad4) := by
    rw [map_mask_reverse_split b.number_ hne]
    simp only [renderGroupsRev]
    rw [hdec]
    simp
  -- parsing the magnitude characters yields the masked groups
  have hpack : packRev ((dCh d :: (dt ++
      ((b.number_.dropLast).map mask).reverse.flatMap pad4)).reverse)
      = b.number_.map mask := by
    have h0 : dCh d :: (dt ++
        ((b.number_.dropLast).map mask).reverse.flatMap pad4)
        = renderGroupsRev (mask (b.number_.getLast?.getD 0)
            :: ((b.number_.dropLast).map mask).reverse) := by
      simp only [renderGroupsRev]
      rw [hdec]
      simp
    have h1 : (dCh d :: (dt ++
        ((b.number_.dropLast).map mask).reverse.flatMap pad4)).reverse
        = ((b.number_.dropLast).map mask).flatMap (fun g => (pad4 g).reverse)
          ++ (decChars (mask (b.number_.getLast?.getD 0))).reverse := by
      rw [h0, renderGroupsRev_reverse, List.reverse_reverse]
    rw [h1, packRev_render _ _ (by
      intro g hg
      simp only [List.mem_map] at hg
      obtain ⟨y, hy, rfl⟩ := hg
      exact hmaskle _ (List.mem_map_of_mem mask (List.mem_of_mem_dropLast hy)))
      htople]
    conv_rhs => rw [← List.dropLast_append_getLast hne, List.map_append]
    have hgl : b.number_.getLast?.getD 0 = b.number_.getLast hne := by
      rw [List.getLast?_eq_getLast b.number_ hne]
      rfl
    rw [hgl]
    rfl
  have hdchd : isDigitCh (dCh d) = true := isDigitCh_dCh d (by omega)
  have hdch0 : dCh d ≠ '0' := by
    rw [Ne, dCh_eq_zeroCh_iff d (by omega)]
    omega
  have hdigits_cs : ∀ x ∈ dt ++ ((b.number_.dropLast).map mask).reverse.flatMap pad4,
      isDigitCh x = true := by
    intro x hx
    rcases List.mem_append.mp hx with h | h
    · exact hdigits_dt x h
    · exact hdigits_low x h
  have hlenpack : (packRev ((dCh d :: (dt ++
      ((b.number_.dropLast).map mask).reverse.flatMap pad4)).reverse)).length
      ≤ MAX_GROUPS := by
    rw [hpack, List.length_map]
    exact hlen
  -- split on the sign
  rcases hneg : b.is_negative with _ | _
  · rw [to_string_closed b, hneg]
    simp only [Bool.false_eq_true, if_false, List.nil_append]
    rw [hrender, string_init_digits fuel (dCh d)
      (dt ++ ((b.number_.dropLast).map mask).reverse.flatMap pad4)
      hdchd hdch0 hdigits_cs hlenpack, hpack]
  · rw [to_string_closed b, hneg]
    simp only [if_true, List.singleton_append]
    rw [hrender, string_init_minus_digits fuel (dCh d)
      (dt ++ ((b.number_.dropLast).map mask).reverse.flatMap pad4)
      hdchd hdch0 hdigits_cs hlenpack, hpack]

theorem mask_id_of_nonneg (b : BigInteger) (hv : ValidRep b)
    (hneg : b.is_negative = false) : b.number_.map mask = b.number_ := by
  obtain ⟨v0, rest, hL, hr0, hrr, hlast, hnot0⟩ := validRep_cases b hv
  apply map_mask_id
  intro g hg
  rw [hL] at hg
  rcases List.mem_cons.mp hg with rfl | h
  · rw [is_negative, hL] at hneg
    simp only [List.getD_cons_zero, decide_eq_false_iff_not,
      Nat.not_lt] at hneg
    omega
  · exact hrr g h

theorem is_zero_mk_cons (v : Nat) (l : List Nat) (h : v ≠ 0) :
    is_zero ⟨v :: l⟩ = false := by
  unfold is_zero
  simp [h]

theorem is_zero_mk_cons2 (v : Nat) (l : List Nat) (h : l ≠ []) :
    is_zero ⟨v :: l⟩ = false := by
  unfold is_zero
  have : l.length ≠ 0 := fun hh => h (List.length_eq_zero.mp hh)
  simp [this]

theorem symbol_neg_cons (v : Nat) (l : List Nat) (h : v ≠ 0 ∨ l ≠ [])
    (hlt : v < NEG_PART) :
    symbol_neg ⟨v :: l⟩ = ⟨(v + NEG_PART) :: l⟩ := by
  have hz : is_zero ⟨v :: l⟩ = false := by
    rcases h with h | h
    · exact is_zero_mk_cons v l h
    · exact is_zero_mk_cons2 v l h
  unfold symbol_neg
  rw [hz]
  simp only [Bool.false_eq_true, if_false, List.getD_cons_zero,
    List.set_cons_zero]
  rw [if_pos hlt]

theorem symbol_neg_mask_restore (b : BigInteger) (hv : ValidRep b)
    (hneg : b.is_negative = true) :
    BigInteger.symbol_neg ⟨b.number_.map mask⟩ = b := by
  obtain ⟨v0, rest, hL, hr0, hrr, hlast, hnot0⟩ := validRep_cases b hv
  have hv0range : 16384 ≤ v0 ∧ v0 ≤ 26383 := by
    rw [is_negative, hL] at hneg
    simp only [List.getD_cons_zero, decide_eq_true_eq] at hneg
    rcases hr0 with h | h
    · omega
    · exact h
  have hmaprest : rest.map mask = rest := map_mask_id rest (fun g hg => hrr g hg)
  have hml : b.number_.map mask = (v0 - 16384) :: rest := by
    have hmv : mask v0 = v0 - 16384 := by
      unfold mask
      omega
    rw [hL]
    simp only [List.map_cons, hmaprest, hmv]
  rw [hml]
  have harg : v0 - 16384 ≠ 0 ∨ rest ≠ [] := by
    by_cases hrn : rest = []
    · left
      have hv0ne : v0 ≠ 16384 := fun hh => hnot0 ⟨hh, hrn⟩
      omega
    · right
      exact hrn
  rw [symbol_neg_cons (v0 - 16384) rest harg (by unfold NEG_PART; omega)]
  have hv0eq : v0 - 16384 + NEG_PART = v0 := by
    unfold NEG_PART
    omega
  rw [hv0eq, ← hL]

/-- The central render/parse fact: re-parsing `to_string` of a valid,
non-zero value reproduces it exactly, whatever the parse fuel. -/
theorem string_init_to_string (b : BigInteger) (fuel : Nat)
    (hv : ValidRep b) (hnz : b.is_zero = false)
    (hlen : b.number_.length ≤ MAX_GROUPS) :
    string_init (fuel + 1) (to_string b) = .ok b := by
  rw [parse_to_string_raw b fuel hv hnz hlen]
  rcases hneg : b.is_negative with _ | _
  · simp only [Bool.false_eq_true, if_false]
    rw [mask_id_of_nonneg b hv hneg]
  · simp only [if_true]
    rw [symbol_neg_mask_restore b hv hneg]

/-- A valid representation that satisfies `is_zero` is exactly `[0]`. -/
theorem eq_zero_of_valid (x : BigInteger) (hv : ValidRep x)
    (hz : x.is_zero = true) : x = ⟨[0]⟩ := by
  obtain ⟨v0, rest, hL, hr0, hrr, hlast, hnot0⟩ := validRep_cases x hv
  rw [is_zero, hL] at hz
  simp only [List.getD_cons_zero, List.length_cons, Bool.and_eq_true,
    decide_eq_true_eq] at hz
  obtain ⟨h0, h1⟩ := hz
  have hrest : rest = [] := List.length_eq_zero.mp (by omega)
  cases x
  simp only [BigInteger.mk.injEq] at hL ⊢
  rw [hL, h0, hrest]

/-! ## The fast and generic `_shift10` paths -/

theorem renderGroupsRev_append (l1 l2 : List Nat) (h : l1 ≠ []) :
    renderGroupsRev (l1 ++ l2) = renderGroupsRev l1 ++ l2.flatMap pad4 := by
  rcases l1 with _ | ⟨t, r⟩
  · exact absurd rfl h
  · simp [renderGroupsRev, List.flatMap_append]

theorem pad4_zero : pad4 0 = ['0', '0', '0', '0'] := by decide

theorem flatMap_pad4_replicate (k : Nat) :
    (List.replicate k 0).flatMap pad4 = List.replicate (4 * k) '0' := by
  induction k with
  | zero => rfl
  | succ m ih =>
      rw [List.replicate_succ, List.flatMap_cons, ih, pad4_zero,
        (by ring : 4 * (m + 1) = 4 + 4 * m), List.replicate_add]
      rfl

theorem flatMap_pad4_length (l : List Nat) (h : ∀ g ∈ l, g ≤ 9999) :
    (l.flatMap pad4).length = 4 * l.length := by
  induction l with
  | nil => rfl
  | cons g r ih =>
      rw [List.flatMap_cons, List.length_append,
        pad4_length g (h g (by simp)), ih (fun x hx => h x (by simp [hx])),
        List.length_cons]
      omega

theorem getLast?_drop_ne_nil (l : List Nat) (k : Nat) (h : l.drop k ≠ []) :
    (l.drop k).getLast? = l.getLast? := by
  conv_rhs => rw [← List.take_append_drop k l]
  rw [List.getLast?_append_of_ne_nil _ h]

theorem digits_le_of_small_top (b : BigInteger) (h1 : 1 ≤ b.number_.length)
    (h2 : b.backRaw ≤ 9999) : b.digits ≤ 4 * b.number_.length := by
  have h4 : b.backRaw / 10000 = 0 := Nat.div_eq_of_lt (by omega)
  have hgs : b.group_size = b.number_.length := rfl
  unfold digits
  rw [hgs]
  split_ifs <;> omega

theorem validRep_prepend_zeros (k v0 : Nat) (rest : List Nat)
    (hv0le : v0 ≤ 9999) (hrr : ∀ v ∈ rest, v ≤ 9999)
    (hlast : rest ≠ [] → rest.getLast? ≠ some 0)
    (hv0nz : rest = [] → v0 ≠ 0) :
    ValidRep ⟨List.replicate k 0 ++ v0 :: rest⟩ ∧
    is_negative ⟨List.replicate k 0 ++ v0 :: rest⟩ = false ∧
    is_zero ⟨List.replicate k 0 ++ v0 :: rest⟩ = false := by
  have hlast2 : (v0 :: rest).getLast? ≠ some 0 := by
    rcases hre : rest with _ | ⟨r1, rs⟩
    · simp only [List.getLast?_singleton]
      intro hc
      have hc2 : v0 = 0 := by injection hc
      exact hv0nz hre hc2
    · rw [List.getLast?_cons_cons]
      have h2 := hlast (by rw [hre]; simp)
      rw [hre] at h2
      exact h2
  rcases k with _ | m
  · simp only [List.replicate_zero, List.nil_append]
    refine ⟨⟨Or.inl hv0le, hrr, hlast, ?_⟩, ?_, ?_⟩
    · rintro ⟨h1, -⟩
      exact absurd h1 (by unfold NEG_PART; omega)
    · rw [is_negative]
      simp only [List.getD_cons_zero, decide_eq_false_iff_not, Nat.not_lt]
      omega
    · rw [is_zero]
      rw [Bool.and_eq_false_iff]
      rcases hre : rest with _ | ⟨r1, rs⟩
      · left
        simp only [List.getD_cons_zero, decide_eq_false_iff_not]
        exact hv0nz hre
      · right
        simp only [List.length_cons, decide_eq_false_iff_not]
        omega
  · rw [List.replicate_succ]
    simp only [List.cons_append]
    refine ⟨⟨Or.inl (by omega), ?_, ?_, ?_⟩, ?_, ?_⟩
    · intro v hvm
      rcases List.mem_append.mp hvm with h | h
      · rw [List.eq_of_mem_replicate h]
        omega
      · rcases List.mem_cons.mp h with rfl | h2
        · omega
        · exact hrr _ h2
    · intro hne
      rw [List.getLast?_append_cons]
      exact hlast2
    · rintro ⟨h1, -⟩
      exact absurd h1 (by unfold NEG_PART; omega)
    · rw [is_negative]
      simp only [List.getD_cons_zero, decide_eq_false_iff_not, Nat.not_lt]
      omega
    · rw [is_zero]
      rw [Bool.and_eq_false_iff]
      right
      simp only [List.length_cons, List.length_append, List.length_replicate,
        decide_eq_false_iff_not]
      omega

theorem shiftLeft_fast_eq_generic (b : BigInteger) (n : Nat)
    (hv : ValidRep b) (hneg : b.is_negative = false) (hnz : b.is_zero = false)
    (h4 : n % 4 = 0) (hlen : n / 4 + b.number_.length ≤ MAX_GROUPS) :
    shiftLeftGeneric b n = .ok (shiftLeftFast b n) := by
  obtain ⟨v0, rest, hL, hr0, hrr, hlast, hnot0⟩ := validRep_cases b hv
  have hv0le : v0 ≤ 9999 := by
    rw [is_negative, hL] at hneg
    simp only [List.getD_cons_zero, decide_eq_false_iff_not, Nat.not_lt] at hneg
    omega
  have hv0nz : rest = [] → v0 ≠ 0 := by
    intro hre h0
    rw [is_zero, hL, hre, h0] at hnz
    simp at hnz
  have hfacts := validRep_prepend_zeros (n / 4) v0 rest hv0le hrr hlast hv0nz
  rw [← hL] at hfacts
  have hml : (List.replicate (n / 4) 0 ++ b.number_).map mask
      = List.replicate (n / 4) 0 ++ b.number_ := by
    rw [List.map_append, List.map_replicate, mask_small 0 (by omega),
      mask_id_of_nonneg b hv hneg]
  have hrevne : b.number_.reverse ≠ [] := by
    rw [hL]
    simp
  have hts : to_string ⟨List.replicate (n / 4) 0 ++ b.number_⟩
      = to_string b ++ List.replicate n '0' := by
    rw [to_string_closed ⟨List.replicate (n / 4) 0 ++ b.number_⟩,
      to_string_closed b, hfacts.2.1, hneg]
    simp only [Bool.false_eq_true, if_false, List.nil_append]
    rw [hml, List.reverse_append, List.reverse_replicate,
      renderGroupsRev_append _ _ hrevne, flatMap_pad4_replicate,
      (by omega : 4 * (n / 4) = n), mask_id_of_nonneg b hv hneg]
  have hfl : shiftLeftFast b n = ⟨List.replicate (n / 4) 0 ++ b.number_⟩ := rfl
  rw [hfl]
  unfold shiftLeftGeneric
  rw [← hts]
  exact string_init_to_string ⟨List.replicate (n / 4) 0 ++ b.number_⟩ 3
    hfacts.1 hfacts.2.2 (by
      show (List.replicate (n / 4) 0 ++ b.number_).length ≤ MAX_GROUPS
      rw [List.length_append, List.length_replicate]
      omega)

theorem shiftRight_fast_eq_generic (b : BigInteger) (n : Nat)
    (hv : ValidRep b) (hneg : b.is_negative = false) (hnz : b.is_zero = false)
    (h4 : n % 4 = 0) (hn : n < b.digits) (hlen : b.number_.length ≤ MAX_GROUPS) :
    shiftRightGeneric b n = .ok (shiftRightFast b n) := by
  obtain ⟨v0, rest, hL, hr0, hrr, hlast, hnot0⟩ := validRep_cases b hv
  have hv0le : v0 ≤ 9999 := by
    rw [is_negative, hL] at hneg
    simp only [List.getD_cons_zero, decide_eq_false_iff_not, Nat.not_lt] at hneg
    omega
  have hv0nz : rest = [] → v0 ≠ 0 := by
    intro hre h0
    rw [is_zero, hL, hre, h0] at hnz
    simp at hnz
  have hallle : ∀ v ∈ b.number_, v ≤ 9999 := by
    intro v hvm
    rw [hL] at hvm
    rcases List.mem_cons.mp hvm with rfl | h
    · omega
    · exact hrr _ h
  have hlast' : b.number_.getLast? ≠ some 0 := by
    rcases hre : rest with _ | ⟨r1, rs⟩
    · rw [hL, hre]
      simp only [List.getLast?_singleton]
      intro hc
      have hc2 : v0 = 0 := by injection hc
      exact hv0nz hre hc2
    · rw [hL, hre, List.getLast?_cons_cons]
      have h2 := hlast (by rw [hre]; simp)
      rw [hre] at h2
      exact h2
  have hback : b.backRaw ≤ 9999 := by
    unfold backRaw
    rcases hgl : b.number_.getLast? with _ | w
    · simp
    · simp only [Option.getD_some]
      have hne : b.number_ ≠ [] := by rw [hL]; simp
      rw [List.getLast?_eq_getLast _ hne] at hgl
      have hm := List.getLast_mem hne
      have hw : b.number_.getLast hne = w := by injection hgl
      rw [hw] at hm
      exact hallle w hm
  have hLpos : 1 ≤ b.number_.length := by rw [hL]; simp
  have hdig := digits_le_of_small_top b hLpos hback
  have hkL : n / 4 + 1 ≤ b.number_.length := by omega
  have hkeepne : b.number_.drop (n / 4) ≠ [] := by
    intro hc
    have hlc := congrArg List.length hc
    rw [List.length_drop] at hlc
    simp at hlc
    omega
  obtain ⟨k0, krest, hkE⟩ : ∃ k0 krest, b.number_.drop (n / 4) = k0 :: krest := by
    rcases hE : b.number_.drop (n / 4) with _ | ⟨a, t⟩
    · exact absurd hE hkeepne
    · exact ⟨a, t, rfl⟩
  have hkeeple : ∀ v ∈ b.number_.drop (n / 4), v ≤ 9999 :=
    fun v hvm => hallle v (List.mem_of_mem_drop hvm)
  have hkeeplast : (b.number_.drop (n / 4)).getLast? ≠ some 0 := by
    rw [getLast?_drop_ne_nil b.number_ (n / 4) hkeepne]
    exact hlast'
  have hk0le : k0 ≤ 9999 := hkeeple k0 (by rw [hkE]; simp)
  have hkrle : ∀ v ∈ krest, v ≤ 9999 :=
    fun v hvm => hkeeple v (by rw [hkE]; simp [hvm])
  have hkrlast : krest ≠ [] → krest.getLast? ≠ some 0 := by
    intro hkr
    have h2 : (k0 :: krest).getLast? = krest.getLast? := by
      rcases krest with _ | ⟨a, t⟩
      · exact absurd rfl hkr
      · rw [List.getLast?_cons_cons]
    rw [← h2, ← hkE]
    exact hkeeplast
  have hvk : ValidRep ⟨k0 :: krest⟩ :=
    ⟨Or.inl hk0le, hkrle, hkrlast,
     fun h => absurd h.1 (by unfold NEG_PART; omega)⟩
  have hknz : is_zero ⟨k0 :: krest⟩ = false := by
    rcases hkr : krest with _ | ⟨a, t⟩
    · apply is_zero_mk_cons
      intro h0
      apply hkeeplast
      rw [hkE, hkr, h0]
      simp
    · exact is_zero_mk_cons2 _ _ (by simp)
  have hknneg : is_negative ⟨k0 :: krest⟩ = false := by
    rw [is_negative]
    simp only [List.getD_cons_zero, decide_eq_false_iff_not, Nat.not_lt]
    omega
  have hmk : (k0 :: krest).map mask = k0 :: krest := by
    apply map_mask_id
    intro g hg
    rw [← hkE] at hg
    exact hkeeple g hg
  have hts : to_string b = to_string ⟨k0 :: krest⟩
      ++ (b.number_.take (n / 4)).reverse.flatMap pad4 := by
    rw [to_string_closed b, to_string_closed ⟨k0 :: krest⟩, hneg, hknneg]
    simp only [Bool.false_eq_true, if_false, List.nil_append]
    rw [hmk, mask_id_of_nonneg b hv hneg]
    conv_lhs => rw [← List.take_append_drop (n / 4) b.number_]
    rw [List.reverse_append, hkE, renderGroupsRev_append _ _ (by simp)]
  have hlowlen : ((b.number_.take (n / 4)).reverse.flatMap pad4).length = n := by
    rw [flatMap_pad4_length _ (by
      intro g hg
      rw [List.mem_reverse] at hg
      exact hallle g (List.mem_of_mem_take hg))]
    rw [List.length_reverse, List.length_take]
    omega
  have htk : (to_string b).take ((to_string b).length - n)
      = to_string ⟨k0 :: krest⟩ := by
    rw [hts, List.length_append, hlowlen]
    have h1 : (to_string ⟨k0 :: krest⟩).length + n - n
        = (to_string ⟨k0 :: krest⟩).length := by omega
    rw [h1, List.take_left]
  have hfr : shiftRightFast b n = ⟨k0 :: krest⟩ := by
    unfold shiftRightFast
    rw [hkE]
  unfold shiftRightGeneric
  rw [htk, hfr]
  exact string_init_to_string ⟨k0 :: krest⟩ 3 hvk hknz (by
    show (k0 :: krest).length ≤ MAX_GROUPS
    rw [← hkE, List.length_drop]
    omega)

/-! ## Magnitude arithmetic, canonicity and comparison -/

theorem mask_idem (g : Nat) : mask (mask g) = mask g := by
  unfold mask
  omega

theorem mask_le (g : Nat) : mask g ≤ 16383 := by
  unfold mask
  omega

theorem magL_append (l1 l2 : List Nat) :
    magL (l1 ++ l2) = magL l1 + 10000 ^ l1.length * magL l2 := by
  induction l1 with
  | nil => simp [magL]
  | cons x xs ih =>
      have ih2 : magL (List.append xs l2) = magL xs + 10000 ^ xs.length * magL l2 := ih
      simp only [List.cons_append, magL, ih, ih2, List.length_cons, pow_succ]
      ring

theorem magL_replicate_zero (k : Nat) : magL (List.replicate k 0) = 0 := by
  induction k with
  | zero => rfl
  | succ m ih => simp [List.replicate_succ, magL, ih, mask]

theorem magL_map_mask (l : List Nat) : magL (l.map mask) = magL l := by
  induction l with
  | nil => rfl
  | cons x xs ih => simp [magL, ih, mask_idem]

theorem magL_lt (l : List Nat) (h : ∀ g ∈ l, mask g ≤ 9999) :
    magL l < 10000 ^ l.length := by
  induction l with
  | nil => simp [magL]
  | cons x xs ih =>
      have hx : mask x ≤ 9999 := h x (by simp)
      have ht := ih (fun g hg => h g (by simp [hg]))
      simp only [magL, List.length_cons, pow_succ]
      omega

theorem magL_ge_of_last (l : List Nat) (hne : l ≠ [])
    (hlast : ∀ w, l.getLast? = some w → mask w ≠ 0) :
    10000 ^ (l.length - 1) ≤ magL l := by
  induction l with
  | nil => exact absurd rfl hne
  | cons x xs ih =>
      rcases xs with _ | ⟨y, ys⟩
      · have hx := hlast x (by simp)
        simp only [magL, List.length_cons, List.length_nil, Nat.add_sub_cancel,
          pow_zero]
        omega
      · have hge : 10000 ^ ((y :: ys).length - 1) ≤ magL (y :: ys) := by
          apply ih (by simp)
          intro w hw
          apply hlast w
          rw [List.getLast?_cons_cons]
          exact hw
        simp only [magL, List.length_cons] at hge ⊢
        have h2 : 10000 ^ (ys.length + 1 + 1 - 1)
            = 10000 * 10000 ^ (ys.length + 1 - 1) := by
          simp only [Nat.add_sub_cancel]
          rw [pow_succ]
          ring
        rw [h2]
        omega

theorem mem_of_getLast?_eq (l : List Nat) (w : Nat) (hne : l ≠ [])
    (hw : l.getLast? = some w) : w ∈ l := by
  rw [List.getLast?_eq_getLast _ hne] at hw
  injection hw with hw2
  rw [← hw2]
  exact List.getLast_mem hne

theorem validRep_mask_bound (b : BigInteger) (hv : ValidRep b) :
    ∀ g ∈ b.number_, mask g ≤ 9999 := by
  obtain ⟨v0, rest, hL, hr0, hrr, hlast, hnot0⟩ := validRep_cases b hv
  intro g hg
  rw [hL] at hg
  rcases List.mem_cons.mp hg with rfl | h
  · unfold mask
    omega
  · have := hrr g h
    unfold mask
    omega

theorem magL_pos_of_canonical_cons (c : Nat) (cs : List Nat)
    (hb : ∀ g ∈ c :: cs, g ≤ 9999)
    (hlast : (c :: cs).getLast? ≠ some 0) :
    1 ≤ magL (c :: cs) := by
  have hge := magL_ge_of_last (c :: cs) (by simp) (fun w hw => by
    have hwle : w ≤ 9999 := hb w (mem_of_getLast?_eq _ _ (by simp) hw)
    rw [mask_small w (by omega)]
    intro h0
    exact hlast (by rw [hw, h0]))
  have hp : 1 ≤ 10000 ^ ((c :: cs).length - 1) := Nat.one_le_pow _ _ (by omega)
  omega

theorem magOf_pos_of_nonzero (b : BigInteger) (hv : ValidRep b)
    (hnz : b.is_zero = false) : 1 ≤ magOf b := by
  obtain ⟨v0, rest, hL, hr0, hrr, hlast, hnot0⟩ := validRep_cases b hv
  unfold magOf
  rw [hL]
  rcases hre : rest with _ | ⟨r1, rs⟩
  · have hv0 : v0 ≠ 0 := by
      intro h0
      rw [is_zero, hL, hre, h0] at hnz
      simp at hnz
    have hv0' : v0 ≠ 16384 := by
      intro h
      exact hnot0 ⟨h, hre⟩
    simp only [magL, mask]
    omega
  · have hge := magL_ge_of_last (v0 :: r1 :: rs) (by simp) (fun w hw => by
      rw [List.getLast?_cons_cons] at hw
      have hwmem : w ∈ r1 :: rs := mem_of_getLast?_eq _ _ (by simp) hw
      have hwle : w ≤ 9999 := by
        apply hrr
        rw [hre]
        exact hwmem
      have hwne : w ≠ 0 := by
        intro h0
        apply hlast (by rw [hre]; simp)
        rw [hre, hw, h0]
      rw [mask_small w (by omega)]
      exact hwne)
    have hp : 1 ≤ 10000 ^ ((v0 :: r1 :: rs).length - 1) :=
      Nat.one_le_pow _ _ (by omega)
    omega

theorem magL_canonical_inj :
    ∀ (l1 l2 : List Nat), (∀ g ∈ l1, g ≤ 9999) → (∀ g ∈ l2, g ≤ 9999) →
      l1 ≠ [] → l2 ≠ [] →
      (l1.length = 1 ∨ l1.getLast? ≠ some 0) →
      (l2.length = 1 ∨ l2.getLast? ≠ some 0) →
      magL l1 = magL l2 → l1 = l2 := by
  intro l1
  induction l1 with
  | nil =>
      intro l2 _ _ hne
      exact absurd rfl hne
  | cons x xs ih =>
      intro l2 hb1 hb2 hne1 hne2 hc1 hc2 hm
      rcases l2 with _ | ⟨y, ys⟩
      · exact absurd rfl hne2
      · have hx : x ≤ 9999 := hb1 x (by simp)
        have hy : y ≤ 9999 := hb2 y (by simp)
        simp only [magL] at hm
        rw [mask_small x (by omega), mask_small y (by omega)] at hm
        have hxy : x = y ∧ magL xs = magL ys := by constructor <;> omega
        obtain ⟨hxy1, hmagt⟩ := hxy
        subst hxy1
        rcases hxs : xs with _ | ⟨a, as⟩ <;> rcases hys : ys with _ | ⟨c, cs⟩
        · rfl
        · exfalso
          rw [hxs, hys] at hmagt
          have h1 : 1 ≤ magL (c :: cs) := by
            apply magL_pos_of_canonical_cons
            · intro g hg
              exact hb2 g (by rw [hys]; simp [hg])
            · rcases hc2 with h | h
              · rw [hys] at h
                simp at h
              · rw [hys] at h
                rw [List.getLast?_cons_cons] at h
                exact h
          have h0 : magL ([] : List Nat) = 0 := rfl
          omega
        · exfalso
          rw [hxs, hys] at hmagt
          have h1 : 1 ≤ magL (a :: as) := by
            apply magL_pos_of_canonical_cons
            · intro g hg
              exact hb1 g (by rw [hxs]; simp [hg])
            · rcases hc1 with h | h
              · rw [hxs] at h
                simp at h
              · rw [hxs] at h
                rw [List.getLast?_cons_cons] at h
                exact h
          have h0 : magL ([] : List Nat) = 0 := rfl
          omega
        · have hteq : xs = ys := by
            apply ih
            · intro g hg
              exact hb1 g (by simp [hg])
            · intro g hg
              exact hb2 g (by simp [hg])
            · rw [hxs]
              simp
            · rw [hys]
              simp
            · right
              rcases hc1 with h | h
              · simp only [List.length_cons] at h
                rw [hxs] at h
                simp at h
              · rw [hxs] at h ⊢
                rw [List.getLast?_cons_cons] at h
                exact h
            · right
              rcases hc2 with h | h
              · simp only [List.length_cons] at h
                rw [hys] at h
                simp at h
              · rw [hys] at h ⊢
                rw [List.getLast?_cons_cons] at h
                exact h
            · exact hmagt
          rw [← hxs, ← hys, hteq]

theorem validRep_masked_shape (b : BigInteger) (hv : ValidRep b) :
    ∃ m0 rest, b.number_.map mask = m0 :: rest ∧
      (∀ g ∈ m0 :: rest, g ≤ 9999) ∧
      ((m0 :: rest).length = 1 ∨ (m0 :: rest).getLast? ≠ some 0) ∧
      b.number_ = (if b.is_negative then m0 + 16384 else m0) :: rest ∧
      magOf b = magL (m0 :: rest) := by
  obtain ⟨v0, rest, hL, hr0, hrr, hlast, hnot0⟩ := validRep_cases b hv
  have hmaprest : rest.map mask = rest := map_mask_id rest hrr
  have hneg : b.is_negative = decide (16384 ≤ v0) := by
    rw [is_negative, hL]
    simp only [List.getD_cons_zero]
    rcases hr0 with h | h
    · have : ¬(10000 < v0) := by omega
      have h2 : ¬(16384 ≤ v0) := by omega
      simp [this, h2]
    · have : 10000 < v0 := by omega
      have h2 : 16384 ≤ v0 := by omega
      simp [this, h2]
  refine ⟨mask v0, rest, ?_, ?_, ?_, ?_, ?_⟩
  · rw [hL]
    simp only [List.map_cons, hmaprest]
  · intro g hg
    rcases List.mem_cons.mp hg with rfl | h
    · rcases hr0 with h | h <;> (unfold mask; omega)
    · exact hrr g h
  · rcases hre : rest with _ | ⟨r1, rs⟩
    · left
      simp
    · right
      rw [List.getLast?_cons_cons]
      have := hlast (by rw [hre]; simp)
      rw [hre] at this
      exact this
  · rw [hL, hneg]
    rcases hr0 with h | h
    · have h2 : (decide (16384 ≤ v0)) = false := by
        simp only [decide_eq_false_iff_not]
        omega
      rw [h2]
      simp only [Bool.false_eq_true, if_false]
      rw [mask_small v0 (by omega)]
    · have h2 : (decide (16384 ≤ v0)) = true := by
        simp only [decide_eq_true_eq]
        omega
      rw [h2]
      simp only [if_true]
      have hm : mask v0 = v0 - 16384 := by
        unfold mask
        omega
      rw [hm]
      congr 1
      omega
  · unfold magOf
    rw [hL]
    simp only [magL]
    rw [mask_idem]

theorem toIntVal_inj (a b : BigInteger) (ha : ValidRep a) (hb : ValidRep b)
    (h : toIntVal a = toIntVal b) : a = b := by
  obtain ⟨m0, mr, hmapA, hbA, hcA, hLA, hmagA⟩ := validRep_masked_shape a ha
  obtain ⟨n0, nr, hmapB, hbB, hcB, hLB, hmagB⟩ := validRep_masked_shape b hb
  have hsign : a.is_negative = b.is_negative := by
    rcases hna : a.is_negative with _ | _ <;> rcases hnb : b.is_negative with _ | _
    · rfl
    · exfalso
      have hmb : 1 ≤ magOf b := by
        apply magOf_pos_of_nonzero b hb
        rcases hz : b.is_zero with _ | _
        · rfl
        · rw [eq_zero_of_valid b hb hz] at hnb
          exact absurd hnb (by decide)
      rw [toIntVal, toIntVal, hna, hnb] at h
      simp only [Bool.false_eq_true, if_false, if_true] at h
      omega
    · exfalso
      have hma : 1 ≤ magOf a := by
        apply magOf_pos_of_nonzero a ha
        rcases hz : a.is_zero with _ | _
        · rfl
        · rw [eq_zero_of_valid a ha hz] at hna
          exact absurd hna (by decide)
      rw [toIntVal, toIntVal, hna, hnb] at h
      simp only [Bool.false_eq_true, if_false, if_true] at h
      omega
    · rfl
  have hmag : magOf a = magOf b := by
    rw [toIntVal, toIntVal, hsign] at h
    rcases hnb : b.is_negative with _ | _ <;> rw [hnb] at h <;> simp at h <;> omega
  have hlists : m0 :: mr = n0 :: nr := by
    apply magL_canonical_inj _ _ hbA hbB (by simp) (by simp) hcA hcB
    rw [← hmagA, ← hmagB, hmag]
  have hmn : m0 = n0 ∧ mr = nr := by
    constructor
    · injection hlists
    · injection hlists
  cases a
  cases b
  simp only [BigInteger.mk.injEq] at hLA hLB ⊢
  rw [hLA, hLB, hmn.1, hmn.2, hsign]

theorem cmpRev_spec :
    ∀ X Y : List Nat, X.length = Y.length →
      (∀ g ∈ X, g ≤ 9999) → (∀ g ∈ Y, g ≤ 9999) →
      cmpRev X Y = (if magL Y.reverse < magL X.reverse then 1
                    else if magL X.reverse < magL Y.reverse then -1 else 0) := by
  intro X
  induction X with
  | nil =>
      intro Y hlen _ _
      simp only [List.length_nil] at hlen
      have hY : Y = [] := List.length_eq_zero.mp hlen.symm
      subst hY
      simp [cmpRev]
  | cons x X' ih =>
      intro Y hlen hbX hbY
      rcases Y with _ | ⟨y, Y'⟩
      · simp at hlen
      · have hx : x ≤ 9999 := hbX x (by simp)
        have hy : y ≤ 9999 := hbY y (by simp)
        have hlen' : X'.length = Y'.length := by
          simp only [List.length_cons] at hlen
          omega
        have hXrev : magL ((x :: X').reverse)
            = magL X'.reverse + 10000 ^ X'.length * x := by
          rw [List.reverse_cons, magL_append, List.length_reverse]
          simp only [magL]
          rw [mask_small x (by omega)]
          ring
        have hYrev : magL ((y :: Y').reverse)
            = magL Y'.reverse + 10000 ^ Y'.length * y := by
          rw [List.reverse_cons, magL_append, List.length_reverse]
          simp only [magL]
          rw [mask_small y (by omega)]
          ring
        have hXlt : magL X'.reverse < 10000 ^ X'.length := by
          have := magL_lt X'.reverse (fun g hg => by
            have hgm : g ∈ X' := List.mem_reverse.mp hg
            have := hbX g (by simp [hgm])
            rw [mask_small g (by omega)]
            omega)
          rw [List.length_reverse] at this
          exact this
        have hYlt : magL Y'.reverse < 10000 ^ Y'.length := by
          have := magL_lt Y'.reverse (fun g hg => by
            have hgm : g ∈ Y' := List.mem_reverse.mp hg
            have := hbY g (by simp [hgm])
            rw [mask_small g (by omega)]
            omega)
          rw [List.length_reverse] at this
          exact this
        rw [hXrev, hYrev, hlen']
        show cmpRev (x :: X') (y :: Y') = _
        unfold cmpRev
        rcases Nat.lt_trichotomy x y with hxy | hxy | hxy
        · have hne : ¬(x > y) := by omega
          have hlt : magL X'.reverse + 10000 ^ Y'.length * x
              < magL Y'.reverse + 10000 ^ Y'.length * y := by
            have h1 : magL X'.reverse + 10000 ^ Y'.length * x
                < 10000 ^ Y'.length * (x + 1) := by
              rw [hlen'] at hXlt
              have := hXlt
              ring_nf
              omega
            have h2 : 10000 ^ Y'.length * (x + 1) ≤ 10000 ^ Y'.length * y :=
              Nat.mul_le_mul_left _ (by omega)
            omega
          rw [if_neg (by omega), if_pos (by omega), if_neg (by omega),
            if_pos hlt]
        · subst hxy
          have hne : ¬(x > x) := by omega
          rw [if_neg hne, if_neg hne]
          rw [ih Y' hlen' (fun g hg => hbX g (by simp [hg]))
            (fun g hg => hbY g (by simp [hg]))]
          simp only [Nat.add_lt_add_iff_right]
        · have hlt : magL Y'.reverse + 10000 ^ Y'.length * y
              < magL X'.reverse + 10000 ^ Y'.length * x := by
            have h1 : magL Y'.reverse + 10000 ^ Y'.length * y
                < 10000 ^ Y'.length * (y + 1) := by
              have := hYlt
              ring_nf
              omega
            have h2 : 10000 ^ Y'.length * (y + 1) ≤ 10000 ^ Y'.length * x :=
              Nat.mul_le_mul_left _ (by omega)
            omega
          rw [if_pos (by omega), if_pos hlt]

theorem magOf_lt_of_shorter (a b : BigInteger) (ha : ValidRep a)
    (hb : ValidRep b) (hlen : a.number_.length < b.number_.length) :
    magOf a < magOf b := by
  obtain ⟨v0, rest, hL, hr0, hrr, hlast, hnot0⟩ := validRep_cases b hb
  have hup : magOf a < 10000 ^ a.number_.length := by
    unfold magOf
    exact magL_lt _ (validRep_mask_bound a ha)
  have hlow : 10000 ^ (b.number_.length - 1) ≤ magOf b := by
    unfold magOf
    apply magL_ge_of_last _ (by rw [hL]; simp)
    intro w hw
    rcases hre : rest with _ | ⟨r1, rs⟩
    · exfalso
      rw [hL, hre] at hlen
      simp only [List.length_cons, List.length_nil] at hlen
      obtain ⟨a0, ar, hLa, -, -, -, -⟩ := validRep_cases a ha
      rw [hLa] at hlen
      simp only [List.length_cons] at hlen
      omega
    · rw [hL, hre, List.getLast?_cons_cons] at hw
      have hwmem : w ∈ r1 :: rs := mem_of_getLast?_eq _ _ (by simp) hw
      have hwle : w ≤ 9999 := by
        apply hrr
        rw [hre]
        exact hwmem
      have hwne : w ≠ 0 := by
        intro h0
        apply hlast (by rw [hre]; simp)
        rw [hre, hw, h0]
      rw [mask_small w (by omega)]
      exact hwne
  have hstep : 10000 ^ a.number_.length ≤ 10000 ^ (b.number_.length - 1) :=
    Nat.pow_le_pow_right (by omega) (by omega)
  omega

theorem compareAbs_spec (a b : BigInteger) (ha : ValidRep a)
    (hb : ValidRep b) :
    compareAbs a b = (if magOf b < magOf a then 1
                      else if magOf a < magOf b then -1 else 0) := by
  unfold compareAbs
  have hgs : ∀ c : BigInteger, c.group_size = c.number_.length := fun _ => rfl
  by_cases hlen : a.group_size ≠ b.group_size
  · rw [if_pos hlen]
    rw [hgs, hgs] at hlen
    rcases Nat.lt_or_ge b.number_.length a.number_.length with hl | hl
    · have hm := magOf_lt_of_shorter b a hb ha hl
      rw [if_pos (by rw [hgs, hgs]; omega), if_pos hm]
    · have hl2 : a.number_.length < b.number_.length := by omega
      have hm := magOf_lt_of_shorter a b ha hb hl2
      rw [if_neg (by rw [hgs, hgs]; omega), if_neg (by omega), if_pos hm]
  · rw [if_neg hlen]
    rw [hgs, hgs] at hlen
    have hleneq : a.number_.length = b.number_.length := by omega
    have hspec := cmpRev_spec ((a.number_.map mask).reverse)
      ((b.number_.map mask).reverse)
      (by simp [hleneq])
      (fun g hg => by
        rw [List.mem_reverse, List.mem_map] at hg
        obtain ⟨v, hv, rfl⟩ := hg
        exact validRep_mask_bound a ha v hv)
      (fun g hg => by
        rw [List.mem_reverse, List.mem_map] at hg
        obtain ⟨v, hv, rfl⟩ := hg
        exact validRep_mask_bound b hb v hv)
    rw [hspec, List.reverse_reverse, List.reverse_reverse,
      magL_map_mask, magL_map_mask]
    rfl

theorem compare_spec (a b : BigInteger) (ha : ValidRep a) (hb : ValidRep b) :
    compare a b = (if toIntVal a < toIntVal b then -1
                   else if toIntVal b < toIntVal a then 1 else 0) := by
  have hmagpos : ∀ c : BigInteger, ValidRep c → c.is_negative = true →
      1 ≤ magOf c := by
    intro c hc hneg
    apply magOf_pos_of_nonzero c hc
    rcases hz : c.is_zero with _ | _
    · rfl
    · rw [eq_zero_of_valid c hc hz] at hneg
      exact absurd hneg (by decide)
  unfold compare
  rcases hna : a.is_negative with _ | _ <;> rcases hnb : b.is_negative with _ | _
  · rw [if_neg (by decide), if_pos (by decide)]
    rw [compareAbs_spec a b ha hb]
    have hva : toIntVal a = (magOf a : Int) := by
      rw [toIntVal, hna]
      simp
    have hvb : toIntVal b = (magOf b : Int) := by
      rw [toIntVal, hnb]
      simp
    rw [hva, hvb]
    rcases Nat.lt_trichotomy (magOf a) (magOf b) with h | h | h
    · rw [if_neg (by omega), if_pos h, if_pos (by omega)]
    · rw [if_neg (by omega), if_neg (by omega), if_neg (by omega),
        if_neg (by omega)]
    · rw [if_pos h, if_neg (by omega), if_pos (by omega)]
  · have hmb := hmagpos b hb hnb
    rw [if_pos (by decide), if_neg (by decide)]
    have hva : toIntVal a = (magOf a : Int) := by
      rw [toIntVal, hna]
      simp
    have hvb : toIntVal b = -(magOf b : Int) := by
      rw [toIntVal, hnb]
      simp
    rw [hva, hvb]
    rw [if_neg (by omega), if_pos (by omega)]
  · have hma := hmagpos a ha hna
    rw [if_pos (by decide), if_pos (by decide)]
    have hva : toIntVal a = -(magOf a : Int) := by
      rw [toIntVal, hna]
      simp
    have hvb : toIntVal b = (magOf b : Int) := by
      rw [toIntVal, hnb]
      simp
    rw [hva, hvb]
    rw [if_pos (by omega)]
  · rw [if_neg (by decide), if_neg (by decide)]
    rw [compareAbs_spec b a hb ha]
    have hva : toIntVal a = -(magOf a : Int) := by
      rw [toIntVal, hna]
      simp
    have hvb : toIntVal b = -(magOf b : Int) := by
      rw [toIntVal, hnb]
      simp
    rw [hva, hvb]
    rcases Nat.lt_trichotomy (magOf a) (magOf b) with h | h | h
    · rw [if_pos h, if_neg (by omega), if_pos (by omega)]
    · rw [if_neg (by omega), if_neg (by omega), if_neg (by omega),
        if_neg (by omega)]
    · rw [if_neg (by omega), if_pos (by omega), if_pos (by omega)]

/-! ## Structural helpers for the arithmetic primitives -/

theorem bind_ok_elim {α β : Type} (e : Except Err α) (f : α → Except Err β)
    (v : β) (h : (e >>= f) = .ok v) : ∃ a, e = .ok a ∧ f a = .ok v := by
  cases e with
  | error err =>
      simp only [Bind.bind, Except.bind] at h
      exact absurd h (by simp)
  | ok a =>
      simp only [Bind.bind, Except.bind] at h
      exact ⟨a, rfl, h⟩

theorem canonical_of_magL_ge (l : List Nat) (hb : ∀ g ∈ l, g ≤ 9999)
    (h : 10000 ^ (l.length - 1) ≤ magL l) :
    l.length = 1 ∨ l.getLast? ≠ some 0 := by
  rcases hl : l.length with _ | n
  · exfalso
    have : l = [] := List.length_eq_zero.mp hl
    subst this
    simp [magL] at h
  · rcases n with _ | m
    · exact Or.inl (by omega)
    · right
      intro hlast
      have hne : l ≠ [] := by
        intro hc
        rw [hc] at hl
        simp at hl
      have hsplit : l = l.dropLast ++ [l.getLast hne] :=
        (List.dropLast_append_getLast hne).symm
      have hlast2 : l.getLast hne = 0 := by
        rw [List.getLast?_eq_getLast _ hne] at hlast
        injection hlast
      have hlen2 : l.dropLast.length = m + 1 := by
        rw [List.length_dropLast, hl]
        omega
      have hup : magL l.dropLast < 10000 ^ (m + 1) := by
        rw [← hlen2]
        apply magL_lt
        intro g hg
        have hgm : g ∈ l := List.mem_of_mem_dropLast hg
        have := hb g hgm
        rw [mask_small g (by omega)]
        omega
      rw [hsplit, magL_append, hlast2] at h
      simp only [List.length_append, List.length_cons, List.length_nil,
        hlen2, magL, mask, Nat.add_sub_cancel] at h
      omega

theorem magL_zero_of_mask_zero (l : List Nat)
    (h : ∀ g ∈ l, mask g = 0) : magL l = 0 := by
  induction l with
  | nil => rfl
  | cons x xs ih =>
      simp only [magL, h x (by simp), ih (fun g hg => h g (by simp [hg]))]

theorem clear_excess_spec (h : Nat) (t : List Nat) :
    ∃ t2, clear_excess_zeros ⟨h :: t⟩ = ⟨h :: t2⟩ ∧
      magL (h :: t2) = magL (h :: t) ∧
      (t2 = [] ∨ t2.getLast? ≠ some 0) ∧
      (∀ g ∈ t2, g ∈ t) := by
  refine ⟨(t.reverse.dropWhile (fun g => mask g = 0)).reverse, rfl, ?_, ?_, ?_⟩
  · have hsplit : t.reverse = t.reverse.takeWhile (fun g => mask g = 0)
        ++ t.reverse.dropWhile (fun g => mask g = 0) :=
      (List.takeWhile_append_dropWhile _ _).symm
    have ht : t = (t.reverse.dropWhile (fun g => mask g = 0)).reverse
        ++ (t.reverse.takeWhile (fun g => mask g = 0)).reverse := by
      conv_lhs => rw [← List.reverse_reverse t]
      rw [← List.reverse_append, ← hsplit]
    simp only [magL]
    conv_rhs => rw [ht]
    rw [magL_append]
    have hz : magL ((t.reverse.takeWhile (fun g => mask g = 0)).reverse) = 0 := by
      apply magL_zero_of_mask_zero
      intro g hg
      rw [List.mem_reverse] at hg
      have := List.mem_takeWhile_imp hg
      simpa using this
    rw [hz]
    ring
  · have hgl : ((t.reverse.dropWhile (fun g => mask g = 0)).reverse).getLast?
        = (t.reverse.dropWhile (fun g => mask g = 0)).head? :=
      List.getLast?_reverse _
    rcases hh : (t.reverse.dropWhile (fun g => mask g = 0)).head? with _ | w
    · left
      have he : t.reverse.dropWhile (fun g => mask g = 0) = [] :=
        List.head?_eq_none_iff.mp hh
      rw [he]
      rfl
    · right
      rw [hgl, hh]
      have hw := List.head?_dropWhile_not (fun g => mask g = 0) t.reverse
      rw [hh] at hw
      simp only [Option.mem_def, Option.some.injEq, forall_eq] at hw
      intro hc
      injection hc with hc2
      rw [hc2] at hw
      simp [mask] at hw
  · intro g hg
    rw [List.mem_reverse] at hg
    have hmem : g ∈ t.reverse := (List.dropWhile_sublist _).mem hg
    rw [List.mem_reverse] at hmem
    exact hmem

theorem symbol_pos_spec (b : BigInteger) (hv : ValidRep b) :
    ValidRep b.symbol_pos ∧ b.symbol_pos.is_negative = false ∧
      magOf b.symbol_pos = magOf b ∧ b.symbol_pos.is_zero = b.is_zero := by
  obtain ⟨v0, rest, hL, hr0, hrr, hlast, hnot0⟩ := validRep_cases b hv
  have hbe : b.symbol_pos = ⟨mask v0 :: rest⟩ := by
    unfold symbol_pos
    rw [hL]
    simp only [List.getD_cons_zero, List.set_cons_zero]
  have hm9 : mask v0 ≤ 9999 := by
    rcases hr0 with h | h <;> (unfold mask; omega)
  refine ⟨?_, ?_, ?_, ?_⟩
  · rw [hbe]
    exact ⟨Or.inl hm9, hrr, hlast,
      fun hc => absurd hc.1 (by unfold NEG_PART; omega)⟩
  · rw [hbe, is_negative]
    simp only [List.getD_cons_zero, decide_eq_false_iff_not, Nat.not_lt]
    omega
  · rw [hbe]
    unfold magOf
    rw [hL]
    simp only [magL, mask_idem]
  · rw [hbe, is_zero, is_zero, hL]
    simp only [List.getD_cons_zero, List.length_cons]
    rcases hre : rest with _ | ⟨r1, rs⟩
    · have hne16 : v0 ≠ 16384 := fun hc => hnot0 ⟨hc, hre⟩
      by_cases h0 : v0 = 0
      · rw [h0]
        simp [mask]
      · have hm0 : mask v0 ≠ 0 := by
          rcases hr0 with h | h <;> (unfold mask; omega)
        simp [h0, hm0]
    · have hlen : (r1 :: rs).length + 1 ≠ 1 := by simp
      simp [hlen]

theorem symbol_neg_spec (b : BigInteger) (hv : ValidRep b)
    (hneg : b.is_negative = false) (hnz : b.is_zero = false) :
    ValidRep b.symbol_neg ∧ b.symbol_neg.is_negative = true ∧
      magOf b.symbol_neg = magOf b ∧ b.symbol_neg.is_zero = false := by
  obtain ⟨v0, rest, hL, hr0, hrr, hlast, hnot0⟩ := validRep_cases b hv
  have hv0le : v0 ≤ 9999 := by
    rw [is_negative, hL] at hneg
    simp only [List.getD_cons_zero, decide_eq_false_iff_not, Nat.not_lt] at hneg
    omega
  have hv0nz : rest = [] → v0 ≠ 0 := by
    intro hre h0
    rw [is_zero, hL, hre, h0] at hnz
    simp at hnz
  have harg : v0 ≠ 0 ∨ rest ≠ [] := by
    by_cases hre : rest = []
    · exact Or.inl (hv0nz hre)
    · exact Or.inr hre
  have hbe : b.symbol_neg = ⟨(v0 + NEG_PART) :: rest⟩ := by
    have hb2 : b = ⟨v0 :: rest⟩ := by
      cases b
      simpa using hL
    rw [hb2]
    exact symbol_neg_cons v0 rest harg (by unfold NEG_PART; omega)
  refine ⟨?_, ?_, ?_, ?_⟩
  · rw [hbe]
    refine ⟨Or.inr (by unfold NEG_PART; omega), hrr, hlast, ?_⟩
    rintro ⟨h1, h2⟩
    unfold NEG_PART at h1
    exact (hv0nz h2) (by omega)
  · rw [hbe, is_negative]
    simp only [List.getD_cons_zero, decide_eq_true_eq]
    unfold NEG_PART
    omega
  · rw [hbe]
    unfold magOf
    rw [hL]
    simp only [magL]
    have hmm : mask (v0 + NEG_PART) = mask v0 := by
      unfold NEG_PART mask
      omega
    rw [hmm]
  · rw [hbe, is_zero]
    simp only [List.getD_cons_zero, List.length_cons]
    rw [Bool.and_eq_false_iff]
    left
    simp only [decide_eq_false_iff_not]
    unfold NEG_PART
    omega

theorem opposite_spec (b : BigInteger) (hv : ValidRep b) :
    ValidRep b.opposite ∧ toIntVal b.opposite = -toIntVal b := by
  unfold opposite reverse
  rcases hneg : b.is_negative with _ | _
  · simp only [Bool.false_eq_true, if_false]
    rcases hz : b.is_zero with _ | _
    · have hpos : b.is_positive = true := by
        rw [is_positive, hneg, hz]
        rfl
      rw [if_pos hpos]
      obtain ⟨h1, h2, h3, h4⟩ := symbol_neg_spec b hv hneg hz
      refine ⟨h1, ?_⟩
      rw [toIntVal, toIntVal, h2, h3, hneg]
      simp
    · have hpos : b.is_positive = false := by
        rw [is_positive, hneg, hz]
        rfl
      rw [if_neg (by rw [hpos]; simp)]
      have hb0 : b = ⟨[0]⟩ := eq_zero_of_valid b hv hz
      refine ⟨hv, ?_⟩
      rw [hb0]
      decide
  · rw [if_pos rfl]
    obtain ⟨h1, h2, h3, h4⟩ := symbol_pos_spec b hv
    refine ⟨h1, ?_⟩
    rw [toIntVal, toIntVal, h2, h3, hneg]
    simp

theorem cez_of_valid (b : BigInteger) (hv : ValidRep b) :
    clear_excess_zeros b = b := by
  obtain ⟨v0, rest, hL, hr0, hrr, hlast, hnot0⟩ := validRep_cases b hv
  have hb2 : b = ⟨v0 :: rest⟩ := by
    cases b
    simpa using hL
  rw [hb2]
  unfold clear_excess_zeros
  simp only []
  rcases hre : rest with _ | ⟨r1, rs⟩
  · rfl
  · have hrne : rest ≠ [] := by rw [hre]; simp
    obtain ⟨w, ws, hw⟩ : ∃ w ws, rest.reverse = w :: ws := by
      rcases hE : rest.reverse with _ | ⟨w, ws⟩
      · exfalso
        have := congrArg List.reverse hE
        simp at this
        exact hrne this
      · exact ⟨w, ws, rfl⟩
    have hwlast : rest.getLast? = some w := by
      rw [← List.head?_reverse, hw]
      rfl
    have hwne : w ≠ 0 := by
      intro h0
      apply hlast hrne
      rw [hwlast, h0]
    have hwle : w ≤ 9999 := hrr w (mem_of_getLast?_eq _ _ hrne hwlast)
    have hmw : mask w = w := mask_small w (by omega)
    rw [← hre, hw, List.dropWhile_cons_of_neg (by simp [hmw, hwne]), ← hw]
    simp

theorem pow10000_eq (k : Nat) : (10000 : Nat) ^ k = 10 ^ (4 * k) := by
  rw [pow_mul]
  norm_num

theorem digits_bounds (b : BigInteger) (hv : ValidRep b)
    (hneg : b.is_negative = false) (hnz : b.is_zero = false) :
    10 ^ (b.digits - 1) ≤ magOf b ∧ magOf b < 10 ^ b.digits ∧ 1 ≤ b.digits := by
  obtain ⟨v0, rest, hL, hr0, hrr, hlast, hnot0⟩ := validRep_cases b hv
  have hv0le : v0 ≤ 9999 := by
    rw [is_negative, hL] at hneg
    simp only [List.getD_cons_zero, decide_eq_false_iff_not, Nat.not_lt] at hneg
    omega
  have hball : ∀ g ∈ b.number_, g ≤ 9999 := by
    intro g hg
    rw [hL] at hg
    rcases List.mem_cons.mp hg with rfl | h
    · omega
    · exact hrr g h
  have hne : b.number_ ≠ [] := by rw [hL]; simp
  set top := b.number_.getLast hne with htopdef
  have htople : top ≤ 9999 := hball top (List.getLast_mem hne)
  have htoppos : 1 ≤ top := by
    rcases hre : rest with _ | ⟨r1, rs⟩
    · have hv0 : v0 ≠ 0 := by
        intro h0
        rw [is_zero, hL, hre, h0] at hnz
        simp at hnz
      have : top = v0 := by
        rw [htopdef]
        have : b.number_.getLast? = some v0 := by
          rw [hL, hre]
          rfl
        rw [List.getLast?_eq_getLast _ hne] at this
        injection this
      omega
    · have hlq : rest.getLast? ≠ some 0 := by
        apply hlast
        rw [hre]
        simp
      have hgl : b.number_.getLast? = rest.getLast? := by
        rw [hL, hre, List.getLast?_cons_cons]
      have : b.number_.getLast? = some top := List.getLast?_eq_getLast _ hne
      have htopne : top ≠ 0 := by
        intro h0
        apply hlq
        rw [← hgl, this, h0]
      omega
  have hback : b.backRaw = top := by
    unfold backRaw
    rw [List.getLast?_eq_getLast _ hne]
    rfl
  have hsplit : b.number_ = b.number_.dropLast ++ [top] :=
    (List.dropLast_append_getLast hne).symm
  have hlend : b.number_.dropLast.length = b.number_.length - 1 :=
    List.length_dropLast _
  have hmagsplit : magOf b = magL b.number_.dropLast
      + 10000 ^ (b.number_.length - 1) * top := by
    unfold magOf
    conv_lhs => rw [hsplit]
    rw [magL_append, hlend]
    simp only [magL]
    rw [mask_small top (by omega)]
    ring
  have hdrople : magL b.number_.dropLast < 10000 ^ (b.number_.length - 1) := by
    rw [← hlend]
    apply magL_lt
    intro g hg
    have := hball g (List.mem_of_mem_dropLast hg)
    rw [mask_small g (by omega)]
    omega
  have hLpos : 1 ≤ b.number_.length := by rw [hL]; simp
  have hdig : b.digits = 4 * (b.number_.length - 1)
      + (1 + (if 10 ≤ top then 1 else 0) + (if 100 ≤ top then 1 else 0)
         + (if 1000 ≤ top then 1 else 0)) := by
    unfold digits
    rw [hback]
    have hgs : b.group_size = b.number_.length := rfl
    rw [hgs]
    have e1 : (if top / 10 ≠ 0 then 1 else 0) = (if 10 ≤ top then 1 else 0) := by
      split <;> split <;> omega
    have e2 : (if top / 100 ≠ 0 then 1 else 0) = (if 100 ≤ top then 1 else 0) := by
      split <;> split <;> omega
    have e3 : (if top / 1000 ≠ 0 then 1 else 0) = (if 1000 ≤ top then 1 else 0) := by
      split <;> split <;> omega
    have e4 : (if top / 10000 ≠ 0 then 1 else 0) = 0 := by
      split <;> omega
    rw [e1, e2, e3, e4]
    ring
  set dc := 1 + (if 10 ≤ top then 1 else 0) + (if 100 ≤ top then 1 else 0)
    + (if 1000 ≤ top then 1 else 0) with hdc
  have hdcb : 10 ^ (dc - 1) ≤ top ∧ top < 10 ^ dc ∧ 1 ≤ dc ∧ dc ≤ 4 := by
    rw [hdc]
    split_ifs <;> norm_num <;> omega
  refine ⟨?_, ?_, by omega⟩
  · rw [hmagsplit, hdig]
    have h1 : 10 ^ (4 * (b.number_.length - 1) + dc - 1)
        = 10000 ^ (b.number_.length - 1) * 10 ^ (dc - 1) := by
      rw [pow10000_eq, ← pow_add]
      congr 1
      omega
    rw [h1]
    have h2 : 10000 ^ (b.number_.length - 1) * 10 ^ (dc - 1)
        ≤ 10000 ^ (b.number_.length - 1) * top :=
      Nat.mul_le_mul_left _ hdcb.1
    omega
  · rw [hmagsplit, hdig]
    have h1 : 10 ^ (4 * (b.number_.length - 1) + dc)
        = 10000 ^ (b.number_.length - 1) * 10 ^ dc := by
      rw [pow10000_eq, ← pow_add]
    rw [h1]
    have h2 : 10000 ^ (b.number_.length - 1) * (top + 1)
        ≤ 10000 ^ (b.number_.length - 1) * 10 ^ dc :=
      Nat.mul_le_mul_left _ (by omega)
    have h3 : 0 < 10000 ^ (b.number_.length - 1) := Nat.pos_pow_of_pos _ (by omega)
    nlinarith [hdrople, h2, h3]

/-! ## Value correctness of the magnitude addition loops -/

theorem getLast?_cons_ne_nil (a : Nat) (l : List Nat) (h : l ≠ []) :
    (a :: l).getLast? = l.getLast? := by
  rcases l with _ | ⟨b, t⟩
  · exact absurd rfl h
  · rw [List.getLast?_cons_cons]

theorem plusCarryEnd_spec (c p : Nat) (r : List Nat) (hc : c ≤ 1)
    (h : plusCarryEnd c p = .ok r) :
    (∀ g ∈ r, g ≤ 9999) ∧ magL r = c ∧
      (r.length = 0 ∨ (r.length = 1 ∧ r.getLast? = some 1)) := by
  unfold plusCarryEnd at h
  split at h
  · rename_i hcne
    split at h
    · exact absurd h (by simp)
    · simp only [pure, Except.pure, Except.ok.injEq] at h
      subst h
      have hc1 : c = 1 := by omega
      subst hc1
      refine ⟨by simp, by simp [magL, mask], Or.inr ⟨rfl, rfl⟩⟩
  · rename_i hceq
    simp only [ne_eq, not_not] at hceq
    simp only [pure, Except.pure, Except.ok.injEq] at h
    subst h
    subst hceq
    exact ⟨by simp, rfl, Or.inl rfl⟩

theorem plusAdjust_spec : ∀ (xs : List Nat) (c p : Nat) (r : List Nat),
    c ≤ 1 → plusAdjust xs c p = .ok r →
    (∀ g ∈ r, g ≤ 9999) ∧ magL r = magL xs + c ∧
      (r.length = xs.length ∨
        (r.length = xs.length + 1 ∧ r.getLast? = some 1)) := by
  intro xs
  induction xs with
  | nil =>
      intro c p r hc h
      obtain ⟨hb, hm, hl⟩ := plusCarryEnd_spec c p r hc h
      exact ⟨hb, by simpa [magL] using hm, by simpa using hl⟩
  | cons x t ih =>
      intro c p r hc h
      unfold plusAdjust at h
      simp only [] at h
      obtain ⟨r', hr', hpr⟩ := bind_ok_elim _ _ _ h
      simp only [pure, Except.pure, Except.ok.injEq] at hpr
      subst hpr
      have hcar : (mask x + c) / 10000 ≤ 1 := by
        have := mask_le x
        omega
      obtain ⟨hb, hm, hl⟩ := ih _ _ _ hcar hr'
      refine ⟨?_, ?_, ?_⟩
      · intro g hg
        rcases List.mem_cons.mp hg with rfl | hgm
        · omega
        · exact hb g hgm
      · simp only [magL] at hm ⊢
        rw [mask_small ((mask x + c) % 10000) (by omega), hm]
        have := mask_le x
        omega
      · rcases hl with h1 | ⟨h1, h2⟩
        · left
          simp [h1]
        · right
          constructor
          · simp [h1]
          · rcases hrE : r' with _ | ⟨w, ws⟩
            · rw [hrE] at h1
              simp at h1
            · rw [getLast?_cons_ne_nil _ _ (by simp)]
              rw [hrE] at h2
              exact h2

theorem plusPush_spec : ∀ (ys : List Nat) (c p : Nat) (r : List Nat),
    c ≤ 1 → plusPush ys c p = .ok r →
    (∀ g ∈ r, g ≤ 9999) ∧ magL r = magL ys + c ∧
      (r.length = ys.length ∨
        (r.length = ys.length + 1 ∧ r.getLast? = some 1)) := by
  intro ys
  induction ys with
  | nil =>
      intro c p r hc h
      obtain ⟨hb, hm, hl⟩ := plusCarryEnd_spec c p r hc h
      exact ⟨hb, by simpa [magL] using hm, by simpa using hl⟩
  | cons y t ih =>
      intro c p r hc h
      unfold plusPush at h
      split at h
      · exact absurd h (by simp)
      · simp only [] at h
        obtain ⟨r', hr', hpr⟩ := bind_ok_elim _ _ _ h
        simp only [pure, Except.pure, Except.ok.injEq] at hpr
        subst hpr
        have hcar : (mask y + c) / 10000 ≤ 1 := by
          have := mask_le y
          omega
        obtain ⟨hb, hm, hl⟩ := ih _ _ _ hcar hr'
        refine ⟨?_, ?_, ?_⟩
        · intro g hg
          rcases List.mem_cons.mp hg with rfl | hgm
          · omega
          · exact hb g hgm
        · simp only [magL] at hm ⊢
          rw [mask_small ((mask y + c) % 10000) (by omega), hm]
          have := mask_le y
          omega
        · rcases hl with h1 | ⟨h1, h2⟩
          · left
            simp [h1]
          · right
            constructor
            · simp [h1]
            · rcases hrE : r' with _ | ⟨w, ws⟩
              · rw [hrE] at h1
                simp at h1
              · rw [getLast?_cons_ne_nil _ _ (by simp)]
                rw [hrE] at h2
                exact h2

theorem plusAux_spec : ∀ (xs ys : List Nat) (c p : Nat) (r : List Nat),
    (∀ g ∈ xs, mask g ≤ 9999) → (∀ g ∈ ys, mask g ≤ 9999) →
    c ≤ 1 → plusAux xs ys c p = .ok r →
    (∀ g ∈ r, g ≤ 9999) ∧ magL r = magL xs + magL ys + c ∧
      (r.length = max xs.length ys.length ∨
        (r.length = max xs.length ys.length + 1 ∧ r.getLast? = some 1)) := by
  intro xs
  induction xs with
  | nil =>
      intro ys c p r hxs hys hc h
      obtain ⟨hb, hm, hl⟩ := plusPush_spec ys c p r hc h
      refine ⟨hb, by simpa [magL] using hm, ?_⟩
      simpa using hl
  | cons x t ih =>
      intro ys c p r hxs hys hc h
      rcases ys with _ | ⟨y, u⟩
      · obtain ⟨hb, hm, hl⟩ := plusAdjust_spec (x :: t) c p r hc h
        refine ⟨hb, by simpa [magL] using hm, ?_⟩
        simpa using hl
      · unfold plusAux at h
        simp only [] at h
        obtain ⟨r', hr', hpr⟩ := bind_ok_elim _ _ _ h
        simp only [pure, Except.pure, Except.ok.injEq] at hpr
        subst hpr
        have hcar : (mask x + mask y + c) / 10000 ≤ 1 := by
          have hx := hxs x (by simp)
          have hy := hys y (by simp)
          omega
        obtain ⟨hb, hm, hl⟩ := ih _ _ _ _ (fun g hg => hxs g (by simp [hg]))
          (fun g hg => hys g (by simp [hg])) hcar hr'
        refine ⟨?_, ?_, ?_⟩
        · intro g hg
          rcases List.mem_cons.mp hg with rfl | hgm
          · omega
          · exact hb g hgm
        · simp only [magL] at hm ⊢
          rw [mask_small ((mask x + mask y + c) % 10000) (by omega), hm]
          have hx := mask_le x
          have hy := mask_le y
          omega
        · have hmax : max (x :: t).length (y :: u).length
              = max t.length u.length + 1 := by
            simp only [List.length_cons]
            omega
          rcases hl with h1 | ⟨h1, h2⟩
          · left
            rw [hmax]
            simp [h1]
          · right
            constructor
            · rw [hmax]
              simp [h1]
            · rcases hrE : r' with _ | ⟨w, ws⟩
              · rw [hrE] at h1
                simp at h1
              · rw [getLast?_cons_ne_nil _ _ (by simp)]
                rw [hrE] at h2
                exact h2

theorem magOf_ge_of_valid (c : BigInteger) (hv : ValidRep c)
    (hnz : c.is_zero = false) :
    10000 ^ (c.number_.length - 1) ≤ magOf c := by
  obtain ⟨v0, rest, hL, hr0, hrr, hlast, hnot0⟩ := validRep_cases c hv
  rcases hre : rest with _ | ⟨r1, rs⟩
  · have h1 := magOf_pos_of_nonzero c hv hnz
    rw [hL, hre]
    simpa using h1
  · unfold magOf
    rw [hL]
    apply magL_ge_of_last _ (by simp)
    intro w hw
    rw [hre, List.getLast?_cons_cons] at hw
    have hwmem : w ∈ r1 :: rs := mem_of_getLast?_eq _ _ (by simp) hw
    have hwle : w ≤ 9999 := by
      apply hrr
      rw [hre]
      exact hwmem
    have hwne : w ≠ 0 := by
      intro h0
      apply hlast (by rw [hre]; simp)
      rw [hre, hw, h0]
    rw [mask_small w (by omega)]
    exact hwne

theorem is_zero_false_of_magL_pos (l : List Nat) (h : 1 ≤ magL l) :
    is_zero ⟨l⟩ = false := by
  rcases l with _ | ⟨x, t⟩
  · simp [magL] at h
  · rw [is_zero]
    simp only [List.getD_cons_zero, List.length_cons]
    rw [Bool.and_eq_false_iff]
    rcases ht : t with _ | ⟨w, ws⟩
    · left
      simp only [decide_eq_false_iff_not]
      intro h0
      rw [ht, h0] at h
      simp [magL, mask] at h
    · right
      simp only [decide_eq_false_iff_not, List.length_cons]
      omega

theorem is_negative_false_of_head_le (x : Nat) (t : List Nat) (h : x ≤ 9999) :
    is_negative ⟨x :: t⟩ = false := by
  rw [is_negative]
  simp only [List.getD_cons_zero, decide_eq_false_iff_not, Nat.not_lt]
  omega

/-! ## Value correctness of the magnitude subtraction loop -/

theorem subAux_spec : ∀ (xs ys : List Nat) (bor : Nat),
    bor ≤ 1 →
    (∀ g ∈ xs, mask g ≤ 9999) → (∀ g ∈ ys, mask g ≤ 9999) →
    ys.length ≤ xs.length →
    magL ys + bor ≤ magL xs →
    (∀ g ∈ subAux xs ys bor, g ≤ 9999) ∧
      (subAux xs ys bor).length = xs.length ∧
      magL (subAux xs ys bor) + magL ys + bor = magL xs := by
  intro xs
  induction xs with
  | nil =>
      intro ys bor hbor hbx hby hlen hge
      have hys : ys = [] := List.length_eq_zero.mp (by
        simp only [List.length_nil] at hlen
        omega)
      subst hys
      have hb0 : bor = 0 := by
        simp only [magL] at hge
        omega
      subst hb0
      exact ⟨by simp [subAux], rfl, rfl⟩
  | cons x t ih =>
      intro ys bor hbor hbx hby hlen hge
      have hx : mask x ≤ 9999 := hbx x (by simp)
      rcases ys with _ | ⟨y, u⟩
      · unfold subAux
        simp only []
        by_cases hcond : mask x < bor
        · rw [if_pos hcond]
          have hx0 : mask x = 0 := by omega
          have hb1 : bor = 1 := by omega
          have hrec : magL ([] : List Nat) + 1 ≤ magL t := by
            simp only [magL, hx0, hb1] at hge ⊢
            omega
          obtain ⟨hb, hl, hm⟩ := ih [] 1 (by omega) (fun g hg => hbx g (by simp [hg]))
            (by simp) (by simp) hrec
          refine ⟨?_, ?_, ?_⟩
          · intro g hg
            rcases List.mem_cons.mp hg with rfl | hgm
            · omega
            · exact hb g hgm
          · simp only [List.length_cons, hl]
          · simp only [magL] at hm ⊢
            rw [mask_small (mask x + 10000 - bor) (by omega)]
            omega
        · rw [if_neg hcond]
          have hrec : magL ([] : List Nat) + 0 ≤ magL t := by simp [magL]
          obtain ⟨hb, hl, hm⟩ := ih [] 0 (by omega) (fun g hg => hbx g (by simp [hg]))
            (by simp) (by simp) hrec
          refine ⟨?_, ?_, ?_⟩
          · intro g hg
            rcases List.mem_cons.mp hg with rfl | hgm
            · omega
            · exact hb g hgm
          · simp only [List.length_cons, hl]
          · simp only [magL] at hm ⊢
            rw [mask_small (mask x - bor) (by omega)]
            omega
      · have hy : mask y ≤ 9999 := hby y (by simp)
        have hlen' : u.length ≤ t.length := by
          simp only [List.length_cons] at hlen
          omega
        unfold subAux
        simp only []
        by_cases hcond : mask x < mask y + bor
        · rw [if_pos hcond]
          have hrec : magL u + 1 ≤ magL t := by
            simp only [magL] at hge
            omega
          obtain ⟨hb, hl, hm⟩ := ih u 1 (by omega)
            (fun g hg => hbx g (by simp [hg]))
            (fun g hg => hby g (by simp [hg])) hlen' hrec
          refine ⟨?_, ?_, ?_⟩
          · intro g hg
            rcases List.mem_cons.mp hg with rfl | hgm
            · omega
            · exact hb g hgm
          · simp only [List.length_cons, hl]
          · simp only [magL] at hm ⊢
            rw [mask_small (mask x + 10000 - (mask y + bor)) (by omega)]
            omega
        · rw [if_neg hcond]
          have hrec : magL u + 0 ≤ magL t := by
            simp only [magL] at hge
            omega
          obtain ⟨hb, hl, hm⟩ := ih u 0 (by omega)
            (fun g hg => hbx g (by simp [hg]))
            (fun g hg => hby g (by simp [hg])) hlen' hrec
          refine ⟨?_, ?_, ?_⟩
          · intro g hg
            rcases List.mem_cons.mp hg with rfl | hgm
            · omega
            · exact hb g hgm
          · simp only [List.length_cons, hl]
          · simp only [magL] at hm ⊢
            rw [mask_small (mask x - (mask y + bor)) (by omega)]
            omega

/-! ## The magnitude-level entry points `_plus_with_pos` / `_minus_with_pos` -/

theorem magOf_zero_of_is_zero (c : BigInteger) (hz : c.is_zero = true) :
    magOf c = 0 := by
  rw [is_zero] at hz
  simp only [Bool.and_eq_true, decide_eq_true_eq] at hz
  obtain ⟨h0, h1⟩ := hz
  rcases hL : c.number_ with _ | ⟨v, t⟩
  · unfold magOf
    rw [hL]
    rfl
  · have hv : v = 0 := by
      rw [hL] at h0
      simpa using h0
    have ht : t = [] := by
      rw [hL] at h1
      simp only [List.length_cons] at h1
      exact List.length_eq_zero.mp (by omega)
    unfold magOf
    rw [hL, hv, ht]
    simp [magL, mask]

theorem plus_with_pos_spec (a b : BigInteger) (ha : ValidRep a)
    (hb : ValidRep b) (hna : a.is_negative = false)
    (hnb : b.is_negative = false) (r : BigInteger)
    (h : plus_with_pos a b = .ok r) :
    ValidRep r ∧ magOf r = magOf a + magOf b ∧ r.is_negative = false := by
  unfold plus_with_pos at h
  split at h
  · rename_i hzb
    simp only [pure, Except.pure, Except.ok.injEq] at h
    subst h
    rw [magOf_zero_of_is_zero b hzb]
    exact ⟨ha, by omega, hna⟩
  · rename_i hzb
    split at h
    · rename_i hza
      simp only [pure, Except.pure, Except.ok.injEq] at h
      subst h
      rw [magOf_zero_of_is_zero a hza]
      exact ⟨hb, by omega, hnb⟩
    · rename_i hza
      simp only [Bool.not_eq_true] at hza hzb
      obtain ⟨zs, hzs, hpr⟩ := bind_ok_elim _ _ _ h
      simp only [pure, Except.pure, Except.ok.injEq] at hpr
      subst hpr
      obtain ⟨hbnd, hm, hl⟩ := plusAux_spec a.number_ b.number_ 0 0 zs
        (fun g hg => validRep_mask_bound a ha g hg)
        (fun g hg => validRep_mask_bound b hb g hg) (by omega) hzs
      have hmagr : magL zs = magOf a + magOf b := by
        unfold magOf
        omega
      have hla : 1 ≤ a.number_.length := by
        obtain ⟨v0, rest, hL, -, -, -, -⟩ := validRep_cases a ha
        rw [hL]
        simp
      have hlb : 1 ≤ b.number_.length := by
        obtain ⟨v0, rest, hL, -, -, -, -⟩ := validRep_cases b hb
        rw [hL]
        simp
      have hzsne : zs ≠ [] := by
        intro hc
        rcases hl with h1 | ⟨h1, -⟩ <;>
          (rw [hc] at h1; simp only [List.length_nil] at h1; omega)
      have hga := magOf_ge_of_valid a ha hza
      have hgb := magOf_ge_of_valid b hb hzb
      have hga2 : 10000 ^ (a.number_.length - 1) ≤ magL a.number_ := hga
      have hgb2 : 10000 ^ (b.number_.length - 1) ≤ magL b.number_ := hgb
      have hm2 : magL zs = magL a.number_ + magL b.number_ := hm
      have hcanon : zs.length = 1 ∨ zs.getLast? ≠ some 0 := by
        rcases hl with h1 | ⟨h1, h2⟩
        · apply canonical_of_magL_ge zs hbnd
          rw [h1, hm2]
          rcases Nat.le_total a.number_.length b.number_.length with hle | hle
          · have hmx : max a.number_.length b.number_.length
                = b.number_.length := by omega
            rw [hmx]
            omega
          · have hmx : max a.number_.length b.number_.length
                = a.number_.length := by omega
            rw [hmx]
            omega
        · right
          rw [h2]
          simp
      obtain ⟨z0, zt, hzE⟩ : ∃ z0 zt, zs = z0 :: zt := by
        rcases hE : zs with _ | ⟨z0, zt⟩
        · exact absurd hE hzsne
        · exact ⟨z0, zt, rfl⟩
      have hz0 : z0 ≤ 9999 := hbnd z0 (by rw [hzE]; simp)
      refine ⟨?_, hmagr, ?_⟩
      · rw [hzE]
        refine ⟨Or.inl hz0, fun g hg => hbnd g (by rw [hzE]; simp [hg]), ?_, ?_⟩
        · intro hzt
          rcases hcanon with h1 | h1
          · rw [hzE] at h1
            simp only [List.length_cons] at h1
            exact absurd (List.length_eq_zero.mp (by omega)) hzt
          · rw [hzE, getLast?_cons_ne_nil _ _ hzt] at h1
            exact h1
        · rintro ⟨h1, -⟩
          unfold NEG_PART at h1
          omega
      · rw [hzE]
        exact is_negative_false_of_head_le z0 zt hz0

theorem minus_with_pos_spec (a b : BigInteger) (ha : ValidRep a)
    (hb : ValidRep b) (hna : a.is_negative = false)
    (hnb : b.is_negative = false) :
    ValidRep (minus_with_pos a b) ∧
      toIntVal (minus_with_pos a b) = (magOf a : Int) - magOf b := by
  have hia : toIntVal a = (magOf a : Int) := by
    rw [toIntVal, hna]
    simp
  have hib : toIntVal b = (magOf b : Int) := by
    rw [toIntVal, hnb]
    simp
  unfold minus_with_pos
  split
  · rename_i hzb
    rw [magOf_zero_of_is_zero b hzb]
    constructor
    · exact ha
    · rw [hia]
      simp
  · rename_i hzb
    split
    · rename_i hza
      rw [magOf_zero_of_is_zero a hza]
      obtain ⟨h1, h2⟩ := opposite_spec b hb
      refine ⟨h1, ?_⟩
      rw [h2, hib]
      simp
    · rename_i hza
      simp only [Bool.not_eq_true] at hza hzb
      rw [compare_spec a b ha hb, hia, hib]
      by_cases hc1 : (magOf a : Int) < magOf b
      · rw [if_pos hc1]
        have hmlt : magOf a < magOf b := by exact_mod_cast hc1
        rw [if_neg (by simp), if_pos (by simp)]
        simp only []
        -- larger = b, smaller = a, negated
        have hlenle : a.number_.length ≤ b.number_.length := by
          by_contra hcon
          have := magOf_lt_of_shorter b a hb ha (by omega)
          omega
        obtain ⟨hsb, hsl, hsm⟩ := subAux_spec b.number_ a.number_ 0 (by omega)
          (validRep_mask_bound b hb) (validRep_mask_bound a ha) hlenle
          (by unfold magOf at hmlt; omega)
        have hsne : subAux b.number_ a.number_ 0 ≠ [] := by
          intro hcon
          have := congrArg List.length hcon
          rw [hsl] at this
          simp at this
          obtain ⟨v0, rest, hL, -, -, -, -⟩ := validRep_cases b hb
          rw [hL] at this
          simp at this
        obtain ⟨s0, st, hsE⟩ : ∃ s0 st, subAux b.number_ a.number_ 0
            = s0 :: st := by
          rcases hE : subAux b.number_ a.number_ 0 with _ | ⟨s0, st⟩
          · exact absurd hE hsne
          · exact ⟨s0, st, rfl⟩
        obtain ⟨t2, ht2, htm, htc, htmem⟩ := clear_excess_spec s0 st
        rw [hsE, ht2]
        simp only [if_true]
        have hs0le : s0 ≤ 9999 := hsb s0 (by rw [hsE]; simp)
        have hmagres : magL (s0 :: t2) = magOf b - magOf a := by
          have e1 : magOf b = magL b.number_ := rfl
          have e2 : magOf a = magL a.number_ := rfl
          rw [htm, ← hsE, e1, e2]
          omega
        have hmagpos : 1 ≤ magL (s0 :: t2) := by
          rw [hmagres]
          omega
        have hvres : ValidRep ⟨s0 :: t2⟩ := by
          refine ⟨Or.inl hs0le, ?_, ?_, ?_⟩
          · intro g hg
            exact hsb g (by rw [hsE]; simp [htmem g hg])
          · intro ht2ne
            rcases htc with h1 | h1
            · exact absurd h1 ht2ne
            · exact h1
          · rintro ⟨h1, -⟩
            unfold NEG_PART at h1
            omega
        have hnneg : is_negative ⟨s0 :: t2⟩ = false :=
          is_negative_false_of_head_le s0 t2 hs0le
        have hnz : is_zero ⟨s0 :: t2⟩ = false :=
          is_zero_false_of_magL_pos _ hmagpos
        obtain ⟨hn1, hn2, hn3, hn4⟩ := symbol_neg_spec ⟨s0 :: t2⟩ hvres hnneg hnz
        refine ⟨hn1, ?_⟩
        rw [toIntVal, hn2, hn3]
        simp only [if_true]
        have h5 : magOf ⟨s0 :: t2⟩ = magOf b - magOf a := hmagres
        rw [h5]
        have h6 : magOf a < magOf b := hmlt
        omega
      · rw [if_neg hc1]
        by_cases hc2 : (magOf b : Int) < magOf a
        · rw [if_pos hc2]
          have hmlt : magOf b < magOf a := by exact_mod_cast hc2
          rw [if_neg (by simp), if_neg (by simp)]
          simp only []
          have hlenle : b.number_.length ≤ a.number_.length := by
            by_contra hcon
            have := magOf_lt_of_shorter a b ha hb (by omega)
            omega
          obtain ⟨hsb, hsl, hsm⟩ := subAux_spec a.number_ b.number_ 0 (by omega)
            (validRep_mask_bound a ha) (validRep_mask_bound b hb) hlenle
            (by unfold magOf at hmlt; omega)
          have hsne : subAux a.number_ b.number_ 0 ≠ [] := by
            intro hcon
            have := congrArg List.length hcon
            rw [hsl] at this
            simp at this
            obtain ⟨v0, rest, hL, -, -, -, -⟩ := validRep_cases a ha
            rw [hL] at this
            simp at this
          obtain ⟨s0, st, hsE⟩ : ∃ s0 st, subAux a.number_ b.number_ 0
              = s0 :: st := by
            rcases hE : subAux a.number_ b.number_ 0 with _ | ⟨s0, st⟩
            · exact absurd hE hsne
            · exact ⟨s0, st, rfl⟩
          obtain ⟨t2, ht2, htm, htc, htmem⟩ := clear_excess_spec s0 st
          rw [hsE, ht2]
          simp only [Bool.false_eq_true, if_false]
          have hs0le : s0 ≤ 9999 := hsb s0 (by rw [hsE]; simp)
          have hmagres : magL (s0 :: t2) = magOf a - magOf b := by
            have e1 : magOf b = magL b.number_ := rfl
            have e2 : magOf a = magL a.number_ := rfl
            rw [htm, ← hsE, e1, e2]
            omega
          have hvres : ValidRep ⟨s0 :: t2⟩ := by
            refine ⟨Or.inl hs0le, ?_, ?_, ?_⟩
            · intro g hg
              exact hsb g (by rw [hsE]; simp [htmem g hg])
            · intro ht2ne
              rcases htc with h1 | h1
              · exact absurd h1 ht2ne
              · exact h1
            · rintro ⟨h1, -⟩
              unfold NEG_PART at h1
              omega
          refine ⟨hvres, ?_⟩
          rw [toIntVal]
          rw [is_negative_false_of_head_le s0 t2 hs0le]
          simp only [Bool.false_eq_true, if_false]
          have h5 : magOf ⟨s0 :: t2⟩ = magOf a - magOf b := hmagres
          rw [h5]
          have h6 : magOf b < magOf a := hmlt
          omega
        · rw [if_neg hc2]
          have heq : magOf a = magOf b := by omega
          rw [if_pos rfl]
          constructor
          · exact (by decide : ValidRep (ofNat 0))
          · have : toIntVal (ofNat 0) = 0 := by decide
            rw [this]
            omega

theorem is_zero_false_of_magOf_pos (c : BigInteger) (h : 1 ≤ magOf c) :
    c.is_zero = false := by
  rcases c with ⟨l⟩
  exact is_zero_false_of_magL_pos l h

theorem opposite_eq_symbol_pos (b : BigInteger) (hnb : b.is_negative = true) :
    b.opposite = b.symbol_pos := by
  unfold opposite reverse
  rw [if_pos hnb]

/-! ## The signed entry points `operator+=` / `operator-=` -/

theorem addAssign_spec (a b : BigInteger) (ha : ValidRep a) (hb : ValidRep b)
    (r : BigInteger) (h : addAssign a b = .ok r) :
    ValidRep r ∧ toIntVal r = toIntVal a + toIntVal b := by
  unfold addAssign at h
  rcases hna : a.is_negative with _ | _ <;> rcases hnb : b.is_negative with _ | _ <;>
    rw [hna, hnb] at h <;>
    simp only [Bool.not_false, Bool.not_true, Bool.and_self, Bool.false_and,
      Bool.and_false, Bool.true_and, Bool.and_true, if_true, if_false,
      Bool.true_eq_false, Bool.false_eq_true] at h
  · obtain ⟨h1, h2, h3⟩ := plus_with_pos_spec a b ha hb hna hnb r h
    refine ⟨h1, ?_⟩
    rw [toIntVal, toIntVal, toIntVal, h3, hna, hnb, h2]
    simp
  · simp only [pure, Except.pure, Except.ok.injEq] at h
    subst h
    obtain ⟨hp1, hp2, hp3, hp4⟩ := symbol_pos_spec b hb
    rw [← opposite_eq_symbol_pos b hnb] at hp1 hp2 hp3
    obtain ⟨h1, h2⟩ := minus_with_pos_spec a b.opposite ha hp1 hna hp2
    refine ⟨h1, ?_⟩
    rw [h2, hp3, toIntVal, toIntVal, hna, hnb]
    simp
    ring
  · simp only [pure, Except.pure, Except.ok.injEq] at h
    subst h
    obtain ⟨hp1, hp2, hp3, hp4⟩ := symbol_pos_spec a ha
    obtain ⟨h1, h2⟩ := minus_with_pos_spec a.symbol_pos b hp1 hb hp2 hnb
    obtain ⟨h3, h4⟩ := opposite_spec (minus_with_pos a.symbol_pos b) h1
    refine ⟨h3, ?_⟩
    rw [show (minus_with_pos a.symbol_pos b).reverse
        = (minus_with_pos a.symbol_pos b).opposite from rfl]
    rw [h4, h2, hp3, toIntVal, toIntVal, hna, hnb]
    simp
    ring
  · obtain ⟨c, hc, hpr⟩ := bind_ok_elim _ _ _ h
    simp only [pure, Except.pure, Except.ok.injEq] at hpr
    subst hpr
    obtain ⟨hpa1, hpa2, hpa3, hpa4⟩ := symbol_pos_spec a ha
    obtain ⟨hpb1, hpb2, hpb3, hpb4⟩ := symbol_pos_spec b hb
    rw [← opposite_eq_symbol_pos b hnb] at hpb1 hpb2 hpb3
    obtain ⟨h1, h2, h3⟩ := plus_with_pos_spec a.symbol_pos b.opposite
      hpa1 hpb1 hpa2 hpb2 c hc
    have hmagc : 1 ≤ magOf c := by
      rw [h2, hpa3]
      have := magOf_pos_of_nonzero a ha (by
        rcases hz : a.is_zero with _ | _
        · rfl
        · rw [eq_zero_of_valid a ha hz] at hna
          exact absurd hna (by decide))
      omega
    obtain ⟨hs1, hs2, hs3, hs4⟩ := symbol_neg_spec c h1 h3
      (is_zero_false_of_magOf_pos c hmagc)
    refine ⟨hs1, ?_⟩
    rw [toIntVal, toIntVal, toIntVal, hs2, hs3, h2, hpa3, hpb3, hna, hnb]
    simp
    ring

theorem subAssign_spec (a b : BigInteger) (ha : ValidRep a) (hb : ValidRep b)
    (r : BigInteger) (h : subAssign a b = .ok r) :
    ValidRep r ∧ toIntVal r = toIntVal a - toIntVal b := by
  unfold subAssign at h
  rcases hna : a.is_negative with _ | _ <;> rcases hnb : b.is_negative with _ | _ <;>
    rw [hna, hnb] at h <;>
    simp only [Bool.not_false, Bool.not_true, Bool.and_self, Bool.false_and,
      Bool.and_false, Bool.true_and, Bool.and_true, if_true, if_false,
      Bool.true_eq_false, Bool.false_eq_true] at h <;>
    obtain ⟨c, hc, hpr⟩ := bind_ok_elim _ _ _ h <;>
    simp only [Bind.bind, Except.bind, pure, Except.pure, Except.ok.injEq] at hpr <;>
    subst hpr
  · simp only [pure, Except.pure, Except.ok.injEq] at hc
    subst hc
    obtain ⟨h1, h2⟩ := minus_with_pos_spec a b ha hb hna hnb
    rw [cez_of_valid _ h1]
    refine ⟨h1, ?_⟩
    rw [h2, toIntVal, toIntVal, hna, hnb]
    simp
  · obtain ⟨hp1, hp2, hp3, hp4⟩ := symbol_pos_spec b hb
    rw [← opposite_eq_symbol_pos b hnb] at hp1 hp2 hp3
    obtain ⟨h1, h2, h3⟩ := plus_with_pos_spec a b.opposite ha hp1 hna hp2 c hc
    rw [cez_of_valid _ h1]
    refine ⟨h1, ?_⟩
    rw [toIntVal, toIntVal, toIntVal, h3, h2, hp3, hna, hnb]
    simp
  · obtain ⟨hpa1, hpa2, hpa3, hpa4⟩ := symbol_pos_spec a ha
    obtain ⟨h1, h2, h3⟩ := plus_with_pos_spec a.symbol_pos b hpa1 hb hpa2 hnb
      c hc
    have hmagc : 1 ≤ magOf c := by
      rw [h2, hpa3]
      have := magOf_pos_of_nonzero a ha (by
        rcases hz : a.is_zero with _ | _
        · rfl
        · rw [eq_zero_of_valid a ha hz] at hna
          exact absurd hna (by decide))
      omega
    obtain ⟨hs1, hs2, hs3, hs4⟩ := symbol_neg_spec c h1 h3
      (is_zero_false_of_magOf_pos c hmagc)
    rw [cez_of_valid _ hs1]
    refine ⟨hs1, ?_⟩
    rw [toIntVal, toIntVal, toIntVal, hs2, hs3, h2, hpa3, hna, hnb]
    simp
    ring
  · simp only [pure, Except.pure, Except.ok.injEq] at hc
    subst hc
    obtain ⟨hpa1, hpa2, hpa3, hpa4⟩ := symbol_pos_spec a ha
    obtain ⟨hpb1, hpb2, hpb3, hpb4⟩ := symbol_pos_spec b hb
    rw [← opposite_eq_symbol_pos b hnb] at hpb1 hpb2 hpb3
    obtain ⟨h1, h2⟩ := minus_with_pos_spec a.symbol_pos b.opposite hpa1 hpb1
      hpa2 hpb2
    obtain ⟨h3, h4⟩ := opposite_spec (minus_with_pos a.symbol_pos b.opposite) h1
    have hrev : (minus_with_pos a.symbol_pos b.opposite).reverse
        = (minus_with_pos a.symbol_pos b.opposite).opposite := rfl
    rw [hrev, cez_of_valid _ h3]
    refine ⟨h3, ?_⟩
    rw [h4, h2, hpa3, hpb3, toIntVal, toIntVal, hna, hnb]
    simp
    ring

/-! ## Output validity of the arithmetic operators -/

theorem decChars_length_eq (n : Nat) (h : n ≤ 9999) :
    (decChars n).length
      = 1 + (if n / 10 ≠ 0 then 1 else 0) + (if n / 100 ≠ 0 then 1 else 0)
        + (if n / 1000 ≠ 0 then 1 else 0) := by
  unfold decChars
  split_ifs <;>
    simp only [List.length_cons, List.length_nil, List.length_append] <;>
    omega

theorem to_string_length (b : BigInteger) (hv : ValidRep b)
    (hneg : b.is_negative = false) :
    (to_string b).length = b.digits := by
  obtain ⟨v0, rest, hL, hr0, hrr, hlast, hnot0⟩ := validRep_cases b hv
  have hne : b.number_ ≠ [] := by rw [hL]; simp
  have hv0le : v0 ≤ 9999 := by
    rw [is_negative, hL] at hneg
    simp only [List.getD_cons_zero, decide_eq_false_iff_not, Nat.not_lt] at hneg
    omega
  have hallle : ∀ v ∈ b.number_, v ≤ 9999 := by
    intro v hvm
    rw [hL] at hvm
    rcases List.mem_cons.mp hvm with rfl | h
    · omega
    · exact hrr _ h
  have hwle : b.number_.getLast hne ≤ 9999 :=
    hallle _ (List.getLast_mem hne)
  have hsplit : b.number_.reverse
      = b.number_.getLast hne :: b.number_.dropLast.reverse := by
    conv_lhs => rw [← List.dropLast_append_getLast hne]
    rw [List.reverse_append]
    simp
  have hbr : b.backRaw = b.number_.getLast hne := by
    unfold backRaw
    rw [List.getLast?_eq_getLast _ hne]
    rfl
  have hgs : b.group_size = b.number_.length := rfl
  have hLpos : 1 ≤ b.number_.length := by rw [hL]; simp
  rw [to_string_closed b, hneg]
  simp only [Bool.false_eq_true, if_false, List.nil_append]
  rw [mask_id_of_nonneg b hv hneg, hsplit]
  simp only [renderGroupsRev]
  rw [List.length_append,
    flatMap_pad4_length _ (by
      intro g hg
      rw [List.mem_reverse] at hg
      exact hallle g (List.mem_of_mem_dropLast hg)),
    List.length_reverse, List.length_dropLast,
    decChars_length_eq _ hwle]
  unfold digits
  rw [hbr, hgs]
  have h4 : b.number_.getLast hne / 10000 = 0 := Nat.div_eq_of_lt (by omega)
  split_ifs <;> omega

theorem to_string_digit_chars (b : BigInteger) (hv : ValidRep b)
    (hneg : b.is_negative = false) (hnz : b.is_zero = false) :
    ∃ c cs, to_string b = c :: cs ∧ isDigitCh c = true ∧ c ≠ '0' ∧
      (∀ x ∈ cs, isDigitCh x = true) := by
  obtain ⟨v0, rest, hL, hr0, hrr, hlast, hnot0⟩ := validRep_cases b hv
  have hne : b.number_ ≠ [] := by rw [hL]; simp
  have hv0le : v0 ≤ 9999 := by
    rw [is_negative, hL] at hneg
    simp only [List.getD_cons_zero, decide_eq_false_iff_not, Nat.not_lt] at hneg
    omega
  have hv0nz : rest = [] → v0 ≠ 0 := by
    intro hre h0
    rw [is_zero, hL, hre, h0] at hnz
    simp at hnz
  have hallle : ∀ v ∈ b.number_, v ≤ 9999 := by
    intro v hvm
    rw [hL] at hvm
    rcases List.mem_cons.mp hvm with rfl | h
    · omega
    · exact hrr _ h
  have hwle : b.number_.getLast hne ≤ 9999 :=
    hallle _ (List.getLast_mem hne)
  have hwpos : 0 < b.number_.getLast hne := by
    rcases hre : rest with _ | ⟨r1, rs⟩
    · have hgl2 : b.number_.getLast? = some v0 := by
        rw [hL, hre]
        rfl
      rw [List.getLast?_eq_getLast _ hne] at hgl2
      have hgl : b.number_.getLast hne = v0 := by injection hgl2
      rw [hgl]
      have := hv0nz hre
      omega
    · have hgl : b.number_.getLast? = rest.getLast? := by
        rw [hL, hre, List.getLast?_cons_cons, ← hre]
      have h2 := hlast (by rw [hre]; simp)
      rw [← hgl, List.getLast?_eq_getLast _ hne] at h2
      rcases Nat.eq_zero_or_pos (b.number_.getLast hne) with h0 | h0
      · exact absurd (by rw [h0]) h2
      · exact h0
  have hsplit : b.number_.reverse
      = b.number_.getLast hne :: b.number_.dropLast.reverse := by
    conv_lhs => rw [← List.dropLast_append_getLast hne]
    rw [List.reverse_append]
    simp
  obtain ⟨d, t, hd1, hd9, hdE⟩ :=
    decChars_head_pos (b.number_.getLast hne) hwle hwpos
  refine ⟨dCh d, t ++ b.number_.dropLast.reverse.flatMap pad4, ?_, ?_, ?_, ?_⟩
  · rw [to_string_closed b, hneg]
    simp only [Bool.false_eq_true, if_false, List.nil_append]
    rw [mask_id_of_nonneg b hv hneg, hsplit]
    simp only [renderGroupsRev]
    rw [hdE]
    simp
  · exact isDigitCh_dCh d (by omega)
  · rw [Ne, dCh_eq_zeroCh_iff d (by omega)]
    omega
  · intro x hx
    rcases List.mem_append.mp hx with h | h
    · have hxm : x ∈ decChars (b.number_.getLast hne) := by
        rw [hdE]
        simp [h]
      exact (decChars_spec _ (by omega)).1 x hxm
    · obtain ⟨g, hg, hxg⟩ := List.mem_flatMap.mp h
      rw [List.mem_reverse] at hg
      exact pad4_digits g (hallle g (List.mem_of_mem_dropLast hg)) x hxg

theorem string_init_digits_overflow (fuel : Nat) (c : Char) (cs : List Char)
    (h1 : isDigitCh c = true) (hc0 : c ≠ '0')
    (h2 : ∀ x ∈ cs, isDigitCh x = true)
    (hlen : (packRev (c :: cs).reverse).length > MAX_GROUPS) :
    string_init (fuel + 1) (c :: cs) = .error ovErr := by
  obtain ⟨_, _, _, hplus, hminus⟩ := digit_ne_special c h1
  have hng : MAX_GROUPS < (packRev (cs.reverse ++ [c])).length := by
    rw [← List.reverse_cons]
    omega
  unfold string_init
  rw [is_integer_digits c cs h1 hc0 h2]
  simp [stripSign_not_sign c cs hplus hminus, hminus, hng, Bind.bind,
    Except.bind, pure, Except.pure]

theorem string_init_digits_ok (fuel : Nat) (c : Char) (cs : List Char)
    (y : BigInteger)
    (h1 : isDigitCh c = true) (hc0 : c ≠ '0')
    (h2 : ∀ x ∈ cs, isDigitCh x = true)
    (h : string_init (fuel + 1) (c :: cs) = .ok y) :
    y = ⟨packRev (c :: cs).reverse⟩ := by
  by_cases hlen : (packRev (c :: cs).reverse).length ≤ MAX_GROUPS
  · rw [string_init_digits fuel c cs h1 hc0 h2 hlen] at h
    injection h with h3
    exact h3.symm
  · rw [string_init_digits_overflow fuel c cs h1 hc0 h2 (by omega)] at h
    exact absurd h (by simp)

theorem validRep_packRev (c : Char) (cs : List Char)
    (h1 : isDigitCh c = true) (hc0 : c ≠ '0')
    (h2 : ∀ x ∈ cs, isDigitCh x = true) :
    ValidRep ⟨packRev (c :: cs).reverse⟩ ∧
      is_negative ⟨packRev (c :: cs).reverse⟩ = false := by
  have hrev : (c :: cs).reverse = cs.reverse ++ [c] := by simp
  have hd : ∀ x ∈ (c :: cs).reverse, isDigitCh x = true := by
    intro x hx
    rw [List.mem_reverse] at hx
    rcases List.mem_cons.mp hx with rfl | hx2
    · exact h1
    · exact h2 x hx2
  obtain ⟨hb, hmag, hne, hlenf, hlastf⟩ := packRev_spec (c :: cs).reverse hd
  have hlen : (packRev (c :: cs).reverse).length = (cs.length + 4) / 4 := by
    rw [hlenf (by simp), List.length_reverse, List.length_cons]
  have hge : 10000 ^ ((packRev (c :: cs).reverse).length - 1)
      ≤ magL (packRev (c :: cs).reverse) := by
    rw [hmag]
    have hlow := natOfRevDigits_last_pos cs.reverse c h1 hc0
    have hexp : 4 * ((packRev (c :: cs).reverse).length - 1) ≤ cs.length := by
      rw [hlen]
      omega
    have hstep : (10000 : Nat) ^ ((packRev (c :: cs).reverse).length - 1)
        ≤ 10 ^ cs.reverse.length := by
      rw [pow10000_eq, List.length_reverse]
      exact Nat.pow_le_pow_right (by norm_num) hexp
    calc (10000 : Nat) ^ ((packRev (c :: cs).reverse).length - 1)
        ≤ 10 ^ cs.reverse.length := hstep
      _ ≤ natOfRevDigits (cs.reverse ++ [c]) := hlow
      _ = natOfRevDigits (c :: cs).reverse := by rw [hrev]
  have hcanon := canonical_of_magL_ge _ hb hge
  obtain ⟨g0, grest, hgE⟩ :
      ∃ g0 grest, packRev (c :: cs).reverse = g0 :: grest := by
    rcases hE : packRev (c :: cs).reverse with _ | ⟨a, t⟩
    · exact absurd hE hne
    · exact ⟨a, t, rfl⟩
  rw [hgE]
  rw [hgE] at hb hcanon
  have hg0 : g0 ≤ 9999 := hb g0 (by simp)
  refine ⟨⟨Or.inl hg0, fun v hv => hb v (by simp [hv]), ?_,
      fun hc => absurd hc.1 (by unfold NEG_PART; omega)⟩,
    is_negative_false_of_head_le g0 grest hg0⟩
  intro hgr
  rcases hcanon with hlen1 | hlast0
  · exfalso
    have hg2 : grest.length = 0 := by simpa using hlen1
    exact hgr (List.length_eq_zero.mp hg2)
  · obtain ⟨a, t, hat⟩ : ∃ a t, grest = a :: t := by
      rcases hgg : grest with _ | ⟨a, t⟩
      · exact absurd hgg hgr
      · exact ⟨a, t, rfl⟩
    rw [hat]
    rw [hat, List.getLast?_cons_cons] at hlast0
    exact hlast0

theorem validRep_symbol_neg (c : BigInteger) (h1 : ValidRep c)
    (h2 : c.is_negative = false) : ValidRep c.symbol_neg := by
  rcases hz : c.is_zero with _ | _
  · exact (symbol_neg_spec c h1 h2 hz).1
  · unfold symbol_neg
    rw [hz]
    simpa using h1

theorem validRep_drop (b : BigInteger) (hv : ValidRep b)
    (hneg : b.is_negative = false) (k : Nat) (hk : k < b.number_.length) :
    ValidRep ⟨b.number_.drop k⟩ ∧
      is_negative ⟨b.number_.drop k⟩ = false := by
  obtain ⟨v0, rest, hL, hr0, hrr, hlast, hnot0⟩ := validRep_cases b hv
  have hv0le : v0 ≤ 9999 := by
    rw [is_negative, hL] at hneg
    simp only [List.getD_cons_zero, decide_eq_false_iff_not, Nat.not_lt] at hneg
    omega
  have hallle : ∀ v ∈ b.number_, v ≤ 9999 := by
    intro v hvm
    rw [hL] at hvm
    rcases List.mem_cons.mp hvm with rfl | h
    · omega
    · exact hrr _ h
  have hkeepne : b.number_.drop k ≠ [] := by
    intro hc
    have hlc := congrArg List.length hc
    rw [List.length_drop] at hlc
    simp at hlc
    omega
  obtain ⟨k0, krest, hkE⟩ : ∃ k0 krest, b.number_.drop k = k0 :: krest := by
    rcases hE : b.number_.drop k with _ | ⟨a, t⟩
    · exact absurd hE hkeepne
    · exact ⟨a, t, rfl⟩
  have hkeeple : ∀ v ∈ b.number_.drop k, v ≤ 9999 :=
    fun v hvm => hallle v (List.mem_of_mem_drop hvm)
  have hk0le : k0 ≤ 9999 := hkeeple k0 (by rw [hkE]; simp)
  have hkrle : ∀ v ∈ krest, v ≤ 9999 :=
    fun v hvm => hkeeple v (by rw [hkE]; simp [hvm])
  have hkrlast : krest ≠ [] → krest.getLast? ≠ some 0 := by
    intro hkr
    obtain ⟨a, t, hat⟩ : ∃ a t, krest = a :: t := by
      rcases hgg : krest with _ | ⟨a, t⟩
      · exact absurd hgg hkr
      · exact ⟨a, t, rfl⟩
    have hlen2 : 2 ≤ (b.number_.drop k).length := by
      rw [hkE, hat]
      simp only [List.length_cons]
      omega
    rw [List.length_drop] at hlen2
    have hre : rest ≠ [] := by
      intro hc
      rw [hL, hc] at hlen2
      simp only [List.length_cons, List.length_nil] at hlen2
      omega
    have hglrest : b.number_.getLast? = rest.getLast? := by
      rcases hgg : rest with _ | ⟨r1, rs⟩
      · exact absurd hgg hre
      · rw [hL, hgg, List.getLast?_cons_cons, ← hgg]
    have h2 : (k0 :: krest).getLast? = krest.getLast? := by
      rw [hat, List.getLast?_cons_cons]
    rw [← h2, ← hkE, getLast?_drop_ne_nil _ _ hkeepne, hglrest]
    exact hlast hre
  rw [hkE]
  exact ⟨⟨Or.inl hk0le, hkrle, hkrlast,
      fun hc => absurd hc.1 (by unfold NEG_PART; omega)⟩,
    is_negative_false_of_head_le k0 krest hk0le⟩

theorem validRep_cez_of_small (h0 : Nat) (t : List Nat)
    (hh : h0 ≤ 9999) (ht : ∀ g ∈ t, g ≤ 9999) :
    ValidRep (clear_excess_zeros ⟨h0 :: t⟩) ∧
      (clear_excess_zeros ⟨h0 :: t⟩).is_negative = false := by
  obtain ⟨t2, hE, hmag, hcanon, hmem⟩ := clear_excess_spec h0 t
  rw [hE]
  refine ⟨⟨Or.inl hh, fun v hv => ht v (hmem v hv), ?_,
      fun hc => absurd hc.1 (by unfold NEG_PART; omega)⟩,
    is_negative_false_of_head_le h0 t2 hh⟩
  intro hne
  rcases hcanon with h | h
  · exact absurd h hne
  · exact h

theorem shift10_left_valid (fuel : Nat) (b : BigInteger) (n : Nat)
    (y : BigInteger) (hv : ValidRep b) (hneg : b.is_negative = false)
    (h : shift10 fuel b n ShiftType.kMoveLeft = .ok y) :
    ValidRep y ∧ y.is_negative = false := by
  rcases fuel with _ | fuel
  · rw [shift10] at h
    exact absurd h (by simp)
  unfold shift10 at h
  rcases hz : b.is_zero with _ | _
  · rw [hz] at h
    rw [if_neg (by simp)] at h
    rw [if_pos rfl] at h
    by_cases hov : b.digits + n > MAX_DIGITS
    · rw [if_pos hov] at h
      exact absurd h (by simp)
    · rw [if_neg hov] at h
      by_cases h4 : n % 4 = 0
      · rw [if_pos h4] at h
        simp only [pure, Except.pure, Except.ok.injEq] at h
        subst h
        obtain ⟨v0, rest, hL, hr0, hrr, hlast, hnot0⟩ := validRep_cases b hv
        have hv0le : v0 ≤ 9999 := by
          rw [is_negative, hL] at hneg
          simp only [List.getD_cons_zero, decide_eq_false_iff_not,
            Nat.not_lt] at hneg
          omega
        have hv0nz : rest = [] → v0 ≠ 0 := by
          intro hre h0
          rw [is_zero, hL, hre, h0] at hz
          simp at hz
        have hfacts := validRep_prepend_zeros (n / 4) v0 rest hv0le hrr
          hlast hv0nz
        rw [← hL] at hfacts
        exact ⟨hfacts.1, hfacts.2.1⟩
      · rw [if_neg h4] at h
        obtain ⟨c, cs, hts, hc1, hc0, hcs⟩ :=
          to_string_digit_chars b hv hneg hz
        rcases fuel with _ | fuel2
        · rw [string_init] at h
          exact absurd h (by simp)
        · rw [hts] at h
          have hall : ∀ x ∈ cs ++ List.replicate n '0', isDigitCh x = true := by
            intro x hx
            rcases List.mem_append.mp hx with h1 | h1
            · exact hcs x h1
            · rw [List.eq_of_mem_replicate h1]
              decide
          have hy := string_init_digits_ok fuel2 c
            (cs ++ List.replicate n '0') y hc1 hc0 hall (by simpa using h)
          rw [hy]
          exact validRep_packRev c _ hc1 hc0 hall
  · rw [hz] at h
    rw [if_pos rfl] at h
    simp only [pure, Except.pure, Except.ok.injEq] at h
    subst h
    exact ⟨hv, hneg⟩

theorem shift10_right_valid (fuel : Nat) (b : BigInteger) (n : Nat)
    (y : BigInteger) (hv : ValidRep b) (hneg : b.is_negative = false)
    (hd : n < b.digits)
    (h : shift10 fuel b n ShiftType.kMoveRight = .ok y) :
    ValidRep y ∧ y.is_negative = false := by
  rcases fuel with _ | fuel
  · rw [shift10] at h
    exact absurd h (by simp)
  unfold shift10 at h
  rcases hz : b.is_zero with _ | _
  · rw [hz] at h
    rw [if_neg (by simp)] at h
    rw [if_neg (by decide)] at h
    rw [if_neg (by omega)] at h
    have hback : b.backRaw ≤ 9999 := by
      obtain ⟨v0, rest, hL, hr0, hrr, hlast, hnot0⟩ := validRep_cases b hv
      have hv0le : v0 ≤ 9999 := by
        rw [is_negative, hL] at hneg
        simp only [List.getD_cons_zero, decide_eq_false_iff_not,
          Nat.not_lt] at hneg
        omega
      have hallle : ∀ v ∈ b.number_, v ≤ 9999 := by
        intro v hvm
        rw [hL] at hvm
        rcases List.mem_cons.mp hvm with rfl | h2
        · omega
        · exact hrr _ h2
      unfold backRaw
      rcases hgl : b.number_.getLast? with _ | w
      · simp
      · simp only [Option.getD_some]
        have hne : b.number_ ≠ [] := by rw [hL]; simp
        exact hallle w (mem_of_getLast?_eq _ _ hne hgl)
    have hLpos : 1 ≤ b.number_.length := by
      obtain ⟨v0, rest, hL, -, -, -, -⟩ := validRep_cases b hv
      rw [hL]
      simp
    have hdig := digits_le_of_small_top b hLpos hback
    by_cases h4 : n % 4 = 0
    · rw [if_pos h4] at h
      simp only [pure, Except.pure, Except.ok.injEq] at h
      subst h
      exact validRep_drop b hv hneg (n / 4) (by omega)
    · rw [if_neg h4] at h
      obtain ⟨c, cs, hts, hc1, hc0, hcs⟩ :=
        to_string_digit_chars b hv hneg hz
      have hlen2 : (c :: cs).length = b.digits := by
        rw [← hts]
        exact to_string_length b hv hneg
      rcases fuel with _ | fuel2
      · rw [string_init] at h
        exact absurd h (by simp)
      · rw [hts] at h
        obtain ⟨m, hm⟩ : ∃ m, (c :: cs).length - n = m + 1 := by
          refine ⟨(c :: cs).length - n - 1, ?_⟩
          rw [hlen2]
          omega
        rw [hm, List.take_succ_cons] at h
        have hy := string_init_digits_ok fuel2 c (cs.take m) y hc1 hc0
          (fun x hx => hcs x (List.mem_of_mem_take hx)) h
        rw [hy]
        exact validRep_packRev c _ hc1 hc0
          (fun x hx => hcs x (List.mem_of_mem_take hx))
  · rw [hz] at h
    rw [if_pos rfl] at h
    simp only [pure, Except.pure, Except.ok.injEq] at h
    subst h
    exact ⟨hv, hneg⟩

theorem add_and_carry_small (b : BigInteger) (n v : Nat) (r : BigInteger)
    (w : Bool) (hb : ∀ g ∈ b.number_, g ≤ 9999) (hv : v ≤ 9999)
    (h : add_and_carry b n v = .ok (r, w)) :
    (∀ g ∈ r.number_, g ≤ 9999) ∧ b.number_.length ≤ r.number_.length ∧
      (w = true → 1 ≤ v) := by
  unfold add_and_carry at h
  split at h
  · exact absurd h (by simp)
  · split at h
    · simp only [pure, Except.pure, Except.ok.injEq, Prod.mk.injEq] at h
      obtain ⟨h1, h2⟩ := h
      subst h1
      refine ⟨?_, by simp, ?_⟩
      · intro g hg
        rcases List.mem_append.mp hg with hgb | hgv
        · exact hb g hgb
        · rw [List.mem_singleton] at hgv
          omega
      · intro hw
        rw [← h2] at hw
        exact absurd hw (by simp)
    · simp only [pure, Except.pure, Except.ok.injEq, Prod.mk.injEq] at h
      obtain ⟨h1, h2⟩ := h
      subst h1
      refine ⟨?_, by simp, ?_⟩
      · intro g hg
        rcases List.mem_or_eq_of_mem_set hg with hgb | hgs
        · exact hb g hgb
        · subst hgs
          omega
      · intro hw
        rw [← h2] at hw
        simp only [decide_eq_true_eq] at hw
        omega

theorem mulInner_small (mj : Nat) (hmj : mj ≤ 9999) :
    ∀ (gs : List Nat), (∀ g ∈ gs, mask g ≤ 9999) →
    ∀ (idx carry : Nat) (result r : BigInteger) (c : Nat),
      carry ≤ 9999 →
      (∀ g ∈ result.number_, g ≤ 9999) →
      mulInner mj gs idx carry result = .ok (r, c) →
      (∀ g ∈ r.number_, g ≤ 9999) ∧
        result.number_.length ≤ r.number_.length ∧ c ≤ 9999 := by
  intro gs
  induction gs with
  | nil =>
      intro hgs idx carry result r c hc hb h
      unfold mulInner at h
      simp only [pure, Except.pure, Except.ok.injEq, Prod.mk.injEq] at h
      obtain ⟨h1, h2⟩ := h
      subst h1
      exact ⟨hb, le_refl _, by omega⟩
  | cons g rest ih =>
      intro hgs idx carry result r c hc hb h
      unfold mulInner at h
      simp only [] at h
      obtain ⟨p1, hac, h2⟩ := bind_ok_elim _ _ _ h
      rcases p1 with ⟨r1, w1⟩
      simp only [] at h2
      have hprod : mj * mask g ≤ 9999 * 9999 :=
        Nat.mul_le_mul hmj (hgs g (by simp))
      obtain ⟨hb1, hl1, hw1⟩ := add_and_carry_small result idx _ r1 w1 hb
        (by omega) hac
      have hcarry2 : (if w1 = true then (mj * mask g + carry) / 10000 + 1
          else (mj * mask g + carry) / 10000) ≤ 9999 := by
        rcases w1 with _ | _
        · simp only [Bool.false_eq_true, if_false]
          omega
        · simp only [if_true]
          have := hw1 rfl
          omega
      obtain ⟨hb2, hl2, hc2⟩ := ih (fun x hx => hgs x (by simp [hx]))
        (idx + 1) _ r1 r c hcarry2 hb1 h2
      exact ⟨hb2, le_trans hl1 hl2, hc2⟩

theorem mulOuter_small (ags : List Nat) (hag : ∀ g ∈ ags, mask g ≤ 9999) :
    ∀ (ms : List Nat), (∀ g ∈ ms, mask g ≤ 9999) →
    ∀ (j : Nat) (result r : BigInteger),
      (∀ g ∈ result.number_, g ≤ 9999) →
      mulOuter ags ms j result = .ok r →
      (∀ g ∈ r.number_, g ≤ 9999) ∧
        result.number_.length ≤ r.number_.length := by
  intro ms
  induction ms with
  | nil =>
      intro hms j result r hb h
      unfold mulOuter at h
      simp only [pure, Except.pure, Except.ok.injEq] at h
      subst h
      exact ⟨hb, le_refl _⟩
  | cons mj rest ih =>
      intro hms j result r hb h
      unfold mulOuter at h
      obtain ⟨p1, hmi, h2⟩ := bind_ok_elim _ _ _ h
      rcases p1 with ⟨r1, carry⟩
      simp only [] at h2
      obtain ⟨hb1, hl1, hc1⟩ := mulInner_small (mask mj)
        (hms mj (by simp)) ags hag j 0 result r1 carry (by omega) hb hmi
      by_cases hcz : carry ≠ 0
      · rw [if_pos hcz] at h2
        obtain ⟨p2, hac, h4⟩ := bind_ok_elim _ _ _ h2
        rcases p2 with ⟨r3, w3⟩
        simp only [Bind.bind, Except.bind, pure, Except.pure] at h4
        obtain ⟨hb3, hl3, -⟩ := add_and_carry_small r1 (j + ags.length)
          carry r3 w3 hb1 hc1 hac
        obtain ⟨hb4, hl4⟩ := ih (fun x hx => hms x (by simp [hx])) (j + 1)
          r3 r hb3 h4
        exact ⟨hb4, le_trans hl1 (le_trans hl3 hl4)⟩
      · rw [if_neg hcz] at h2
        simp only [Bind.bind, Except.bind, pure, Except.pure] at h2
        obtain ⟨hb4, hl4⟩ := ih (fun x hx => hms x (by simp [hx])) (j + 1)
          r1 r hb1 h2
        exact ⟨hb4, le_trans hl1 hl4⟩

theorem multiply_with_pos_valid (a m : BigInteger) (r : BigInteger)
    (ha1 : 1 ≤ a.group_size + m.group_size)
    (hag : ∀ g ∈ a.number_, mask g ≤ 9999)
    (hmg : ∀ g ∈ m.number_, mask g ≤ 9999)
    (h : multiply_with_pos a m = .ok r) :
    ValidRep r ∧ r.is_negative = false := by
  unfold multiply_with_pos at h
  split at h
  · exact absurd h (by simp)
  · simp only [] at h
    obtain ⟨res, hres, hpr⟩ := bind_ok_elim _ _ _ h
    simp only [pure, Except.pure, Except.ok.injEq] at hpr
    subst hpr
    have h0 : ∀ g ∈ (List.replicate (a.group_size + m.group_size) 0), g ≤ 9999 := by
      intro g hg
      rw [List.eq_of_mem_replicate hg]
      omega
    obtain ⟨hb, hl⟩ := mulOuter_small a.number_ hag m.number_ hmg 0
      ⟨List.replicate (a.group_size + m.group_size) 0⟩ res h0 hres
    have hlen : 1 ≤ res.number_.length := by
      have : (List.replicate (a.group_size + m.group_size) 0).length
          = a.group_size + m.group_size := List.length_replicate _ _
      simp only [this] at hl
      omega
    obtain ⟨r0, rt, hrE⟩ : ∃ r0 rt, res.number_ = r0 :: rt := by
      rcases hE : res.number_ with _ | ⟨x, t⟩
      · rw [hE] at hlen
        simp at hlen
      · exact ⟨x, t, rfl⟩
    have hres2 : res = ⟨r0 :: rt⟩ := by
      cases res
      simpa using hrE
    rw [hres2] at hb ⊢
    exact validRep_cez_of_small r0 rt (hb r0 (by simp))
      (fun g hg => hb g (by simp [hg]))

theorem validRep_cez_of_small2 (b : BigInteger) (hne : b.number_ ≠ [])
    (hb : ∀ g ∈ b.number_, g ≤ 9999) :
    ValidRep b.clear_excess_zeros ∧
      b.clear_excess_zeros.is_negative = false := by
  obtain ⟨r0, rt, hrE⟩ : ∃ r0 rt, b.number_ = r0 :: rt := by
    rcases hE : b.number_ with _ | ⟨x, t⟩
    · exact absurd hE hne
    · exact ⟨x, t, rfl⟩
  have hbE : b = ⟨r0 :: rt⟩ := by
    cases b
    simpa using hrE
  rw [hbE] at hb ⊢
  exact validRep_cez_of_small r0 rt (hb r0 (by simp))
    (fun g hg => hb g (by simp [hg]))

theorem searchLoop_bounds (dd dv : BigInteger) :
    ∀ (fuel low high v : Nat), 1 ≤ low → low ≤ 9999 → high ≤ 9999 →
      searchLoop dd dv fuel low high = .ok v → 1 ≤ v ∧ v ≤ 9999 := by
  intro fuel
  induction fuel with
  | zero =>
      intro low high v h1 h2 h3 h
      unfold searchLoop at h
      simp only [pure, Except.pure, Except.ok.injEq] at h
      subst h
      exact ⟨h1, h2⟩
  | succ m ih =>
      intro low high v h1 h2 h3 h
      unfold searchLoop at h
      by_cases hlh : low < high
      · rw [if_pos hlh] at h
        simp only [] at h
        by_cases heq : low + 1 = high
        · rw [if_pos heq] at h
          obtain ⟨p, hp, h4⟩ := bind_ok_elim _ _ _ h
          simp only [pure, Except.pure, Except.ok.injEq] at h4
          subst h4
          constructor <;> split_ifs <;> omega
        · rw [if_neg heq] at h
          obtain ⟨p, hp, h4⟩ := bind_ok_elim _ _ _ h
          by_cases hcomp : compare dd p < 0
          · rw [if_pos hcomp] at h4
            exact ih low ((low + high) / 2 - 1) v h1 h2 (by omega) h4
          · rw [if_neg hcomp] at h4
            exact ih ((low + high) / 2) high v (by omega) (by omega) h3 h4
      · rw [if_neg hlh] at h
        simp only [pure, Except.pure, Except.ok.injEq] at h
        subst h
        exact ⟨h1, h2⟩

theorem search_bounds (dd dv : BigInteger) (v : Nat)
    (h : search dd dv = .ok v) : 1 ≤ v ∧ v ≤ 9999 :=
  searchLoop_bounds dd dv 10000 1 9999 v (by omega) (by omega) (by omega) h

theorem group_adjust_small (b : BigInteger) (n v : Nat)
    (hb : ∀ g ∈ b.number_, g ≤ 9999) (hv : v ≤ 9999) :
    (∀ g ∈ (b.group_adjust n v).number_, g ≤ 9999) ∧
      (b.group_adjust n v).number_.length = b.number_.length := by
  unfold group_adjust
  refine ⟨?_, by simp⟩
  intro g hg
  rcases List.mem_or_eq_of_mem_set hg with h | rfl
  · exact hb g h
  · exact hv

theorem divLoop_valid (dv : BigInteger) :
    ∀ (fuel : Nat) (a result y : BigInteger),
      result.number_ ≠ [] →
      (∀ g ∈ result.number_, g ≤ 9999) →
      divLoop dv fuel a result = .ok y →
      ValidRep y ∧ y.is_negative = false := by
  intro fuel
  induction fuel with
  | zero =>
      intro a result y hne hb h
      unfold divLoop at h
      exact absurd h (by simp)
  | succ m ih =>
      intro a result y hne hb h
      unfold divLoop at h
      simp only [] at h
      by_cases hg : a.group_size < dv.group_size
      · rw [if_pos hg] at h
        simp only [pure, Except.pure, Except.ok.injEq] at h
        subst h
        exact validRep_cez_of_small2 result hne hb
      · rw [if_neg hg] at h
        obtain ⟨dd, hdd, h2⟩ := bind_ok_elim _ _ _ h
        try simp only [] at h2
        by_cases hc1 : a.group_size = dv.group_size ∧ compare dd dv < 0
        · rw [if_pos hc1] at h2
          simp only [pure, Except.pure, Except.ok.injEq] at h2
          subst h2
          exact validRep_cez_of_small2 result hne hb
        · rw [if_neg hc1] at h2
          by_cases hc2 : a.group_size = dv.group_size ∧ compare dd dv = 0
          · rw [if_pos hc2] at h2
            simp only [pure, Except.pure, Except.ok.injEq] at h2
            subst h2
            obtain ⟨hb2, hlen2⟩ := group_adjust_small result
              (a.group_size - 1) 1 hb (by omega)
            apply validRep_cez_of_small2 _ ?_ hb2
            intro hcn
            rw [hcn] at hlen2
            simp only [List.length_nil] at hlen2
            exact hne (List.length_eq_zero.mp hlen2.symm)
          · rw [if_neg hc2] at h2
            obtain ⟨dd2, hdd2, h3⟩ := bind_ok_elim _ _ _ h2
            obtain ⟨qt, hqt, h4⟩ := bind_ok_elim _ _ _ h3
            obtain ⟨mult, hmult, h5⟩ := bind_ok_elim _ _ _ h4
            obtain ⟨mult2, hmult2, h6⟩ := bind_ok_elim _ _ _ h5
            try simp only [] at h6
            obtain ⟨a2, ha2, h7⟩ := bind_ok_elim _ _ _ h6
            have hbound := search_bounds dd2 dv qt hqt
            obtain ⟨hb2, hlen2⟩ := group_adjust_small result
              (a.group_size - dv.group_size
                - if compare dd dv < 0 then 1 else 0) qt hb hbound.2
            refine ih a2 _ y ?_ hb2 h7
            intro hcn
            rw [hcn] at hlen2
            simp only [List.length_nil] at hlen2
            exact hne (List.length_eq_zero.mp hlen2.symm)

theorem divide_with_pos_valid (a dv : BigInteger) (y : BigInteger)
    (hlen : 1 ≤ a.group_size)
    (h : divide_with_pos a dv = .ok y) :
    ValidRep y ∧ y.is_negative = false := by
  unfold divide_with_pos at h
  refine divLoop_valid dv (a.magOf + 1) a _ y ?_ ?_ h
  · intro hc
    have hlc := congrArg List.length hc
    simp only [List.length_replicate, List.length_nil] at hlc
    have hgs : a.group_size = a.number_.length := rfl
    omega
  · intro g hg
    rw [List.eq_of_mem_replicate hg]
    omega

theorem is_pow10_toNat_eq (x : BigInteger) (hv : ValidRep x)
    (hneg : x.is_negative = false)
    (hp : is_pow10 x ≥ 0) :
    (is_pow10 x).toNat = x.digits - 1 ∧ 1 ≤ x.digits := by
  have hlen := to_string_length x hv hneg
  have hdigpos : 1 ≤ x.digits := by
    unfold digits
    split_ifs <;> omega
  refine ⟨?_, hdigpos⟩
  unfold is_pow10 at hp ⊢
  simp only [] at hp ⊢
  split_ifs at hp ⊢ with hcond
  · rw [hlen]
    omega
  · exact absurd hp (by norm_num)

theorem mulAssign_valid (x y t : BigInteger) (hx : ValidRep x)
    (hy : ValidRep y) (h : mulAssign x y = .ok t) : ValidRep t := by
  unfold mulAssign mulAssignO at h
  by_cases hz : (x.is_zero || y.is_zero) = true
  · rw [if_pos hz] at h
    simp only [Except.mapError, Except.ok.injEq] at h
    subst h
    decide
  · rw [if_neg hz] at h
    simp only [] at h
    obtain ⟨hpa1, hpa2, hpa3, hpa4⟩ := symbol_pos_spec x hx
    obtain ⟨hab1, hab2, hab3, hab4⟩ := symbol_pos_spec y hy
    have habs : y.absolute = y.symbol_pos := rfl
    rw [← habs] at hab1 hab2 hab3 hab4
    have hxgs : 1 ≤ x.symbol_pos.group_size := by
      obtain ⟨v0, rest, hL, -, -, -, -⟩ := validRep_cases x.symbol_pos hpa1
      have hgs : x.symbol_pos.group_size = x.symbol_pos.number_.length := rfl
      rw [hgs, hL]
      simp
    by_cases hpow : is_pow10 y.absolute ≥ 0
    · rw [if_pos hpow] at h
      rcases hcall : shift10W x.symbol_pos (is_pow10 y.absolute).toNat
          ShiftType.kMoveLeft with e | c
      · rw [hcall] at h
        simp only [Except.mapError] at h
        exact absurd h (by simp)
      · rw [hcall] at h
        simp only [Except.mapError, Except.ok.injEq] at h
        subst h
        obtain ⟨hcv, hcn⟩ := shift10_left_valid parseFuel x.symbol_pos _ c
          hpa1 hpa2 hcall
        by_cases hrn : (x.is_negative ^^ y.is_negative) = true
        · rw [if_pos hrn]
          exact validRep_symbol_neg c hcv hcn
        · rw [if_neg hrn]
          exact hcv
    · rw [if_neg hpow] at h
      rcases hcall : multiply_with_pos x.symbol_pos y.absolute with e | c
      · rw [hcall] at h
        simp only [Except.mapError] at h
        exact absurd h (by simp)
      · rw [hcall] at h
        simp only [Except.mapError, Except.ok.injEq] at h
        subst h
        obtain ⟨hcv, hcn⟩ := multiply_with_pos_valid x.symbol_pos y.absolute c
          (by omega) (validRep_mask_bound _ hpa1) (validRep_mask_bound _ hab1)
          hcall
        by_cases hrn : (x.is_negative ^^ y.is_negative) = true
        · rw [if_pos hrn]
          exact validRep_symbol_neg c hcv hcn
        · rw [if_neg hrn]
          exact hcv

theorem divAssign_valid (a b q : BigInteger) (ha : ValidRep a)
    (hb : ValidRep b) (h : divAssign a b = .ok q) : ValidRep q := by
  unfold divAssign at h
  rcases hbz : b.is_zero with _ | _
  · rw [hbz] at h
    rw [if_neg (by simp)] at h
    simp only [] at h
    obtain ⟨hpa1, hpa2, hpa3, hpa4⟩ := symbol_pos_spec a ha
    obtain ⟨hab1, hab2, hab3, hab4⟩ := symbol_pos_spec b hb
    have habs : b.absolute = b.symbol_pos := rfl
    rw [← habs] at hab1 hab2 hab3 hab4
    have hfinal : ∀ c : BigInteger, ValidRep c → c.is_negative = false →
        ValidRep (if (a.is_negative ^^ b.is_negative) = true
                  then c.symbol_neg else c) := by
      intro c hc1 hc2
      by_cases hrn : (a.is_negative ^^ b.is_negative) = true
      · rw [if_pos hrn]
        exact validRep_symbol_neg c hc1 hc2
      · rw [if_neg hrn]
        exact hc1
    split at h
    · simp only [Bind.bind, Except.bind, pure, Except.pure,
        Except.ok.injEq] at h
      subst h
      exact hfinal _ (by decide) (by decide)
    · split at h
      · simp only [Bind.bind, Except.bind, pure, Except.pure,
          Except.ok.injEq] at h
        subst h
        exact hfinal _ (by decide) (by decide)
      · split at h
        · rename_i h1 h2 h3
          obtain ⟨c, hc, h4⟩ := bind_ok_elim _ _ _ h
          simp only [pure, Except.pure, Except.ok.injEq] at h4
          subst h4
          have hza1 : a.symbol_pos.is_zero = false := by
            simp only [Bool.or_eq_true, decide_eq_true_eq, not_or] at h1
            rcases hza : a.symbol_pos.is_zero with _ | _
            · rfl
            · exact absurd hza h1.1
          have hnzb : b.absolute.is_zero = false := by
            rw [hab4, hbz]
          have hgt : magOf b.absolute < magOf a.symbol_pos := by
            simp only [Bool.or_eq_true, decide_eq_true_eq, not_or] at h1
            have hcmp := compare_spec a.symbol_pos b.absolute hpa1 hab1
            have hva : toIntVal a.symbol_pos = (magOf a.symbol_pos : Int) := by
              rw [toIntVal, hpa2]
              simp
            have hvb : toIntVal b.absolute = (magOf b.absolute : Int) := by
              rw [toIntVal, hab2]
              simp
            rw [hva, hvb] at hcmp
            rcases Nat.lt_trichotomy (magOf a.symbol_pos)
                (magOf b.absolute) with hlt | heq | hgt
            · exfalso
              apply h1.2
              rw [hcmp]
              rw [if_pos (by omega)]
              decide
            · exfalso
              apply h2
              rw [hcmp]
              rw [if_neg (by omega), if_neg (by omega)]
            · exact hgt
          obtain ⟨hple, hbd1⟩ := is_pow10_toNat_eq b.absolute hab1 hab2 h3
          obtain ⟨hblo, hbhi, hbd2⟩ := digits_bounds b.absolute hab1 hab2 hnzb
          obtain ⟨halo, hahi, had2⟩ := digits_bounds a.symbol_pos hpa1 hpa2
            hza1
          have hdlt : (is_pow10 b.absolute).toNat < a.symbol_pos.digits := by
            rw [hple]
            by_contra hcon
            have hle : a.symbol_pos.digits ≤ b.absolute.digits - 1 := by
              omega
            have := Nat.pow_le_pow_right
              (by norm_num : 1 ≤ (10 : Nat)) hle
            omega
          obtain ⟨hcv, hcn⟩ := shift10_right_valid parseFuel a.symbol_pos _ c
            hpa1 hpa2 hdlt hc
          exact hfinal c hcv hcn
        · obtain ⟨c, hc, h4⟩ := bind_ok_elim _ _ _ h
          simp only [pure, Except.pure, Except.ok.injEq] at h4
          subst h4
          obtain ⟨hcv, hcn⟩ := divide_with_pos_valid a.symbol_pos b.absolute c
            (by
              obtain ⟨v0, rest, hL, -, -, -, -⟩ :=
                validRep_cases a.symbol_pos hpa1
              have hgs : a.symbol_pos.group_size
                  = a.symbol_pos.number_.length := rfl
              rw [hgs, hL]
              simp)
            hc
          exact hfinal c hcv hcn
  · rw [hbz] at h
    rw [if_pos rfl] at h
    exact absurd h (by simp)

/-! ## No arithmetic path raises InvalidValue except the power entry check -/

theorem bind_error_elim {α β : Type} (e : Except Err α) (f : α → Except Err β)
    (v : Err) (h : (e >>= f) = .error v) :
    e = .error v ∨ ∃ a, e = .ok a ∧ f a = .error v := by
  cases e with
  | error err =>
      simp only [Bind.bind, Except.bind] at h
      injection h with h2
      exact Or.inl (by rw [h2])
  | ok a =>
      simp only [Bind.bind, Except.bind] at h
      exact Or.inr ⟨a, rfl, h⟩

theorem sciExp_ne_inv (sz : List Char) : sciExp sz ≠ .error invalidVal := by
  intro h
  unfold sciExp at h
  repeat' first
    | split at h
    | simp only [] at h
  all_goals exact absurd h (by decide)

theorem is_integer_core_ne_inv (sz : List Char) :
    is_integer_core sz ≠ .error invalidVal := by
  intro h
  unfold is_integer_core at h
  repeat' first
    | split at h
    | simp only [] at h
  all_goals first
    | exact absurd h (by decide)
    | exact sciExp_ne_inv _ h

theorem is_integer_ne_inv (sz : List Char) :
    is_integer sz ≠ .error invalidVal := by
  unfold is_integer
  exact is_integer_core_ne_inv _

theorem string_init_shift10_ne_inv (fuel : Nat) :
    (∀ sz, string_init fuel sz ≠ .error invalidVal) ∧
    (∀ b n d, shift10 fuel b n d ≠ .error invalidVal) := by
  induction fuel with
  | zero =>
      constructor
      · intro sz h
        unfold string_init at h
        exact absurd h (by decide)
      · intro b n d h
        unfold shift10 at h
        exact absurd h (by decide)
  | succ m ih =>
      constructor
      · intro sz h
        unfold string_init at h
        rcases bind_error_elim _ _ _ h with h1 | ⟨t, ht, h2⟩
        · exact is_integer_ne_inv sz h1
        · repeat' first
            | split at h2
            | simp only [] at h2
          all_goals try exact absurd h2 (by decide)
          all_goals try simp [pure, Except.pure] at h2
          all_goals
            rcases bind_error_elim _ _ _ h2 with h3 | ⟨bb, hb, h4⟩
          all_goals try exact ih.2 _ _ _ h3
          all_goals simp [pure, Except.pure] at h4
      · intro b n d h
        unfold shift10 at h
        repeat' first
          | split at h
          | simp only [] at h
        all_goals try exact absurd h (by decide)
        all_goals try simp [pure, Except.pure] at h
        all_goals exact ih.1 _ h

theorem shift10W_ne_inv (b : BigInteger) (n : Nat) (d : ShiftType) :
    shift10W b n d ≠ .error invalidVal :=
  (string_init_shift10_ne_inv parseFuel).2 b n d

theorem plusCarryEnd_ne_inv (c p : Nat) :
    plusCarryEnd c p ≠ .error invalidVal := by
  intro h
  unfold plusCarryEnd at h
  repeat' split at h
  all_goals first
    | exact absurd h (by decide)
    | simp [pure, Except.pure] at h

theorem plusAdjust_ne_inv (l : List Nat) :
    ∀ c p, plusAdjust l c p ≠ .error invalidVal := by
  induction l with
  | nil =>
      intro c p
      exact plusCarryEnd_ne_inv c p
  | cons x xs ih =>
      intro c p h
      unfold plusAdjust at h
      simp only [] at h
      rcases bind_error_elim _ _ _ h with h1 | ⟨a, ha, h2⟩
      · exact ih _ _ h1
      · simp [pure, Except.pure] at h2

theorem plusPush_ne_inv (l : List Nat) :
    ∀ c p, plusPush l c p ≠ .error invalidVal := by
  induction l with
  | nil =>
      intro c p
      exact plusCarryEnd_ne_inv c p
  | cons y ys ih =>
      intro c p h
      unfold plusPush at h
      split at h
      · exact absurd h (by decide)
      · simp only [] at h
        rcases bind_error_elim _ _ _ h with h1 | ⟨a, ha, h2⟩
        · exact ih _ _ h1
        · simp [pure, Except.pure] at h2

theorem plusAux_ne_inv :
    ∀ l1 l2 c p, plusAux l1 l2 c p ≠ .error invalidVal := by
  intro l1
  induction l1 with
  | nil =>
      intro l2 c p
      exact plusPush_ne_inv l2 c p
  | cons x xs ih =>
      intro l2 c p h
      rcases l2 with _ | ⟨y, ys⟩
      · exact plusAdjust_ne_inv (x :: xs) c p h
      · unfold plusAux at h
        simp only [] at h
        rcases bind_error_elim _ _ _ h with h1 | ⟨a, ha, h2⟩
        · exact ih ys _ _ h1
        · simp [pure, Except.pure] at h2

theorem plus_with_pos_ne_inv (a b : BigInteger) :
    plus_with_pos a b ≠ .error invalidVal := by
  intro h
  unfold plus_with_pos at h
  repeat' split at h
  all_goals try simp [pure, Except.pure] at h
  rcases bind_error_elim _ _ _ h with h1 | ⟨z, hz, h2⟩
  · exact plusAux_ne_inv _ _ _ _ h1
  · simp [pure, Except.pure] at h2

theorem addAssign_ne_inv (a b : BigInteger) :
    addAssign a b ≠ .error invalidVal := by
  intro h
  unfold addAssign at h
  repeat' split at h
  all_goals try simp [pure, Except.pure] at h
  all_goals try exact plus_with_pos_ne_inv _ _ h
  all_goals
    rcases bind_error_elim _ _ _ h with h1 | ⟨c, hc, h2⟩
  · exact plus_with_pos_ne_inv _ _ h1
  · simp [pure, Except.pure] at h2

theorem subAssign_ne_inv (a b : BigInteger) :
    subAssign a b ≠ .error invalidVal := by
  intro h
  unfold subAssign at h
  repeat' first
    | split at h
    | simp only [] at h
  all_goals
    rcases bind_error_elim _ _ _ h with h1 | ⟨c, hc, h2⟩
  all_goals try simp [pure, Except.pure] at h1
  all_goals try exact plus_with_pos_ne_inv _ _ h1
  all_goals try simp [pure, Except.pure] at h2
  all_goals
    rcases bind_error_elim _ _ _ h2 with h3 | ⟨d, hd, h4⟩
  all_goals try simp [pure, Except.pure] at h3
  all_goals simp [pure, Except.pure] at h4

theorem add_and_carry_ne_inv (b : BigInteger) (n v : Nat) :
    add_and_carry b n v ≠ .error invalidVal := by
  intro h
  unfold add_and_carry at h
  repeat' first
    | split at h
    | simp only [] at h
  all_goals first
    | exact absurd h (by decide)
    | simp [pure, Except.pure] at h

theorem mulInner_ne_inv (mj : Nat) (l : List Nat) :
    ∀ idx c r, mulInner mj l idx c r ≠ .error invalidVal := by
  induction l with
  | nil =>
      intro idx c r h
      simp [mulInner, pure, Except.pure] at h
  | cons g rest ih =>
      intro idx c r h
      unfold mulInner at h
      simp only [] at h
      rcases bind_error_elim _ _ _ h with h1 | ⟨p2, hp, h2⟩
      · exact add_and_carry_ne_inv _ _ _ h1
      · rcases p2 with ⟨r2, w2⟩
        exact ih _ _ _ h2

theorem mulOuter_ne_inv (ags : List Nat) (l : List Nat) :
    ∀ j r, mulOuter ags l j r ≠ .error invalidVal := by
  induction l with
  | nil =>
      intro j r h
      simp [mulOuter, pure, Except.pure] at h
  | cons mj rest ih =>
      intro j r h
      unfold mulOuter at h
      simp only [] at h
      rcases bind_error_elim _ _ _ h with h1 | ⟨p2, hp, h2⟩
      · exact mulInner_ne_inv _ _ _ _ _ h1
      · rcases p2 with ⟨r2, c2⟩
        split at h2
        · rcases bind_error_elim _ _ _ h2 with h3 | ⟨p4, hp4, h4⟩
          · exact add_and_carry_ne_inv _ _ _ h3
          · rcases bind_error_elim _ _ _ h4 with h5 | ⟨r5, hr5, h6⟩
            · simp [pure, Except.pure] at h5
            · exact ih _ _ h6
        · rcases bind_error_elim _ _ _ h2 with h3 | ⟨r5, hr5, h6⟩
          · simp [pure, Except.pure] at h3
          · exact ih _ _ h6

theorem multiply_with_pos_ne_inv (a m : BigInteger) :
    multiply_with_pos a m ≠ .error invalidVal := by
  intro h
  unfold multiply_with_pos at h
  split at h
  · exact absurd h (by decide)
  · simp only [] at h
    rcases bind_error_elim _ _ _ h with h1 | ⟨r, hr, h2⟩
    · exact mulOuter_ne_inv _ _ _ _ h1
    · simp [pure, Except.pure] at h2

theorem mulAssignO_ne_inv (a b : BigInteger) (s : BigInteger) :
    mulAssignO a b ≠ .error (invalidVal, s) := by
  intro h
  unfold mulAssignO at h
  split at h
  · simp at h
  · simp only [] at h
    split at h
    · rename_i e heq
      injection h with h2
      rw [Prod.ext_iff] at h2
      obtain ⟨he, -⟩ := h2
      subst he
      split at heq
      · exact shift10W_ne_inv _ _ _ heq
      · exact multiply_with_pos_ne_inv _ _ heq
    · simp at h

theorem mulAssign_ne_inv (a b : BigInteger) :
    mulAssign a b ≠ .error invalidVal := by
  intro h
  unfold mulAssign at h
  rcases hm : mulAssignO a b with es | c
  · rw [hm] at h
    simp [Except.mapError] at h
    rcases es with ⟨e, s⟩
    simp at h
    rw [h] at hm
    exact mulAssignO_ne_inv a b s hm
  · rw [hm] at h
    simp [Except.mapError] at h

theorem foldlM_ne_inv (f : BigInteger → Nat → Except Err BigInteger)
    (hf : ∀ acc i, f acc i ≠ .error invalidVal) :
    ∀ (l : List Nat) (init : BigInteger),
      l.foldlM f init ≠ .error invalidVal := by
  intro l
  induction l with
  | nil =>
      intro init h
      simp [List.foldlM, pure, Except.pure] at h
  | cons x xs ih =>
      intro init h
      rw [List.foldlM_cons] at h
      rcases bind_error_elim _ _ _ h with h1 | ⟨b2, hb, h2⟩
      · exact hf _ _ h1
      · exact ih _ h2

theorem high_range_ne_inv (b : BigInteger) (n : Nat) :
    high_range b n ≠ .error invalidVal := by
  intro h
  unfold high_range at h
  simp only [] at h
  refine foldlM_ne_inv _ (fun acc i h2 => ?_) _ _ h
  rcases bind_error_elim _ _ _ h2 with h3 | ⟨s, hs, h4⟩
  · exact shift10W_ne_inv _ _ _ h3
  · exact addAssign_ne_inv _ _ h4

theorem searchLoop_ne_inv (dd dv : BigInteger) :
    ∀ fuel low high, searchLoop dd dv fuel low high ≠ .error invalidVal := by
  intro fuel
  induction fuel with
  | zero =>
      intro low high h
      unfold searchLoop at h
      simp [pure, Except.pure] at h
  | succ m ih =>
      intro low high h
      unfold searchLoop at h
      repeat' first
        | split at h
        | simp only [] at h
      all_goals try simp [pure, Except.pure] at h
      all_goals
        rcases bind_error_elim _ _ _ h with h1 | ⟨p, hp, h2⟩
      all_goals try exact mulAssign_ne_inv _ _ h1
      all_goals first
        | simp [pure, Except.pure] at h2
        | (split at h2 <;> exact ih _ _ h2)

theorem search_ne_inv (dd dv : BigInteger) :
    search dd dv ≠ .error invalidVal :=
  searchLoop_ne_inv dd dv 10000 1 9999

theorem divLoop_ne_inv (dv : BigInteger) :
    ∀ fuel a r, divLoop dv fuel a r ≠ .error invalidVal := by
  intro fuel
  induction fuel with
  | zero =>
      intro a r h
      unfold divLoop at h
      exact absurd h (by decide)
  | succ m ih =>
      intro a r h
      unfold divLoop at h
      try simp only [] at h
      split at h
      · simp [pure, Except.pure] at h
      · rcases bind_error_elim _ _ _ h with h1 | ⟨dd, hd, h2⟩
        · exact high_range_ne_inv _ _ h1
        · try simp only [] at h2
          split at h2
          · simp [pure, Except.pure] at h2
          · split at h2
            · simp [pure, Except.pure] at h2
            · try simp only [] at h2
              rcases bind_error_elim _ _ _ h2 with h3 | ⟨dd2, hdd, h4⟩
              · exact high_range_ne_inv _ _ h3
              · try simp only [] at h4
                rcases bind_error_elim _ _ _ h4 with h5 | ⟨q, hq, h6⟩
                · exact search_ne_inv _ _ h5
                · try simp only [] at h6
                  rcases bind_error_elim _ _ _ h6 with h7 | ⟨mult, hml, h8⟩
                  · exact mulAssign_ne_inv _ _ h7
                  · try simp only [] at h8
                    rcases bind_error_elim _ _ _ h8 with h9 | ⟨mult2, hm2, h10⟩
                    · exact shift10W_ne_inv _ _ _ h9
                    · try simp only [] at h10
                      rcases bind_error_elim _ _ _ h10 with h11 | ⟨a2, ha2, h12⟩
                      · exact subAssign_ne_inv _ _ h11
                      · exact ih _ _ h12

theorem divide_with_pos_ne_inv (a dv : BigInteger) :
    divide_with_pos a dv ≠ .error invalidVal :=
  divLoop_ne_inv dv (a.magOf + 1) a ⟨List.replicate a.group_size 0⟩

theorem divAssign_ne_inv (a b : BigInteger) :
    divAssign a b ≠ .error invalidVal := by
  intro h
  unfold divAssign at h
  repeat' first
    | split at h
    | simp only [] at h
  all_goals try exact absurd h (by decide)
  all_goals
    rcases bind_error_elim _ _ _ h with h1 | ⟨c, hc, h2⟩
  all_goals try exact shift10W_ne_inv _ _ _ h1
  all_goals try exact divide_with_pos_ne_inv _ _ h1
  all_goals simp [pure, Except.pure] at h2

theorem power_of_inv_char (fuel : Nat) :
    ∀ x n, power_of fuel x n = .error invalidVal →
      x.is_zero = true ∧ n.is_positive = false := by
  induction fuel with
  | zero =>
      intro x n h
      unfold power_of at h
      exact absurd h (by decide)
  | succ m ih =>
      intro x n h
      unfold power_of at h
      split at h
      · rename_i hc
        simp only [Bool.and_eq_true, Bool.not_eq_true'] at hc
        exact hc
      · rename_i hc1
        split at h
        · simp [pure, Except.pure] at h
        · rename_i hc2
          have hxz : x.is_zero = false := by
            rcases hz : x.is_zero with _ | _
            · rfl
            · exfalso
              apply hc2
              rw [hz]
              simp
          split at h
          · simp [pure, Except.pure] at h
          · split at h
            · simp [pure, Except.pure] at h
            · split at h
              · simp [pure, Except.pure] at h
              · try simp only [] at h
                split at h
                · try simp only [] at h
                  split at h
                  · exact absurd h (by decide)
                  · try simp only [] at h
                    split at h
                    · exact absurd h (by decide)
                    · try simp only [] at h
                      rcases bind_error_elim _ _ _ h with h1 | ⟨r, hr, h2⟩
                      · exact absurd h1 (shift10W_ne_inv _ _ _)
                      · simp [pure, Except.pure] at h2
                · try simp only [] at h
                  split at h
                  · exact absurd h (by decide)
                  · try simp only [] at h
                    split at h
                    · exact absurd h (by decide)
                    · try simp only [] at h
                      rcases bind_error_elim _ _ _ h with h1 | ⟨nh, hnh, h2⟩
                      · exact absurd h1 (divAssign_ne_inv _ _)
                      · try simp only [] at h2
                        rcases bind_error_elim _ _ _ h2 with h3 | ⟨r1, hr1, h4⟩
                        · have := (ih _ _ h3).1
                          rw [hxz] at this
                          exact absurd this (by decide)
                        · try simp only [] at h4
                          rcases bind_error_elim _ _ _ h4 with h5 | ⟨r2, hr2, h6⟩
                          · have := (ih _ _ h5).1
                            rw [hxz] at this
                            exact absurd this (by decide)
                          · try simp only [] at h6
                            rcases bind_error_elim _ _ _ h6 with h7 | ⟨r3, hr3, h8⟩
                            · exact absurd h7 (mulAssign_ne_inv _ _)
                            · split at h8
                              · exact absurd h8 (mulAssign_ne_inv _ _)
                              · simp [pure, Except.pure] at h8

/-! ## Facts about the oversized value `bigA` -/

theorem getLast?_cons_replicate (a c n : Nat) (h : n ≠ 0) :
    (a :: List.replicate n c).getLast? = some c := by
  obtain ⟨m, rfl⟩ := Nat.exists_eq_succ_of_ne_zero h
  rw [List.replicate_succ', ← List.cons_append, List.getLast?_concat]

theorem digits_cons_replicate (v c n : Nat) (hn : n ≠ 0) (hc : c < 10) :
    digits ⟨v :: List.replicate n c⟩ = 4 * n + 1 := by
  unfold digits backRaw group_size
  rw [getLast?_cons_replicate _ _ _ hn]
  simp only [Option.getD_some, List.length_cons, List.length_replicate]
  have h1 : c / 10 = 0 := Nat.div_eq_of_lt hc
  have h2 : c / 100 = 0 := Nat.div_eq_of_lt (by omega)
  have h3 : c / 1000 = 0 := Nat.div_eq_of_lt (by omega)
  have h4 : c / 10000 = 0 := Nat.div_eq_of_lt (by omega)
  simp only [h1, h2, h3, h4, ne_eq, not_true_eq_false, if_false,
    not_false_eq_true]
  omega

theorem digits_bigA : digits bigA = 4294967297 :=
  digits_cons_replicate 16385 1 1073741824 (by norm_num) (by norm_num)

theorem symbol_pos_mk_cons (v : Nat) (l : List Nat) :
    symbol_pos ⟨v :: l⟩ = ⟨v % 16384 :: l⟩ := by
  unfold symbol_pos mask
  simp only [List.getD_cons_zero, List.set_cons_zero]

theorem symbol_pos_bigA :
    bigA.symbol_pos = ⟨1 :: List.replicate 1073741824 1⟩ :=
  symbol_pos_mk_cons 16385 _

theorem is_zero_bigA : bigA.is_zero = false :=
  is_zero_mk_cons 16385 _ (by decide)

theorem multiply_with_pos_bigA :
    multiply_with_pos bigA.symbol_pos ⟨[3]⟩ = .error ovErr := by
  rw [symbol_pos_bigA]
  have hc : digits ⟨1 :: List.replicate 1073741824 1⟩
      + digits (⟨[3]⟩ : BigInteger) - 1 > MAX_DIGITS := by
    rw [digits_cons_replicate 1 1 1073741824 (by norm_num) (by norm_num),
      (by decide : digits (⟨[3]⟩ : BigInteger) = 1)]
    norm_num [MAX_DIGITS]
  unfold multiply_with_pos
  rw [if_pos hc]

theorem mulAssignO_overflow (a b : BigInteger) (e : Err)
    (ha : a.is_zero = false) (hb : b.is_zero = false)
    (hp : is_pow10 b.absolute = -1)
    (hm : multiply_with_pos a.symbol_pos b.absolute = .error e) :
    mulAssignO a b = .error (e, a.symbol_pos) := by
  unfold mulAssignO
  rw [ha, hb]
  simp only [Bool.or_self, Bool.false_eq_true, if_false]
  rw [hp, if_neg (by decide), hm]

theorem mulAssignO_bigA :
    mulAssignO bigA ⟨[3]⟩ = .error (ovErr, bigA.symbol_pos) :=
  mulAssignO_overflow bigA ⟨[3]⟩ ovErr is_zero_bigA (by decide) (by decide)
    multiply_with_pos_bigA

/-! ## Claim theorems (first group) -/

/-- C2 counterexample: moving from `BigInteger(5)` leaves the source with
an empty group vector, on which `is_zero()` is false and `to_string()` is
empty — not the claimed zero state. -/
theorem c2_counterexample :
    is_zero (moveFrom ⟨[5]⟩).2 = false ∧
    to_string (moveFrom ⟨[5]⟩).2 ≠ ['0'] := by decide

/-- C2 amended: after move construction or move assignment the source is
left holding an empty group sequence (the moved-from vector), not the
canonical zero: `is_zero()` on it is false, `is_negative()` is false, and
`to_string()` on it returns the empty string, not "0". -/
theorem c2_moved_from_empty (other : BigInteger) :
    (moveFrom other).1 = other ∧
    (moveFrom other).2 = ⟨[]⟩ ∧
    is_zero (moveFrom other).2 = false ∧
    is_negative (moveFrom other).2 = false ∧
    to_string (moveFrom other).2 = [] :=
  ⟨rfl, rfl, rfl, rfl, rfl⟩

/-- C6 (code bug): the right-shift branch taken when the shift amount
reaches the digit count executes `number_.clear()`, leaving the group
sequence empty — not the canonical zero `[0]` the representation invariant
("the sequence is never empty") requires; `is_zero()` on the result is
even false.  Failing input: the value 5 (groups `[5]`) shifted right
by 1. -/
theorem c6_right_shift_leaves_empty :
    shift10W ⟨[5]⟩ 1 ShiftType.kMoveRight = .ok ⟨[]⟩ ∧
    (BigInteger.mk [] ≠ BigInteger.mk [0]) ∧
    is_zero ⟨[]⟩ = false := by decide

/-- C10: parsing "-0" and "+0" produces the canonical zero `[0]` — equal
to `BigInteger(0)`, not negative, printing as "0" — because `_string_init`
returns the zero representation before the sign is ever applied. -/
theorem c10_parse_signed_zero :
    parseStr ("-0".toList) = .ok ⟨[0]⟩ ∧
    parseStr ("+0".toList) = .ok ⟨[0]⟩ ∧
    is_negative ⟨[0]⟩ = false ∧
    to_string ⟨[0]⟩ = ['0'] ∧
    (⟨[0]⟩ : BigInteger) = ofNat 0 := by decide

/-- C4: for every well-formed BigInteger `x` (non-empty groups, each group
in range, no most-significant zero group, no negative zero) whose group
count is within the representable bound, parsing the text `to_string(x)`
succeeds and returns `x` itself; hence
`to_string (parse (to_string x)) = to_string x`, including `x = 0` and
negative `x`. -/
theorem c4_round_trip (x : BigInteger) (hv : ValidRep x)
    (hlen : x.number_.length ≤ MAX_GROUPS) :
    parseStr (to_string x) = .ok x ∧
    (parseStr (to_string x)).map to_string = .ok (to_string x) := by
  have h : parseStr (to_string x) = .ok x := by
    rcases hz : x.is_zero with _ | _
    · exact string_init_to_string x 3 hv hz hlen
    · rw [eq_zero_of_valid x hv hz]
      decide
  rw [h]
  exact ⟨rfl, rfl⟩

/-- C4 witness: the round trip applied at the concrete value -10001
(groups `[16385, 1]`, which prints as "-10001": most-significant group
unpadded, second group zero-padded to 4 digits, minus sign prefixed). -/
theorem c4_witness :
    ValidRep ⟨[16385, 1]⟩ ∧
    parseStr (to_string ⟨[16385, 1]⟩) = .ok ⟨[16385, 1]⟩ :=
  ⟨by decide, (c4_round_trip ⟨[16385, 1]⟩ (by decide) (by decide)).1⟩

/-- C7 counterexample: on a negative value the multiple-of-4 fast path and
the generic string path of `_shift10` disagree in both directions.  Left:
the value -1 (group `[0x4001]`) shifted left by 4 — the fast path inserts a
zero group below the sign-carrying group, producing `[0, 0x4001]`, while
the string path formats "-1", appends "0000" and re-parses "-10000" to
`[0x4000, 1]`; the two results are different vectors (and denote 10000
vs -10000).  Right: -10000 (`[0x4000, 1]`) shifted right by 4 — the fast
path erases the sign-carrying group leaving `[1]` (+1), the string path
trims "-10000" to "-1" and re-parses to `[0x4001]` (-1). -/
theorem c7_counterexample :
    (shiftLeftFast ⟨[16385]⟩ 4 = ⟨[0, 16385]⟩ ∧
     shiftLeftGeneric ⟨[16385]⟩ 4 = .ok ⟨[16384, 1]⟩ ∧
     Except.ok (shiftLeftFast ⟨[16385]⟩ 4) ≠ shiftLeftGeneric ⟨[16385]⟩ 4 ∧
     toIntVal ⟨[0, 16385]⟩ = 10000 ∧ toIntVal ⟨[16384, 1]⟩ = -10000) ∧
    (shiftRightFast ⟨[16384, 1]⟩ 4 = ⟨[1]⟩ ∧
     shiftRightGeneric ⟨[16384, 1]⟩ 4 = .ok ⟨[16385]⟩ ∧
     Except.ok (shiftRightFast ⟨[16384, 1]⟩ 4)
       ≠ shiftRightGeneric ⟨[16384, 1]⟩ 4 ∧
     toIntVal ⟨[1]⟩ = 1 ∧ toIntVal ⟨[16385]⟩ = -1) := by decide

/-- C7 amended: on a well-formed NON-NEGATIVE non-zero value and a shift
amount that is a multiple of 4, the fast path and the generic string path
agree in both directions — left whenever the result stays within the group
bound, right whenever the amount is below the value's digit count (the
branch condition under which `_shift10` uses these paths). -/
theorem c7_fast_generic_amended (b : BigInteger) (n : Nat)
    (hv : ValidRep b) (hneg : b.is_negative = false) (hnz : b.is_zero = false)
    (h4 : n % 4 = 0) :
    (n / 4 + b.number_.length ≤ MAX_GROUPS →
      shiftLeftGeneric b n = .ok (shiftLeftFast b n)) ∧
    (n < b.digits → b.number_.length ≤ MAX_GROUPS →
      shiftRightGeneric b n = .ok (shiftRightFast b n)) :=
  ⟨fun hlen => shiftLeft_fast_eq_generic b n hv hneg hnz h4 hlen,
   fun hn hlen => shiftRight_fast_eq_generic b n hv hneg hnz h4 hn hlen⟩

/-- C7 witness: the amended equivalence applied at the value 10000 (groups
`[0, 1]`) shifted by 4 in each direction. -/
theorem c7_witness :
    shiftLeftGeneric ⟨[0, 1]⟩ 4 = .ok (shiftLeftFast ⟨[0, 1]⟩ 4) ∧
    shiftRightGeneric ⟨[0, 1]⟩ 4 = .ok (shiftRightFast ⟨[0, 1]⟩ 4) :=
  ⟨(c7_fast_generic_amended ⟨[0, 1]⟩ 4 (by decide) (by decide) (by decide)
      (by decide)).1 (by decide),
   (c7_fast_generic_amended ⟨[0, 1]⟩ 4 (by decide) (by decide) (by decide)
      (by decide)).2 (by decide) (by decide)⟩

/-- C5 amended: `power` fails with InvalidValueError exactly when the base
is zero AND the exponent is NON-POSITIVE (zero or negative) — `0^0` also
fails, not only negative exponents — and a zero base with a positive
exponent returns 0.  (No other code path produces InvalidValueError.) -/
theorem c5_power_invalid_iff (x n : BigInteger) :
    (power x n = .error invalidVal ↔
      x.is_zero = true ∧ n.is_positive = false) ∧
    (x.is_zero = true → n.is_positive = true → power x n = .ok (ofNat 0)) := by
  constructor
  · constructor
    · exact fun h => power_of_inv_char _ x n h
    · rintro ⟨hz, hp⟩
      unfold power power_of
      simp [hz, hp]
  · intro hz hp
    unfold power power_of
    simp [hz, hp, pure, Except.pure]

/-- C5 witness: the iff applied at 0^(-1) (error) and 0^1 (ok 0). -/
theorem c5_witness :
    power ⟨[0]⟩ ⟨[16385]⟩ = .error invalidVal ∧
    power ⟨[0]⟩ ⟨[1]⟩ = .ok (ofNat 0) :=
  ⟨(c5_power_invalid_iff ⟨[0]⟩ ⟨[16385]⟩).1.mpr ⟨by decide, by decide⟩,
   (c5_power_invalid_iff ⟨[0]⟩ ⟨[1]⟩).2 (by decide) (by decide)⟩

/-- C5 counterexample: `0^0` fails with InvalidValueError although the
exponent 0 is not negative (the source tests `!n.is_positive()`, not
`n.is_negative()`); and the nonzero base 10001 with exponent -1 fails
(with OverflowError) on account of the exponent being negative — its group
0 is 1, so the return-zero branch `_group(0) != 1 && n.is_negative()` is
skipped and `to_integer<uint32_t>` rejects the negative exponent. -/
theorem c5_counterexample :
    power ⟨[0]⟩ ⟨[0]⟩ = .error invalidVal ∧
    is_negative ⟨[0]⟩ = false ∧
    power ⟨[1, 1]⟩ ⟨[16385]⟩ = .error ovErr ∧
    is_zero ⟨[1, 1]⟩ = false ∧
    is_negative ⟨[16385]⟩ = true := by decide

/-- C9 counterexample: `max_digits()` is `static_cast<size_t>(-4)`; with
the 64-bit `size_t` of an x64 build it returns 2^64 - 4, not the claimed
4294967292. -/
theorem c9_counterexample : max_digits 64 ≠ 4294967292 := by decide

/-- C9 amended: `max_digits()` returns `2^w - 4` for a `w`-bit `size_t`
(4294967292 = 2^32 - 4 exactly when `w` = 32), while the threshold at
which multiply and left shift (and through them, power) fail with
OverflowError is the fixed constant `MAX_DIGITS` = 0xFFFFFFFC =
4294967292, independent of the platform. -/
theorem c9_max_digits_amended :
    (max_digits 32 = 4294967292 ∧ MAX_DIGITS = 4294967292 ∧
      MAX_DIGITS = 2 ^ 32 - 4) ∧
    (∀ (fuel : Nat) (b : BigInteger) (n : Nat), b.is_zero = false →
      digits b + n > MAX_DIGITS →
      shift10 (fuel + 1) b n ShiftType.kMoveLeft = .error ovErr) ∧
    (∀ a m : BigInteger, a.digits + m.digits - 1 > MAX_DIGITS →
      multiply_with_pos a m = .error ovErr) := by
  refine ⟨⟨by decide, by decide, by decide⟩, ?_, ?_⟩
  · intro fuel b n hz hgt
    unfold shift10
    rw [hz]
    simp only [Bool.false_eq_true, if_false, if_true]
    rw [if_pos hgt]
  · intro a m hgt
    unfold multiply_with_pos
    rw [if_pos hgt]

/-- C9 witness: the shift-left overflow conjunct applied at the value 1
shifted by 4294967292 digits, and the multiply conjunct applied at the
oversized `bigA` times 3. -/
theorem c9_witness :
    shift10W ⟨[1]⟩ 4294967292 ShiftType.kMoveLeft = .error ovErr ∧
    multiply_with_pos bigA ⟨[3]⟩ = .error ovErr :=
  ⟨c9_max_digits_amended.2.1 3 ⟨[1]⟩ 4294967292 (by decide) (by decide),
   c9_max_digits_amended.2.2 bigA ⟨[3]⟩ (by
     rw [digits_bigA, (by decide : digits (⟨[3]⟩ : BigInteger) = 1)]
     norm_num [MAX_DIGITS])⟩

/-- C3 counterexample: `operator*=` executes `_symbol_pos()` on the
receiver before `_multiply_with_pos` runs its up-front overflow check, so
when that check throws, a negative receiver has lost its sign: multiplying
the oversized negative `bigA` by 3 fails with "Overflow." and leaves the
receiver sign-stripped, not unchanged. -/
theorem c3_counterexample :
    mulAssignO bigA ⟨[3]⟩ = .error (ovErr, bigA.symbol_pos) ∧
    bigA.symbol_pos ≠ bigA := by
  refine ⟨mulAssignO_bigA, ?_⟩
  rw [symbol_pos_bigA]
  intro h
  have h0 : (1 : Nat) = 16385 := congrArg (fun b => b.number_.getD 0 0) h
  exact absurd h0 (by decide)

/-- C3 amended: when `operator*=` fails, the receiving operand is left
with its magnitude groups intact but its sign cleared (the state
`_symbol_pos()` produced before the failing check ran); it is unchanged
only when it was non-negative to begin with. -/
theorem c3_mul_error_state (a b : BigInteger) (e : Err) (s : BigInteger)
    (h : mulAssignO a b = .error (e, s)) : s = a.symbol_pos := by
  unfold mulAssignO at h
  split at h
  · exact absurd h (by simp)
  · simp only [] at h
    split at h
    · simp only [Except.error.injEq, Prod.mk.injEq] at h
      exact h.2.symm
    · exact absurd h (by simp)

/-- C3 witness: the amended theorem applied at the concrete failing
multiplication `bigA *= 3`. -/
theorem c3_witness : bigA.symbol_pos = bigA.symbol_pos :=
  c3_mul_error_state bigA ⟨[3]⟩ ovErr bigA.symbol_pos mulAssignO_bigA

/-- C1: the Euclidean identity of the division operators.  For valid
operands, whenever `a / b` yields `q` (`operator/=`), `q * b` yields `t`
(`operator*=`), `a % b` yields `r` (`operator%=`), and `t + r` yields `s`
(`operator+=`), then `s = a`: `(a / b) * b + (a % b) == a` for every
combination of operand signs and magnitudes (a zero divisor is excluded
by `operator%=` itself, which throws before computing anything). -/
theorem c1_div_mod_identity (a b q t r s : BigInteger)
    (ha : ValidRep a) (hb : ValidRep b)
    (hq : divAssign a b = .ok q) (ht : mulAssign q b = .ok t)
    (hr : modAssign a b = .ok r) (hs : addAssign t r = .ok s) :
    s = a := by
  unfold modAssign at hr
  rcases hbz : b.is_zero with _ | _
  · rw [hbz] at hr
    rw [if_neg (by simp)] at hr
    obtain ⟨d, hd, hr2⟩ := bind_ok_elim _ _ _ hr
    rw [hq] at hd
    injection hd with hd2
    subst hd2
    obtain ⟨tmp, htmp, hr3⟩ := bind_ok_elim _ _ _ hr2
    rw [ht] at htmp
    injection htmp with htmp2
    subst htmp2
    have hqv : ValidRep q := divAssign_valid a b q ha hb hq
    have htv : ValidRep t := mulAssign_valid q b t hqv hb ht
    obtain ⟨hrv, hrval⟩ := subAssign_spec a t ha htv r hr3
    obtain ⟨hsv, hsval⟩ := addAssign_spec t r htv hrv s hs
    apply toIntVal_inj s a hsv ha
    rw [hsval, hrval]
    ring
  · rw [hbz] at hr
    rw [if_pos rfl] at hr
    exact absurd hr (by simp)

/-- Witness for C1 at a = 7, b = 2: the operators compute 7 / 2 = 3,
3 * 2 = 6, 7 % 2 = 1, 6 + 1 = 7, and the theorem closes the loop. -/
theorem c1_witness :
    divAssign ⟨[7]⟩ ⟨[2]⟩ = .ok ⟨[3]⟩ ∧
    mulAssign ⟨[3]⟩ ⟨[2]⟩ = .ok ⟨[6]⟩ ∧
    modAssign ⟨[7]⟩ ⟨[2]⟩ = .ok ⟨[1]⟩ ∧
    addAssign ⟨[6]⟩ ⟨[1]⟩ = .ok ⟨[7]⟩ ∧
    (⟨[7]⟩ : BigInteger) = ⟨[7]⟩ :=
  ⟨rfl, rfl, rfl, rfl,
   c1_div_mod_identity ⟨[7]⟩ ⟨[2]⟩ ⟨[3]⟩ ⟨[6]⟩ ⟨[1]⟩ ⟨[7]⟩
     (by decide) (by decide) rfl rfl rfl rfl⟩

end Redbud.BigInteger

-- scratch sanity checks (to be removed)
example : Redbud.BigInteger.is_negative ⟨[16385]⟩ = true := by decide
example : Redbud.BigInteger.magL [16385] = 1 := by decide
example : Redbud.BigInteger.parseStr ("123".toList) = .ok ⟨[123]⟩ := by decide
example : Redbud.BigInteger.parseStr ("-10000".toList) = .ok ⟨[16384, 1]⟩ := by
  decide
example : Redbud.BigInteger.parseStr ("1.25e7".toList) = .ok ⟨[0, 1250]⟩ := by
  decide
example : Redbud.BigInteger.parseStr ("-0".toList) = .ok ⟨[0]⟩ := by decide
example : Redbud.BigInteger.to_string ⟨[16384, 1]⟩ = "-10000".toList := by decide
example : Redbud.BigInteger.parseStr ("1.25e2".toList) = .ok ⟨[125]⟩ := by decide
example : Redbud.BigInteger.parseStr ("1.25e1".toList) =
    .error Redbud.notIntegerStr := by decide
example : Redbud.BigInteger.addAssign ⟨[123]⟩ ⟨[456]⟩ = .ok ⟨[579]⟩ := by decide
example : Redbud.BigInteger.divAssign ⟨[7]⟩ ⟨[2]⟩ = .ok ⟨[3]⟩ := by decide
example : Redbud.BigInteger.modAssign ⟨[7]⟩ ⟨[2]⟩ = .ok ⟨[1]⟩ := by decide
example : Redbud.BigInteger.mulAssign ⟨[3]⟩ ⟨[16386]⟩ = .ok ⟨[16390]⟩ := by decide
example : Redbud.BigInteger.divAssign ⟨[0, 1]⟩ ⟨[10]⟩ = .ok ⟨[1000]⟩ := by decide
example : Redbud.BigInteger.power ⟨[16389]⟩ ⟨[3]⟩ = .ok ⟨[16509]⟩ := by decide
example : Redbud.BigInteger.power ⟨[0]⟩ ⟨[16385]⟩ =
    .error Redbud.invalidVal := by decide
example : Redbud.BigInteger.divAssign ⟨[9999, 9999]⟩ ⟨[5000]⟩ =
    .ok ⟨[9999, 1]⟩ := by decide
example : Redbud.BigInteger.subAssign ⟨[123]⟩ ⟨[456]⟩ = .ok ⟨[16717]⟩ := by decide
